import Mathlib

/-!
# Verification of the chess move-quality analysis pipeline

Shallow embedding of the backend analysis pipeline of the repository
(`server.js` and `coach.js`): verdict classifier, engine score conversion,
single-flight engine queue, LRU evaluation cache, PGN normalization and
loose recovery parsing, coach annotator, and the per-game orchestrator
loop of the `/analyzeGame` route.

External collaborators (the `chess.js` move validator, the Stockfish
engine oracle, the text-generation oracle) are passed in as function
parameters, mirroring the interfaces the code consumes.
-/

namespace ChessAnalyzer

/-! ## Verdict classifier (`coach.js`, `verdictFromDeltaCp`) -/

inductive Verdict where
  | Okay
  | Inaccuracy
  | Mistake
  | Blunder
deriving DecidableEq, Repr

/-- `verdictFromDeltaCp` from `coach.js`:
`const d = Math.abs(deltaCp ?? 0); if (d >= 200) return "Blunder";
if (d >= 80) return "Mistake"; if (d >= 30) return "Inaccuracy"; return "Okay";`.
A missing (`undefined`) delta is modelled as `none`. -/
def verdictFromDeltaCp (deltaCp : Option Int) : Verdict :=
  let d : Int := |deltaCp.getD 0|
  if d ≥ 200 then .Blunder
  else if d ≥ 80 then .Mistake
  else if d ≥ 30 then .Inaccuracy
  else .Okay

/-! ## Engine score conversion (`server.js`, `toCp`) -/

/-- A parsed engine score line: either a forced-mate distance or a
centipawn value (`score` objects built in `analyzeFen`). -/
inductive Score where
  | mate (value : Int)
  | cp (value : Int)
deriving DecidableEq, Repr

/-- `toCp` from `server.js`:
`if (!score) return 0; if (score.type === "mate") return score.value > 0 ? 100000 : -100000;
return score.value;`.  A missing score (`undefined`) is `none`. -/
def toCp (score : Option Score) : Int :=
  match score with
  | none => 0
  | some (.mate v) => if v > 0 then 100000 else -100000
  | some (.cp v) => v

/-- C1: the verdict classifier is a total pure function of the centipawn
delta: with `d` the absolute value of the input (a missing delta treated as
zero), it returns `Blunder` for `d ≥ 200`, `Mistake` for `80 ≤ d < 200`,
`Inaccuracy` for `30 ≤ d < 80` and `Okay` for `d < 30`; the boundary values
`200/199/80/79/30/29/0` classify as stated, and the classifier is symmetric
in the sign of the delta. -/
theorem c1_verdict_classifier :
    (∀ o : Option Int,
      (200 ≤ |o.getD 0| → verdictFromDeltaCp o = .Blunder) ∧
      (80 ≤ |o.getD 0| ∧ |o.getD 0| < 200 → verdictFromDeltaCp o = .Mistake) ∧
      (30 ≤ |o.getD 0| ∧ |o.getD 0| < 80 → verdictFromDeltaCp o = .Inaccuracy) ∧
      (|o.getD 0| < 30 → verdictFromDeltaCp o = .Okay)) ∧
    verdictFromDeltaCp none = verdictFromDeltaCp (some 0) ∧
    verdictFromDeltaCp (some 200) = .Blunder ∧
    verdictFromDeltaCp (some 199) = .Mistake ∧
    verdictFromDeltaCp (some 80) = .Mistake ∧
    verdictFromDeltaCp (some 79) = .Inaccuracy ∧
    verdictFromDeltaCp (some 30) = .Inaccuracy ∧
    verdictFromDeltaCp (some 29) = .Okay ∧
    verdictFromDeltaCp (some 0) = .Okay ∧
    (∀ d : Int, verdictFromDeltaCp (some d) = verdictFromDeltaCp (some (-d))) := by
  refine ⟨?_, by decide, by decide, by decide, by decide, by decide, by decide,
    by decide, by decide, ?_⟩
  · intro o
    refine ⟨?_, ?_, ?_, ?_⟩ <;> intro h <;>
      simp only [verdictFromDeltaCp] <;> split_ifs <;>
        first | rfl | omega
  · intro d
    simp only [verdictFromDeltaCp, Option.getD_some, abs_neg]

/-- Closed instance discharging the conditional parts of
`c1_verdict_classifier` at concrete deltas. -/
theorem c1_verdict_classifier_witness :
    verdictFromDeltaCp (some 250) = .Blunder ∧
    verdictFromDeltaCp (some (-100)) = .Mistake ∧
    verdictFromDeltaCp (some 45) = .Inaccuracy ∧
    verdictFromDeltaCp (some (-7)) = .Okay :=
  ⟨(c1_verdict_classifier.1 (some 250)).1 (by decide),
   ((c1_verdict_classifier.1 (some (-100))).2.1) (by decide),
   ((c1_verdict_classifier.1 (some 45)).2.2.1) (by decide),
   ((c1_verdict_classifier.1 (some (-7))).2.2.2) (by decide)⟩

/-- C4: `toCp` clamps a forced-mate score to magnitude `100000` signed by
the mate direction (positive distance to `+100000`, non-positive to
`-100000`) and passes a plain centipawn score through unchanged. -/
theorem c4_toCp_mate_clamp :
    (∀ v : Int, 0 < v → toCp (some (.mate v)) = 100000) ∧
    (∀ v : Int, v ≤ 0 → toCp (some (.mate v)) = -100000) ∧
    (∀ v : Int, |toCp (some (.mate v))| = 100000) ∧
    (∀ c : Int, toCp (some (.cp c)) = c) := by
  refine ⟨?_, ?_, ?_, fun c => rfl⟩
  · intro v hv; simp only [toCp, if_pos hv]
  · intro v hv; simp only [toCp]; rw [if_neg (by omega)]
  · intro v; simp only [toCp]; split_ifs <;> decide

/-- Closed instance discharging the conditional parts of
`c4_toCp_mate_clamp` at concrete mate distances. -/
theorem c4_toCp_mate_clamp_witness :
    toCp (some (.mate 3)) = 100000 ∧ toCp (some (.mate 0)) = -100000 ∧
    toCp (some (.mate (-2))) = -100000 ∧ toCp (some (.cp (-17))) = -17 :=
  ⟨c4_toCp_mate_clamp.1 3 (by decide),
   c4_toCp_mate_clamp.2.1 0 (by decide),
   c4_toCp_mate_clamp.2.1 (-2) (by decide),
   c4_toCp_mate_clamp.2.2.2 (-17)⟩

/-! ## Single-flight engine queue (`server.js`, `enqueue` / `pump`)

```
const queue = [];
let busy = false;
function enqueue(fn) {
    return new Promise((res, rej) => { queue.push({ fn, res, rej }); pump(); });
}
async function pump() {
    if (busy || queue.length === 0) return;
    busy = true;
    const { fn, res, rej } = queue.shift();
    try { res(await fn()); } catch (e) { rej(e); } finally { busy = false; pump(); }
}
```

Requests are identified by natural numbers.  `running` holds the requests
currently awaited against the oracle (the body of `pump` between
`queue.shift()` and the `finally` clause); the code does not bound it by
construction — that it never holds two requests is proved below. -/

structure QueueState where
  submitted : List Nat
  queue : List Nat
  running : List Nat
  busy : Bool
  done : List Nat
deriving DecidableEq, Repr

/-- One asynchronous transition of the queue: a new submission
(`queue.push` in `enqueue`), the pump picking up work (the guard
`if (busy || queue.length === 0) return` followed by `busy = true` and
`queue.shift()`), or a request settling (the `finally` clause clearing
`busy`). -/
inductive QueueStep : QueueState → QueueState → Prop where
  | enqueue (s : QueueState) (r : Nat) :
      QueueStep s { s with submitted := s.submitted ++ [r],
                           queue := s.queue ++ [r] }
  | pumpStart (s : QueueState) (r : Nat) (rest : List Nat) :
      s.busy = false → s.queue = r :: rest →
      QueueStep s { s with queue := rest, running := s.running ++ [r],
                           busy := true }
  | finish (s : QueueState) (r : Nat) (rs : List Nat) :
      s.running = r :: rs →
      QueueStep s { s with running := rs, busy := false,
                           done := s.done ++ [r] }

def initQueueState : QueueState := ⟨[], [], [], false, []⟩

def QueueReachable (s : QueueState) : Prop :=
  Relation.ReflTransGen QueueStep initQueueState s

/-- Invariant of the single-flight queue. -/
def QueueInv (s : QueueState) : Prop :=
  (s.busy = false → s.running = []) ∧
  s.running.length ≤ 1 ∧
  s.done ++ s.running ++ s.queue = s.submitted

theorem queueInv_init : QueueInv initQueueState := by
  refine ⟨fun _ => rfl, by simp [initQueueState], rfl⟩

theorem queueInv_step {s s' : QueueState} (hinv : QueueInv s)
    (hstep : QueueStep s s') : QueueInv s' := by
  obtain ⟨hidle, hone, horder⟩ := hinv
  cases hstep with
  | enqueue r =>
      refine ⟨hidle, hone, ?_⟩
      simp only [← horder, List.append_assoc]
  | pumpStart r rest hbusy hq =>
      have hrun : s.running = [] := hidle hbusy
      refine ⟨fun h => by simp at h, by simp [hrun], ?_⟩
      simp only [hrun, List.nil_append, List.append_nil] at horder ⊢
      simp [← horder, hq]
  | finish r rs hr =>
      have hrs : rs = [] := by
        have := hone
        rw [hr] at this
        simpa using this
      subst hrs
      refine ⟨fun _ => rfl, by simp, ?_⟩
      simp only [← horder, hr]
      simp

/-- C3: in every reachable state of the single-flight queue, at most one
request is in flight against the oracle, and the settled requests, the
in-flight request and the still-queued requests — in that order — are
exactly the requests in submission order (FIFO, no priority, none dropped
or reordered). -/
theorem c3_queue_single_flight_fifo (s : QueueState)
    (h : QueueReachable s) :
    s.running.length ≤ 1 ∧ s.done ++ s.running ++ s.queue = s.submitted := by
  have hinv : QueueInv s := by
    induction h with
    | refl => exact queueInv_init
    | tail _ hstep ih => exact queueInv_step ih hstep
  exact ⟨hinv.2.1, hinv.2.2⟩

/-- Closed run of the queue: submit request `5`, pump it, let it settle;
the reachable end state satisfies `c3_queue_single_flight_fifo`. -/
theorem c3_queue_single_flight_fifo_witness :
    (QueueState.mk [5] [] [] false [5]).running.length ≤ 1 ∧
    (QueueState.mk [5] [] [] false [5]).done ++
      (QueueState.mk [5] [] [] false [5]).running ++
      (QueueState.mk [5] [] [] false [5]).queue =
      (QueueState.mk [5] [] [] false [5]).submitted := by
  apply c3_queue_single_flight_fifo
  have h1 : QueueStep initQueueState (QueueState.mk [5] [5] [] false []) := by
    simpa [initQueueState] using QueueStep.enqueue initQueueState 5
  have h2 : QueueStep (QueueState.mk [5] [5] [] false [])
      (QueueState.mk [5] [] [5] true []) := by
    simpa using QueueStep.pumpStart (QueueState.mk [5] [5] [] false []) 5 [] rfl rfl
  have h3 : QueueStep (QueueState.mk [5] [] [5] true [])
      (QueueState.mk [5] [] [] false [5]) := by
    simpa using QueueStep.finish (QueueState.mk [5] [] [5] true []) 5 [] rfl
  exact Relation.ReflTransGen.tail
    (Relation.ReflTransGen.tail (Relation.ReflTransGen.tail .refl h1) h2) h3

/-! ### The drain loop of `pump` with failing work functions -/

/-- `try { res(await fn()) } catch (e) { rej(e) }`: the settlement of one
request — its promise is resolved with the value, or rejected with the
thrown failure. -/
def settle {E V : Type} (fn : Nat → Except E V) (r : Nat) :
    Nat × Except E V :=
  match fn r with
  | .ok v => (r, .ok v)
  | .error e => (r, .error e)

/-- The drain loop of `pump`: settle the head request, then the `finally`
clause re-invokes `pump` on the rest of the queue — regardless of whether
the settlement was a resolution or a rejection. -/
def pumpRun {E V : Type} (fn : Nat → Except E V) :
    List Nat → List (Nat × Except E V) → List (Nat × Except E V)
  | [], done => done
  | r :: rest, done => pumpRun fn rest (done ++ [settle fn r])

theorem settle_eq {E V : Type} (fn : Nat → Except E V) (r : Nat) :
    settle fn r = (r, fn r) := by
  unfold settle
  cases fn r <;> rfl

theorem pumpRun_eq {E V : Type} (fn : Nat → Except E V) (q : List Nat)
    (done : List (Nat × Except E V)) :
    pumpRun fn q done = done ++ q.map fun r => (r, fn r) := by
  induction q generalizing done with
  | nil => simp [pumpRun]
  | cons r rest ih => simp [pumpRun, ih, settle_eq]

/-- C6: if the work function of the `i`-th queued request throws, draining
the queue still settles every request: the failing request's promise is
rejected with that failure, and every other request — in particular every
subsequently queued one — is still executed and settled with its own
outcome, in queue order. -/
theorem c6_queue_failure_does_not_block {E V : Type}
    (fn : Nat → Except E V) (q : List Nat) (i : Nat) (hi : i < q.length)
    (e : E) (hf : fn (q.get ⟨i, hi⟩) = .error e) :
    (pumpRun fn q []).map Prod.fst = q ∧
    (pumpRun fn q [])[i]? = some (q.get ⟨i, hi⟩, .error e) ∧
    ∀ j (hj : j < q.length),
      (pumpRun fn q [])[j]? = some (q.get ⟨j, hj⟩, fn (q.get ⟨j, hj⟩)) := by
  rw [pumpRun_eq]
  simp only [List.nil_append]
  refine ⟨by rw [List.map_map, show (Prod.fst ∘ fun r => (r, fn r)) = id from rfl,
    List.map_id], ?_, ?_⟩
  · rw [List.getElem?_map]
    simp only [List.getElem?_eq_getElem hi, Option.map_some]
    rw [List.get_eq_getElem] at hf
    simp [hf]
  · intro j hj
    rw [List.getElem?_map]
    simp [List.getElem?_eq_getElem hj]

/-- Closed instance of `c6_queue_failure_does_not_block`: request `1` of
the queue `[0, 1, 2]` throws, requests `0` and `2` still settle. -/
theorem c6_queue_failure_does_not_block_witness :
    (pumpRun (fun n => if n = 1 then .error "boom" else .ok n)
        [0, 1, 2] []).map Prod.fst = [0, 1, 2] ∧
    (pumpRun (fun n => if n = 1 then .error "boom" else .ok n)
        [0, 1, 2] [])[1]? = some (([0, 1, 2].get ⟨1, by decide⟩ : Nat), .error "boom") ∧
    ∀ j (hj : j < ([0, 1, 2] : List Nat).length),
      (pumpRun (fun n => if n = 1 then .error "boom" else .ok n)
        [0, 1, 2] [])[j]? =
        some (([0, 1, 2] : List Nat).get ⟨j, hj⟩,
          (fun n => if n = 1 then .error "boom" else .ok n)
            (([0, 1, 2] : List Nat).get ⟨j, hj⟩)) :=
  c6_queue_failure_does_not_block
    (fun n => if n = 1 then .error "boom" else .ok n) [0, 1, 2] 1
    (by decide) "boom" (by simp)

/-! ## Evaluation cache (`server.js`, `evalCache` / `analyzeFenCached`)

```
const evalCache = new LRUCache({ max: 10_000 });
async function analyzeFenCached({ fen, depth = 16, multipv = 3, movetime }) {
    const key = `${fen}|${depth}|${multipv}|${movetime || 0}`;
    if (evalCache.has(key)) return evalCache.get(key);
    const out = await analyzeFen({ fen, depth, multipv, movetime });
    evalCache.set(key, out);
    return out;
}
```
-/

/-- One evaluation request: the arguments of `analyzeFen` /
`analyzeFenCached`. -/
structure EngineQuery where
  fen : String
  depth : Nat
  multipv : Nat
  movetime : Option Nat
deriving DecidableEq, Repr

/-- Decimal digit character, `48 + d` in code points — the `d`-th digit as
JavaScript number-to-string conversion renders it. -/
def digitChar (d : Nat) : Char := Char.ofNat (48 + d)

/-- Fuelled decimal rendering loop (the fuel is structural; any fuel above
the number of digits gives the standard decimal numeral). -/
def natDecGo : Nat → Nat → List Char
  | 0, _ => []
  | fuel + 1, n =>
      if n < 10 then [digitChar n]
      else natDecGo fuel (n / 10) ++ [digitChar (n % 10)]

/-- Decimal rendering of a natural number, as a JavaScript template
literal `${n}` renders it. -/
def natDec (n : Nat) : String := ⟨natDecGo (n + 1) n⟩

/-- The cache key `` `${fen}|${depth}|${multipv}|${movetime || 0}` ``:
`movetime` absent (or `0`, both falsy) renders as `0`. -/
def mkKey (q : EngineQuery) : String :=
  q.fen ++ "|" ++ natDec q.depth ++ "|" ++ natDec q.multipv ++ "|" ++
    natDec (q.movetime.getD 0)

/-- The `lru-cache` store: a most-recently-used-first association list
bounded by `max` entries. -/
structure LRU (V : Type) where
  max : Nat
  entries : List (String × V)

/-- Keys currently stored, most recent first. -/
def LRU.keys {V : Type} (c : LRU V) : List String :=
  c.entries.map Prod.fst

/-- `cache.get(key)`: returns the stored value and marks the entry most
recently used; absent keys leave the cache unchanged. -/
def LRU.touchGet {V : Type} (c : LRU V) (k : String) : Option V × LRU V :=
  match c.entries.find? (fun p => p.1 == k) with
  | some p => (some p.2, ⟨c.max, p :: c.entries.filter (fun e => !(e.1 == k))⟩)
  | none => (none, c)

/-- `cache.set(key, value)`: inserts most-recently-used, replacing any
previous entry for the key and evicting least-recently-used entries beyond
capacity. -/
def LRU.set {V : Type} (c : LRU V) (k : String) (v : V) : LRU V :=
  ⟨c.max, ((k, v) :: c.entries.filter (fun e => !(e.1 == k))).take c.max⟩

/-- `cache.has(key)` / `cache.get(key)` as a plain lookup. -/
def LRU.lookup {V : Type} (c : LRU V) (k : String) : Option V :=
  (c.entries.find? (fun p => p.1 == k)).map Prod.snd

/-- `analyzeFenCached`: on a hit return the cached value (touching the
entry, not the queue); on a miss run the oracle through the single-flight
queue, store the result under the key, and return it.  The third component
records whether the request was submitted to the queue. -/
def analyzeFenCached {V : Type} (oracle : EngineQuery → V) (c : LRU V)
    (q : EngineQuery) : V × LRU V × Bool :=
  match c.touchGet (mkKey q) with
  | (some v, c') => (v, c', false)
  | (none, _) => (oracle q, c.set (mkKey q) (oracle q), true)

/-- A sequence of non-overlapping `analyzeFenCached` calls against one
cache; the second component logs the requests actually submitted to the
queue, in order. -/
def runCached {V : Type} (oracle : EngineQuery → V) :
    LRU V → List EngineQuery → LRU V × List EngineQuery
  | c, [] => (c, [])
  | c, q :: qs =>
      let step := analyzeFenCached oracle c q
      let rest := runCached oracle step.2.1 qs
      (rest.1, (if step.2.2 then [q] else []) ++ rest.2)

/-! ### Decimal rendering facts and key separation -/

/-- Decimal value of a digit string (left inverse of `natDecGo`). -/
def decVal (l : List Char) : Nat :=
  l.foldl (fun a c => 10 * a + (c.toNat - 48)) 0

theorem digitChar_toNat {d : Nat} (h : d < 10) : (digitChar d).toNat = 48 + d := by
  interval_cases d <;> rfl

theorem decVal_append (l : List Char) (c : Char) :
    decVal (l ++ [c]) = 10 * decVal l + (c.toNat - 48) := by
  simp [decVal, List.foldl_append]

theorem decVal_natDecGo : ∀ fuel n, n < fuel → decVal (natDecGo fuel n) = n := by
  intro fuel
  induction fuel with
  | zero => intro n h; omega
  | succ f ih =>
      intro n h
      by_cases h10 : n < 10
      · simp [natDecGo, h10, decVal, digitChar_toNat h10]
      · have hdiv : n / 10 < n := Nat.div_lt_self (by omega) (by omega)
        have hf : n / 10 < f := by omega
        simp only [natDecGo, if_neg h10, decVal_append, ih _ hf,
          digitChar_toNat (Nat.mod_lt n (by omega))]
        omega

theorem natDec_inj {a b : Nat} (h : natDec a = natDec b) : a = b := by
  have hd : (natDec a).data = (natDec b).data := by rw [h]
  have ha : decVal (natDec a).data = a := decVal_natDecGo _ a (Nat.lt_succ_self a)
  have hb : decVal (natDec b).data = b := decVal_natDecGo _ b (Nat.lt_succ_self b)
  rw [← ha, ← hb, hd]

theorem natDecGo_lt_58 : ∀ fuel n c, c ∈ natDecGo fuel n → c.toNat < 58 := by
  intro fuel
  induction fuel with
  | zero => intro n c hc; simp [natDecGo] at hc
  | succ f ih =>
      intro n c hc
      by_cases h10 : n < 10
      · simp [natDecGo, h10] at hc
        subst hc
        rw [digitChar_toNat h10]; omega
      · simp only [natDecGo, if_neg h10, List.mem_append, List.mem_singleton] at hc
        rcases hc with hc | hc
        · exact ih _ _ hc
        · subst hc
          rw [digitChar_toNat (Nat.mod_lt n (by omega))]
          have := Nat.mod_lt n (show 0 < 10 by omega)
          omega

theorem natDec_no_bar (n : Nat) : '|' ∉ (natDec n).data := by
  intro hmem
  have := natDecGo_lt_58 (n + 1) n '|' hmem
  simp at this

theorem bar_split : ∀ (a1 : List Char) (a2 b1 b2 : List Char),
    '|' ∉ a1 → '|' ∉ a2 → a1 ++ '|' :: b1 = a2 ++ '|' :: b2 →
    a1 = a2 ∧ b1 = b2 := by
  intro a1
  induction a1 with
  | nil =>
      intro a2 b1 b2 _ h2 heq
      cases a2 with
      | nil => simpa using heq
      | cons x a2 =>
          simp only [List.nil_append, List.cons_append, List.cons.injEq] at heq
          exact absurd (heq.1 ▸ List.mem_cons_self x a2) (heq.1 ▸ h2)
  | cons x a1 ih =>
      intro a2 b1 b2 h1 h2 heq
      cases a2 with
      | nil =>
          simp only [List.cons_append, List.nil_append, List.cons.injEq] at heq
          exact absurd (heq.1 ▸ List.mem_cons_self x a1) (fun hx => h1 (heq.1 ▸ hx))
      | cons y a2 =>
          simp only [List.cons_append, List.cons.injEq] at heq
          obtain ⟨hxy, htail⟩ := heq
          have h1' : '|' ∉ a1 := fun hm => h1 (List.mem_cons_of_mem x hm)
          have h2' : '|' ∉ a2 := fun hm => h2 (List.mem_cons_of_mem y hm)
          obtain ⟨hA, hB⟩ := ih a2 b1 b2 h1' h2' htail
          exact ⟨by rw [hxy, hA], hB⟩

theorem mkKey_data (q : EngineQuery) :
    (mkKey q).data = q.fen.data ++ '|' :: ((natDec q.depth).data ++ '|' ::
      ((natDec q.multipv).data ++ '|' :: (natDec (q.movetime.getD 0)).data)) := by
  simp [mkKey, String.data_append, List.append_assoc]

theorem mkKey_separates {q q' : EngineQuery}
    (hf : '|' ∉ q.fen.data) (hf' : '|' ∉ q'.fen.data)
    (h : mkKey q = mkKey q') :
    q.fen = q'.fen ∧ q.depth = q'.depth ∧ q.multipv = q'.multipv ∧
      q.movetime.getD 0 = q'.movetime.getD 0 := by
  have hd : (mkKey q).data = (mkKey q').data := by rw [h]
  rw [mkKey_data, mkKey_data] at hd
  obtain ⟨hfen, hd⟩ := bar_split _ _ _ _ hf hf' hd
  obtain ⟨hdep, hd⟩ := bar_split _ _ _ _ (natDec_no_bar _) (natDec_no_bar _) hd
  obtain ⟨hmv, hmt⟩ := bar_split _ _ _ _ (natDec_no_bar _) (natDec_no_bar _) hd
  refine ⟨?_, natDec_inj ?_, natDec_inj ?_, natDec_inj ?_⟩
  · exact String.ext hfen
  · exact String.ext hdep
  · exact String.ext hmv
  · exact String.ext hmt

/-! ### Cache behaviour lemmas -/

theorem touchGet_keys_mem {V : Type} (c : LRU V) (k a : String) :
    a ∈ (c.touchGet k).2.keys ↔ a ∈ c.keys := by
  unfold LRU.touchGet
  cases hf : c.entries.find? (fun p => p.1 == k) with
  | none => rfl
  | some p =>
      have hpk : p.1 = k := by
        have := List.find?_some hf
        simpa using this
      have hpmem : k ∈ c.keys := by
        have := List.mem_of_find?_eq_some hf
        exact hpk ▸ List.mem_map_of_mem Prod.fst this
      simp only [LRU.keys, List.map_cons, List.mem_cons, hpk]
      constructor
      · rintro (rfl | hmem)
        · exact hpmem
        · rcases List.mem_map.1 hmem with ⟨e, he, rfl⟩
          exact List.mem_map_of_mem Prod.fst (List.mem_of_mem_filter he)
      · intro ha
        by_cases hak : a = k
        · exact Or.inl hak
        · rcases List.mem_map.1 ha with ⟨e, he, rfl⟩
          exact Or.inr (List.mem_map_of_mem Prod.fst
            (List.mem_filter.2 ⟨he, by simpa using hak⟩))

theorem touchGet_keys_nodup {V : Type} (c : LRU V) (k : String)
    (h : c.keys.Nodup) : (c.touchGet k).2.keys.Nodup := by
  unfold LRU.touchGet
  cases hf : c.entries.find? (fun p => p.1 == k) with
  | none => exact h
  | some p =>
      have hpk : p.1 = k := by
        have := List.find?_some hf
        simpa using this
      have hsub : ((c.entries.filter (fun e => !(e.1 == k))).map Prod.fst).Nodup :=
        ((List.filter_sublist _).map Prod.fst).nodup h
      simp only [LRU.keys, List.map_cons, List.nodup_cons]
      refine ⟨?_, hsub⟩
      intro hmem
      rcases List.mem_map.1 hmem with ⟨e, he, hfst⟩
      rcases List.mem_filter.1 he with ⟨_, hek⟩
      rw [hpk] at hfst
      simp [hfst] at hek

theorem filter_eq_self_of_not_mem {V : Type} (c : LRU V) (k : String)
    (hk : k ∉ c.keys) : c.entries.filter (fun e => !(e.1 == k)) = c.entries := by
  apply List.filter_eq_self.2
  intro e he
  have : e.1 ≠ k := fun h => hk (h ▸ List.mem_map_of_mem Prod.fst he)
  simpa using this

theorem set_entries_of_room {V : Type} (c : LRU V) (k : String) (v : V)
    (hk : k ∉ c.keys) (hlen : c.entries.length + 1 ≤ c.max) :
    (c.set k v).entries = (k, v) :: c.entries := by
  unfold LRU.set
  rw [filter_eq_self_of_not_mem c k hk]
  exact List.take_of_length_le (by simpa using hlen)

theorem nodup_subset_length {α : Type} [DecidableEq α] {l S : List α}
    (hl : l.Nodup) (hS : S.Nodup) (hsub : ∀ a ∈ l, a ∈ S) :
    l.length ≤ S.length := by
  have h1 : l.toFinset ⊆ S.toFinset := by
    intro a ha
    rw [List.mem_toFinset] at ha ⊢
    exact hsub a ha
  calc l.length = l.toFinset.card := (List.toFinset_card_of_nodup hl).symm
    _ ≤ S.toFinset.card := Finset.card_le_card h1
    _ = S.length := List.toFinset_card_of_nodup hS

theorem analyzeFenCached_eq_hit {V : Type} {O : EngineQuery → V}
    {c : LRU V} {q : EngineQuery} {p : String × V}
    (hfind : c.entries.find? (fun e => e.1 == mkKey q) = some p) :
    analyzeFenCached O c q =
      (p.2, ⟨c.max, p :: c.entries.filter (fun e => !(e.1 == mkKey q))⟩, false) := by
  unfold analyzeFenCached LRU.touchGet
  rw [hfind]

theorem analyzeFenCached_eq_miss {V : Type} {O : EngineQuery → V}
    {c : LRU V} {q : EngineQuery}
    (hfind : c.entries.find? (fun e => e.1 == mkKey q) = none) :
    analyzeFenCached O c q = (O q, c.set (mkKey q) (O q), true) := by
  unfold analyzeFenCached LRU.touchGet
  rw [hfind]

theorem touchGet_snd_eq {V : Type} {c : LRU V} {q : EngineQuery} {p : String × V}
    (hfind : c.entries.find? (fun e => e.1 == mkKey q) = some p) :
    (c.touchGet (mkKey q)).2 =
      ⟨c.max, p :: c.entries.filter (fun e => !(e.1 == mkKey q))⟩ := by
  unfold LRU.touchGet
  rw [hfind]

/-- Across a sequence of non-overlapping cached calls whose distinct keys
all fit in the capacity, the log of queue submissions repeats no key, and
every submitted key was absent from the cache when it was submitted. -/
theorem runCached_log_spec {V : Type} (oracle : EngineQuery → V)
    (S : List String) (hS : S.Nodup) :
    ∀ (qs : List EngineQuery) (c : LRU V), S.length ≤ c.max →
      c.keys.Nodup → (∀ a ∈ c.keys, a ∈ S) → (∀ p ∈ qs, mkKey p ∈ S) →
      ((runCached oracle c qs).2.map mkKey).Nodup ∧
      (∀ q' ∈ (runCached oracle c qs).2, mkKey q' ∉ c.keys) := by
  intro qs
  induction qs with
  | nil => intro c _ _ _ _; simp [runCached]
  | cons q qs ih =>
      intro c hmax hnd hsubS hq
      have hqS : mkKey q ∈ S := hq q (List.mem_cons_self _ _)
      have hqs' : ∀ p ∈ qs, mkKey p ∈ S := fun p hp => hq p (List.mem_cons_of_mem _ hp)
      cases hfind : c.entries.find? (fun e => e.1 == mkKey q) with
      | some p =>
          set c' : LRU V :=
            ⟨c.max, p :: c.entries.filter (fun e => !(e.1 == mkKey q))⟩ with hc'def
          have hstep := analyzeFenCached_eq_hit (O := oracle) hfind
          have hc' : (c.touchGet (mkKey q)).2 = c' := touchGet_snd_eq hfind
          have hrun : (runCached oracle c (q :: qs)).2 = (runCached oracle c' qs).2 := by
            simp [runCached, hstep]
          have hnd' : c'.keys.Nodup := hc' ▸ touchGet_keys_nodup c (mkKey q) hnd
          have hmem' : ∀ a, a ∈ c'.keys ↔ a ∈ c.keys :=
            fun a => hc' ▸ touchGet_keys_mem c (mkKey q) a
          have hmaxc' : S.length ≤ c'.max := hmax
          obtain ⟨h1, h2⟩ := ih c' hmaxc' hnd' (fun a ha => hsubS a ((hmem' a).1 ha)) hqs'
          rw [hrun]
          refine ⟨h1, ?_⟩
          intro q' hq' hmemk
          exact h2 q' hq' ((hmem' (mkKey q')).2 hmemk)
      | none =>
          have hnotin : mkKey q ∉ c.keys := by
            intro hmem
            rcases List.mem_map.1 hmem with ⟨e, he, hek⟩
            have := List.find?_eq_none.1 hfind e he
            simp [hek] at this
          have hroom : c.entries.length + 1 ≤ c.max := by
            have hcons : (mkKey q :: c.keys).Nodup := List.nodup_cons.2 ⟨hnotin, hnd⟩
            have hsub : ∀ a ∈ mkKey q :: c.keys, a ∈ S := by
              intro a ha
              rcases List.mem_cons.1 ha with rfl | ha
              · exact hqS
              · exact hsubS a ha
            have := nodup_subset_length hcons hS hsub
            have hlen : c.keys.length = c.entries.length := List.length_map _ _
            simp only [List.length_cons] at this
            omega
          have hstep := analyzeFenCached_eq_miss (O := oracle) hfind
          set c' : LRU V := c.set (mkKey q) (oracle q) with hc'def
          have hrun : (runCached oracle c (q :: qs)).2 =
              q :: (runCached oracle c' qs).2 := by
            simp [runCached, hstep]
          have hset : c'.entries = (mkKey q, oracle q) :: c.entries :=
            set_entries_of_room c _ _ hnotin hroom
          have hkeys' : c'.keys = mkKey q :: c.keys := by
            simp [LRU.keys, hset]
          have hmaxc' : S.length ≤ c'.max := hmax
          obtain ⟨h1, h2⟩ := ih c' hmaxc'
            (by rw [hkeys']; exact List.nodup_cons.2 ⟨hnotin, hnd⟩)
            (by rw [hkeys']
                intro a ha
                rcases List.mem_cons.1 ha with rfl | ha
                · exact hqS
                · exact hsubS a ha)
            hqs'
          rw [hrun]
          constructor
          · simp only [List.map_cons]
            refine List.nodup_cons.2 ⟨?_, h1⟩
            intro hmem
            rcases List.mem_map.1 hmem with ⟨q', hq', hkq⟩
            exact h2 q' hq' (by rw [hkq, hkeys']; exact List.mem_cons_self _ _)
          · intro q' hq'
            rcases List.mem_cons.1 hq' with rfl | hq'
            · exact hnotin
            · intro hmem
              exact h2 q' hq' (by rw [hkeys']; exact List.mem_cons_of_mem _ hmem)

/-- C5: `analyzeFenCached` is keyed by the 4-tuple (position encoding,
depth, candidate-line count, time budget-or-zero): on a hit it returns the
stored result without submitting to the queue; on a miss it submits,
stores the result under the key, and returns it; consequently a sequence
of cached calls whose distinct keys fit in the capacity (no LRU eviction)
submits each distinct key to the oracle at most once; and two requests
agreeing only up to the 4-tuple share a key while any 4-tuple difference
separates keys (for `|`-free position encodings). -/
theorem c5_cached_analysis :
    (∀ (V : Type) (oracle : EngineQuery → V) (c : LRU V) (q : EngineQuery) (v : V),
      c.lookup (mkKey q) = some v →
        (analyzeFenCached oracle c q).1 = v ∧
        (analyzeFenCached oracle c q).2.2 = false) ∧
    (∀ (V : Type) (oracle : EngineQuery → V) (c : LRU V) (q : EngineQuery),
      c.lookup (mkKey q) = none →
        (analyzeFenCached oracle c q).1 = oracle q ∧
        (analyzeFenCached oracle c q).2.2 = true ∧
        (0 < c.max →
          ((analyzeFenCached oracle c q).2.1).lookup (mkKey q) = some (oracle q))) ∧
    (∀ (V : Type) (oracle : EngineQuery → V) (M : Nat) (qs : List EngineQuery),
      (qs.map mkKey).dedup.length ≤ M →
        ((runCached oracle ⟨M, []⟩ qs).2.map mkKey).Nodup) ∧
    (∀ q q' : EngineQuery, '|' ∉ q.fen.data → '|' ∉ q'.fen.data →
      mkKey q = mkKey q' →
        q.fen = q'.fen ∧ q.depth = q'.depth ∧ q.multipv = q'.multipv ∧
          q.movetime.getD 0 = q'.movetime.getD 0) := by
  refine ⟨?_, ?_, ?_, fun q q' hf hf' h => mkKey_separates hf hf' h⟩
  · intro V oracle c q v hl
    rcases Option.map_eq_some'.1 hl with ⟨p, hfind, hv⟩
    rw [analyzeFenCached_eq_hit (O := oracle) hfind]
    exact ⟨hv, rfl⟩
  · intro V oracle c q hl
    have hfind : c.entries.find? (fun e => e.1 == mkKey q) = none :=
      Option.map_eq_none'.1 hl
    rw [analyzeFenCached_eq_miss (O := oracle) hfind]
    refine ⟨rfl, rfl, ?_⟩
    intro hpos
    obtain ⟨m, hm⟩ := Nat.exists_eq_succ_of_ne_zero (Nat.pos_iff_ne_zero.1 hpos)
    unfold LRU.set LRU.lookup
    simp [hm]
  · intro V oracle M qs hlen
    exact (runCached_log_spec oracle ((qs.map mkKey).dedup) (List.nodup_dedup _)
      qs ⟨M, []⟩ hlen (by simp [LRU.keys]) (by simp [LRU.keys])
      (fun p hp => List.mem_dedup.2 (List.mem_map_of_mem mkKey hp))).1

/-- Closed instance of `c5_cached_analysis`: a hit on a warm entry, a miss
on a cold cache, a three-call run with one repeated key (two submissions),
and key separation by time budget. -/
theorem c5_cached_analysis_witness :
    ((analyzeFenCached (fun _ => (0 : Nat))
        ⟨10, [(mkKey ⟨"fen", 16, 3, none⟩, 42)]⟩ ⟨"fen", 16, 3, none⟩).1 = 42 ∧
      (analyzeFenCached (fun _ => (0 : Nat))
        ⟨10, [(mkKey ⟨"fen", 16, 3, none⟩, 42)]⟩ ⟨"fen", 16, 3, none⟩).2.2 = false) ∧
    ((analyzeFenCached (fun _ => (7 : Nat)) ⟨10, []⟩ ⟨"fen", 16, 3, none⟩).1 = 7 ∧
      (analyzeFenCached (fun _ => (7 : Nat)) ⟨10, []⟩ ⟨"fen", 16, 3, none⟩).2.2 = true ∧
      (0 < (⟨10, []⟩ : LRU Nat).max →
        ((analyzeFenCached (fun _ => (7 : Nat)) ⟨10, []⟩
          ⟨"fen", 16, 3, none⟩).2.1).lookup (mkKey ⟨"fen", 16, 3, none⟩) = some 7)) ∧
    ((runCached (fun _ => (0 : Nat)) ⟨2, []⟩
        [⟨"a", 16, 3, none⟩, ⟨"b", 16, 1, none⟩, ⟨"a", 16, 3, some 0⟩]).2.map
          mkKey).Nodup ∧
    (EngineQuery.fen ⟨"abc", 16, 3, none⟩ = EngineQuery.fen ⟨"abc", 16, 3, some 0⟩ ∧
      EngineQuery.depth ⟨"abc", 16, 3, none⟩ = EngineQuery.depth ⟨"abc", 16, 3, some 0⟩ ∧
      EngineQuery.multipv ⟨"abc", 16, 3, none⟩ =
        EngineQuery.multipv ⟨"abc", 16, 3, some 0⟩ ∧
      (EngineQuery.movetime ⟨"abc", 16, 3, none⟩).getD 0 =
        (EngineQuery.movetime ⟨"abc", 16, 3, some 0⟩).getD 0) :=
  ⟨c5_cached_analysis.1 Nat (fun _ => 0) _ _ 42 (by decide),
   c5_cached_analysis.2.1 Nat (fun _ => 7) _ _ (by decide),
   c5_cached_analysis.2.2.1 Nat (fun _ => 0) 2 _ (by decide),
   c5_cached_analysis.2.2.2 ⟨"abc", 16, 3, none⟩ ⟨"abc", 16, 3, some 0⟩
     (by decide) (by decide) (by decide)⟩

/-! ## Coach annotator (`coach.js`, `explainBadMove` / `safeParseJson`) -/

/-- JavaScript `\s` on the characters our inputs can contain (space, tab,
newline, carriage return, vertical tab, form feed, NBSP, BOM). -/
def jsWs (c : Char) : Bool :=
  c = ' ' ∨ c = '\t' ∨ c = '\n' ∨ c = '\r' ∨ c = '\x0b' ∨ c = '\x0c' ∨
    c = ' ' ∨ c = '﻿'

/-- JavaScript `String.prototype.trim`. -/
def jsTrim (s : String) : String :=
  ⟨((s.data.dropWhile jsWs).reverse.dropWhile jsWs).reverse⟩

/-- JavaScript `${i}` for a (possibly negative) integer. -/
def intDec (i : Int) : String :=
  if i < 0 then "-" ++ natDec i.natAbs else natDec i.toNat

/-- Result object of `explainBadMove`: `{}`, `{note}`, `{better}` or both. -/
structure CoachOut where
  note : Option String := none
  better : Option String := none
deriving DecidableEq, Repr

/-- Arguments of `explainBadMove({san, evalBeforeCp, evalAfterCp, deltaCp,
verdict})`. -/
structure CoachArgs where
  san : String
  evalBeforeCp : Int
  evalAfterCp : Int
  deltaCp : Int
  verdict : Verdict

/-- `s.replace(/^```json\s*/i, "")`: strip a leading code fence opener. -/
def stripFenceStart (l : List Char) : List Char :=
  match l with
  | '`' :: '`' :: '`' :: c1 :: c2 :: c3 :: c4 :: rest =>
      if (c1 = 'j' ∨ c1 = 'J') ∧ (c2 = 's' ∨ c2 = 'S') ∧
         (c3 = 'o' ∨ c3 = 'O') ∧ (c4 = 'n' ∨ c4 = 'N')
      then rest.dropWhile jsWs else l
  | _ => l

/-- `s.replace(/```$/i, "")`: strip a trailing code fence closer. -/
def stripFenceEnd (l : List Char) : List Char :=
  match l.reverse with
  | '`' :: '`' :: '`' :: rest => rest.reverse
  | _ => l

/-- `safeParseJson` from `coach.js`: empty input gives `{}`, otherwise
strip a surrounding code fence and parse; a parse failure (the `catch`)
gives `{}`.  `JSON.parse` plus field extraction is the external parameter
`jparse` (`none` models a throw). -/
def safeParseJson (jparse : String → Option CoachOut) (s : String) : CoachOut :=
  if s = "" then {}
  else
    match jparse ⟨stripFenceEnd (stripFenceStart s.data)⟩ with
    | some o => o
    | none => {}

/-- The prompt template literal of `explainBadMove`, `.trim()` included. -/
def coachPrompt (args : CoachArgs) : String :=
  jsTrim ("\nExplain in <=2 short sentences why " ++ args.san ++
    " was bad given eval change (" ++ intDec args.evalBeforeCp ++ "→" ++
    intDec args.evalAfterCp ++ ", Δ=" ++ intDec args.deltaCp ++ "cp),\n" ++
    "and suggest one better idea. Return strict JSON: " ++
    "\x7b\"note\": string, \"better\": string\x7d\n  ")

/-- `explainBadMove` from `coach.js`: no-op without a configured model or
for an `Okay` verdict; one oracle call otherwise
(`generate`, returning the response text `r?.response?.text?.() ?? ""` or
a thrown error), parsed permissively; any thrown error gives `{}`. -/
def explainBadMove {M E : Type} (model : Option M)
    (generate : M → String → Except E (Option String))
    (jparse : String → Option CoachOut) (args : CoachArgs) : CoachOut :=
  match model with
  | none => {}
  | some m =>
      if args.verdict = .Okay then {}
      else
        match generate m (coachPrompt args) with
        | .error _ => {}
        | .ok text => safeParseJson jparse (text.getD "")

/-- C9: the coach annotator returns the empty result whenever no
text-generation oracle is configured or the verdict is `Okay`, and on any
failure of the oracle call or of response parsing it returns the empty
result instead of propagating the failure (being a total function, it can
never abort the surrounding analysis). -/
theorem c9_coach_best_effort {M E : Type}
    (generate : M → String → Except E (Option String))
    (jparse : String → Option CoachOut) (args : CoachArgs) :
    (explainBadMove (M := M) (E := E) none generate jparse args = {}) ∧
    (∀ model : Option M, args.verdict = .Okay →
      explainBadMove model generate jparse args = {}) ∧
    (∀ m : M, ∀ e : E, generate m (coachPrompt args) = .error e →
      explainBadMove (some m) generate jparse args = {}) ∧
    (∀ m : M, ∀ text : Option String,
      generate m (coachPrompt args) = .ok text →
      jparse ⟨stripFenceEnd (stripFenceStart (text.getD "").data)⟩ = none →
      explainBadMove (some m) generate jparse args = {}) := by
  refine ⟨rfl, ?_, ?_, ?_⟩
  · intro model hv
    cases model with
    | none => rfl
    | some m => simp [explainBadMove, hv]
  · intro m e hgen
    simp [explainBadMove, hgen]
  · intro m text hgen hparse
    unfold explainBadMove
    by_cases hv : args.verdict = .Okay
    · simp [hv]
    · simp only [if_neg hv, hgen]
      unfold safeParseJson
      by_cases hempty : text.getD "" = ""
      · simp [hempty]
      · simp [hempty, hparse]

/-- Closed instance of `c9_coach_best_effort`: no model configured, an
`Okay` verdict, a throwing oracle, and an unparsable fenced response all
yield the empty annotation. -/
theorem c9_coach_best_effort_witness :
    (explainBadMove (M := Unit) (E := Unit) none
      (fun _ _ => .ok (some "x")) (fun _ => none)
      ⟨"e4", 10, 20, -10, .Okay⟩ = {}) ∧
    (explainBadMove (M := Unit) (E := Unit) (some ())
      (fun _ _ => .ok (some "x")) (fun _ => none)
      ⟨"e4", 10, 20, -10, .Okay⟩ = {}) ∧
    (explainBadMove (M := Unit) (E := Unit) (some ())
      (fun _ _ => .error ()) (fun _ => some ⟨some "n", none⟩)
      ⟨"Qh5", 10, -300, 310, .Blunder⟩ = {}) ∧
    (explainBadMove (M := Unit) (E := Unit) (some ())
      (fun _ _ => .ok (some "```json not json```")) (fun _ => none)
      ⟨"Qh5", 10, -300, 310, .Blunder⟩ = {}) :=
  ⟨(c9_coach_best_effort (fun _ _ => .ok (some "x")) (fun _ => none)
      ⟨"e4", 10, 20, -10, .Okay⟩).1,
   (c9_coach_best_effort (fun _ _ => .ok (some "x")) (fun _ => none)
      ⟨"e4", 10, 20, -10, .Okay⟩).2.1 (some ()) rfl,
   (c9_coach_best_effort (fun _ _ => .error ()) (fun _ => some ⟨some "n", none⟩)
      ⟨"Qh5", 10, -300, 310, .Blunder⟩).2.2.1 () () rfl,
   (c9_coach_best_effort (fun _ _ => .ok (some "```json not json```"))
      (fun _ => none) ⟨"Qh5", 10, -300, 310, .Blunder⟩).2.2.2 ()
      (some "```json not json```") rfl rfl⟩

/-! ## Game analysis orchestrator (`server.js`, `app.post("/analyzeGame")`)

The per-ply loop over `game.history({ verbose: true })`.  The `chess.js`
board is determined by its FEN, so board state is modelled by the FEN
string; `applyFen` is `new Chess(fen)` followed by `.move(...)` and
`.fen()` (used both for the probe board `tmp` and for `replay.move(mv)`),
`turn` is `.turn()`, and `oracle` is the engine behind
`analyzeFen` — `analyzeFenCached` consults the threaded cache first. -/

/-- One verbose move of `chess.js`: `{ from, to, promotion, san }`. -/
structure MoveV where
  fromSq : String
  toSq : String
  promotion : Option String
  san : String
deriving DecidableEq, Repr

/-- One parsed candidate line of `analyzeFen`. -/
structure Cand where
  rank : Nat
  depth : Nat
  score : Score
  pv : List String
deriving DecidableEq, Repr

/-- The resolved value of `analyzeFen`: `{ bestmove, candidates }`. -/
structure EngineOut where
  bestmove : String
  candidates : List Cand
deriving DecidableEq, Repr

/-- One report row pushed by the `/analyzeGame` loop. -/
structure Row where
  ply : Nat
  side : String
  san : String
  uci : String
  fenBefore : String
  fenAfter : String
  bestmove : String
  evalBestCp : Int
  evalHumanCp : Int
  deltaCp : Int
  verdict : Verdict
  note : Option String
  better : Option String
deriving DecidableEq, Repr

/-- The canonical starting position of `new Chess()`. -/
def startFen : String := "rnbqkbnr/pppppppp/8/8/8/8/PPPPPPPP/RNBQKBNR w KQkq - 0 1"

/-- JavaScript truthiness guard of `if (extra?.note) row.note = extra.note`:
an empty string is falsy and is not attached. -/
def jsTruthy (o : Option String) : Option String :=
  o.bind fun s => if s = "" then none else some s

/-- The body of the `for` loop of `/analyzeGame`, one iteration per
verbose move, threading the replay FEN and the evaluation cache. -/
def analyzeGameLoop (oracle : EngineQuery → EngineOut)
    (applyFen : String → MoveV → String) (turn : String → Char)
    (depth multipv : Nat) (movetime : Option Nat) (withCoach : Bool)
    (coach : CoachArgs → CoachOut) :
    String → Nat → LRU EngineOut → List MoveV → List Row × LRU EngineOut
  | _, _, c, [] => ([], c)
  | fen, i, c, mv :: rest =>
      let fenBefore := fen
      let side := if turn fenBefore = 'w' then "white" else "black"
      let humanUci := mv.fromSq ++ mv.toSq ++ mv.promotion.getD ""
      let stepB := analyzeFenCached oracle c ⟨fenBefore, depth, multipv, movetime⟩
      let engBefore := stepB.1
      let evalBestCp := toCp (engBefore.candidates.head?.map Cand.score)
      let fenAfterHuman := applyFen fenBefore mv
      let stepA := analyzeFenCached oracle stepB.2.1
        ⟨fenAfterHuman, depth, 1, movetime⟩
      let engAfter := stepA.1
      let evalHumanCpOpp := toCp (engAfter.candidates.head?.map Cand.score)
      let evalHumanCp := -evalHumanCpOpp
      let deltaCp := evalBestCp - evalHumanCp
      let verdict := verdictFromDeltaCp (some deltaCp)
      let base : Row := ⟨i + 1, side, mv.san, humanUci, fenBefore, fenAfterHuman,
        engBefore.bestmove, evalBestCp, evalHumanCp, deltaCp, verdict, none, none⟩
      let row := if withCoach ∧ verdict ≠ Verdict.Okay then
          let extra := coach ⟨mv.san, evalBestCp, evalHumanCp, deltaCp, verdict⟩
          { base with note := jsTruthy extra.note, better := jsTruthy extra.better }
        else base
      let restOut := analyzeGameLoop oracle applyFen turn depth multipv movetime
        withCoach coach fenAfterHuman (i + 1) stepA.2.1 rest
      (row :: restOut.1, restOut.2)

/-- The rows of the report produced by `/analyzeGame` for a recovered move
sequence, starting from the canonical starting position (`new Chess()`)
and the process-wide evaluation cache `c`. -/
def analyzeGameRows (oracle : EngineQuery → EngineOut)
    (applyFen : String → MoveV → String) (turn : String → Char)
    (depth multipv : Nat) (movetime : Option Nat) (withCoach : Bool)
    (coach : CoachArgs → CoachOut) (c : LRU EngineOut)
    (moves : List MoveV) : List Row :=
  (analyzeGameLoop oracle applyFen turn depth multipv movetime withCoach coach
    startFen 0 c moves).1

/-- Replay of a move prefix: the FEN after folding `applyFen` over it. -/
def fenIter (applyFen : String → MoveV → String) (fen : String)
    (ms : List MoveV) : String :=
  ms.foldl applyFen fen

theorem analyzeGameLoop_length (O : EngineQuery → EngineOut)
    (A : String → MoveV → String) (T : String → Char) (d m : Nat)
    (mt : Option Nat) (wc : Bool) (coach : CoachArgs → CoachOut) :
    ∀ (ms : List MoveV) (fen : String) (i : Nat) (c : LRU EngineOut),
      (analyzeGameLoop O A T d m mt wc coach fen i c ms).1.length = ms.length := by
  intro ms
  induction ms with
  | nil => intro fen i c; rfl
  | cons mv rest ih =>
      intro fen i c
      simp only [analyzeGameLoop, List.length_cons]
      rw [ih]

theorem analyzeGameLoop_head (O : EngineQuery → EngineOut)
    (A : String → MoveV → String) (T : String → Char) (d m : Nat)
    (mt : Option Nat) (wc : Bool) (coach : CoachArgs → CoachOut)
    (fen : String) (i : Nat) (c : LRU EngineOut) (mv : MoveV)
    (rest : List MoveV) :
    ∃ row restRows,
      (analyzeGameLoop O A T d m mt wc coach fen i c (mv :: rest)).1 =
        row :: restRows ∧
      restRows = (analyzeGameLoop O A T d m mt wc coach (A fen mv) (i + 1)
        (analyzeFenCached O (analyzeFenCached O c ⟨fen, d, m, mt⟩).2.1
          ⟨A fen mv, d, 1, mt⟩).2.1 rest).1 ∧
      row.ply = i + 1 ∧
      row.side = (if T fen = 'w' then "white" else "black") ∧
      row.san = mv.san ∧
      row.uci = mv.fromSq ++ mv.toSq ++ mv.promotion.getD "" ∧
      row.fenBefore = fen ∧
      row.fenAfter = A fen mv ∧
      row.bestmove = (analyzeFenCached O c ⟨fen, d, m, mt⟩).1.bestmove ∧
      row.evalBestCp =
        toCp ((analyzeFenCached O c ⟨fen, d, m, mt⟩).1.candidates.head?.map
          Cand.score) ∧
      row.evalHumanCp =
        -toCp ((analyzeFenCached O (analyzeFenCached O c ⟨fen, d, m, mt⟩).2.1
          ⟨A fen mv, d, 1, mt⟩).1.candidates.head?.map Cand.score) ∧
      row.deltaCp = row.evalBestCp - row.evalHumanCp ∧
      row.verdict = verdictFromDeltaCp (some row.deltaCp) := by
  refine ⟨_, _, rfl, rfl, ?_, ?_, ?_, ?_, ?_, ?_, ?_, ?_, ?_, ?_, ?_⟩ <;>
    · simp only [analyzeGameLoop]
      split <;> rfl

theorem analyzeGameLoop_get_struct (O : EngineQuery → EngineOut)
    (A : String → MoveV → String) (T : String → Char) (d m : Nat)
    (mt : Option Nat) (wc : Bool) (coach : CoachArgs → CoachOut) :
    ∀ (ms : List MoveV) (fen : String) (i : Nat) (c : LRU EngineOut)
      (j : Nat) (r : Row),
      (analyzeGameLoop O A T d m mt wc coach fen i c ms).1[j]? = some r →
      ∃ hj : j < ms.length,
        r.ply = i + j + 1 ∧
        r.fenBefore = fenIter A fen (ms.take j) ∧
        r.fenAfter = fenIter A fen (ms.take (j + 1)) ∧
        r.side = (if T (fenIter A fen (ms.take j)) = 'w' then "white"
          else "black") ∧
        r.san = (ms.get ⟨j, hj⟩).san ∧
        r.uci = (ms.get ⟨j, hj⟩).fromSq ++ (ms.get ⟨j, hj⟩).toSq ++
          (ms.get ⟨j, hj⟩).promotion.getD "" := by
  intro ms
  induction ms with
  | nil =>
      intro fen i c j r h
      simp [analyzeGameLoop] at h
  | cons mv rest ih =>
      intro fen i c j r h
      obtain ⟨row, restRows, hcons, hrest, hply, hside, hsan, huci, hfb, hfa,
        _, _, _, _, _⟩ :=
        analyzeGameLoop_head O A T d m mt wc coach fen i c mv rest
      rw [hcons] at h
      cases j with
      | zero =>
          simp only [List.getElem?_cons_zero, Option.some.injEq] at h
          subst h
          refine ⟨by simp, ?_, ?_, ?_, ?_, hsan, huci⟩
          · simpa using hply
          · simpa [fenIter] using hfb
          · simpa [fenIter] using hfa
          · simpa [fenIter] using hside
      | succ j =>
          simp only [List.getElem?_cons_succ] at h
          rw [hrest] at h
          obtain ⟨hj, hply', hfb', hfa', hside', hsan', huci'⟩ :=
            ih (A fen mv) (i + 1) _ j r h
          refine ⟨by simpa using Nat.succ_lt_succ hj, ?_, ?_, ?_, ?_, ?_, ?_⟩
          · rw [hply']; omega
          · simpa [fenIter, List.take_cons, List.foldl_cons] using hfb'
          · simpa [fenIter, List.take_cons, List.foldl_cons] using hfa'
          · simpa [fenIter, List.take_cons, List.foldl_cons] using hside'
          · simpa using hsan'
          · simpa using huci'

/-- The engine oracle behind the queue is a function of the request key:
two requests with equal cache keys receive equal evaluations (true of the
real engine, whose search is determined by FEN, depth, line count and time
budget). -/
def KeyGood {V : Type} (O : EngineQuery → V) : Prop :=
  ∀ q q' : EngineQuery, mkKey q = mkKey q' → O q = O q'

/-- Every cache entry stores the oracle's own answer for its key. -/
def CacheGood {V : Type} (O : EngineQuery → V) (c : LRU V) : Prop :=
  ∀ p ∈ c.entries, ∃ q, p.1 = mkKey q ∧ p.2 = O q

theorem analyzeFenCached_val {V : Type} {O : EngineQuery → V} {c : LRU V}
    {q : EngineQuery} (hK : KeyGood O) (hC : CacheGood O c) :
    (analyzeFenCached O c q).1 = O q ∧
      CacheGood O (analyzeFenCached O c q).2.1 := by
  cases hfind : c.entries.find? (fun e => e.1 == mkKey q) with
  | some p =>
      rw [analyzeFenCached_eq_hit (O := O) hfind]
      have hpmem := List.mem_of_find?_eq_some hfind
      have hpk : p.1 = mkKey q := by simpa using List.find?_some hfind
      obtain ⟨q', hq'k, hq'v⟩ := hC p hpmem
      constructor
      · rw [hq'v]
        exact hK q' q (by rw [← hq'k, hpk])
      · intro e he
        rcases List.mem_cons.1 he with rfl | he
        · exact hC e hpmem
        · exact hC e (List.mem_of_mem_filter he)
  | none =>
      rw [analyzeFenCached_eq_miss (O := O) hfind]
      refine ⟨rfl, ?_⟩
      intro e he
      unfold LRU.set at he
      simp only at he
      have he' := List.mem_of_mem_take he
      rcases List.mem_cons.1 he' with rfl | he'
      · exact ⟨q, rfl, rfl⟩
      · exact hC e (List.mem_of_mem_filter he')

theorem analyzeGameLoop_get_eval (O : EngineQuery → EngineOut)
    (A : String → MoveV → String) (T : String → Char) (d m : Nat)
    (mt : Option Nat) (wc : Bool) (coach : CoachArgs → CoachOut)
    (hK : KeyGood O) :
    ∀ (ms : List MoveV) (fen : String) (i : Nat) (c : LRU EngineOut),
      CacheGood O c → ∀ (j : Nat) (r : Row),
      (analyzeGameLoop O A T d m mt wc coach fen i c ms).1[j]? = some r →
        r.evalBestCp =
          toCp ((O ⟨r.fenBefore, d, m, mt⟩).candidates.head?.map Cand.score) ∧
        r.evalHumanCp =
          -toCp ((O ⟨r.fenAfter, d, 1, mt⟩).candidates.head?.map Cand.score) ∧
        r.deltaCp = r.evalBestCp - r.evalHumanCp ∧
        r.bestmove = (O ⟨r.fenBefore, d, m, mt⟩).bestmove ∧
        r.verdict = verdictFromDeltaCp (some r.deltaCp) := by
  intro ms
  induction ms with
  | nil =>
      intro fen i c _ j r h
      simp [analyzeGameLoop] at h
  | cons mv rest ih =>
      intro fen i c hC j r h
      obtain ⟨row, restRows, hcons, hrest, _, _, _, _, hfb, hfa, hbm, hbest,
        hhuman, hdelta, hverdict⟩ :=
        analyzeGameLoop_head O A T d m mt wc coach fen i c mv rest
      have hvalB := analyzeFenCached_val (c := c)
        (q := ⟨fen, d, m, mt⟩) hK hC
      have hvalA := analyzeFenCached_val
        (c := (analyzeFenCached O c ⟨fen, d, m, mt⟩).2.1)
        (q := ⟨A fen mv, d, 1, mt⟩) hK hvalB.2
      rw [hcons] at h
      cases j with
      | zero =>
          simp only [List.getElem?_cons_zero, Option.some.injEq] at h
          subst h
          refine ⟨?_, ?_, hdelta, ?_, hverdict⟩
          · rw [hbest, hvalB.1, hfb]
          · rw [hhuman, hvalA.1, hfa]
          · rw [hbm, hvalB.1, hfb]
      | succ j =>
          simp only [List.getElem?_cons_succ] at h
          rw [hrest] at h
          exact ih (A fen mv) (i + 1) _ hvalA.2 j r h

theorem fenIter_take_succ (A : String → MoveV → String) (fen : String)
    (ms : List MoveV) (j : Nat) (mv : MoveV) (h : ms[j]? = some mv) :
    fenIter A fen (ms.take (j + 1)) = A (fenIter A fen (ms.take j)) mv := by
  rw [List.take_succ, h]
  simp [fenIter, List.foldl_append]

/-- C2: for every ply the orchestrator reports, the human-line evaluation
equals the negation of the oracle's score for the after-move position
(queried with a single candidate line), and the reported delta is
`evalBestCp - evalHumanCp` where `evalBestCp` is the oracle's top-candidate
score for the before-move position — so a positive delta means the human
move scored worse than the oracle's best. -/
theorem c2_human_eval_and_delta (O : EngineQuery → EngineOut)
    (A : String → MoveV → String) (T : String → Char) (d m : Nat)
    (mt : Option Nat) (wc : Bool) (coach : CoachArgs → CoachOut)
    (c : LRU EngineOut) (moves : List MoveV)
    (hK : KeyGood O) (hC : CacheGood O c) (j : Nat) (r : Row)
    (h : (analyzeGameRows O A T d m mt wc coach c moves)[j]? = some r) :
    r.evalHumanCp =
      -toCp ((O ⟨r.fenAfter, d, 1, mt⟩).candidates.head?.map Cand.score) ∧
    r.deltaCp = r.evalBestCp - r.evalHumanCp ∧
    r.evalBestCp =
      toCp ((O ⟨r.fenBefore, d, m, mt⟩).candidates.head?.map Cand.score) := by
  have hev := analyzeGameLoop_get_eval O A T d m mt wc coach hK moves startFen
    0 c hC j r h
  exact ⟨hev.2.1, hev.2.2.1, hev.1⟩

/-- Closed instance of `c2_human_eval_and_delta` on a one-ply game with a
constant oracle scoring `+25` centipawns. -/
theorem c2_human_eval_and_delta_witness :
    (analyzeGameRows (fun _ => ⟨"e2e4", [⟨1, 16, Score.cp 25, []⟩]⟩)
        (fun f _ => f ++ "x") (fun _ => 'w') 16 3 none false (fun _ => {})
        ⟨10000, []⟩ [⟨"e2", "e4", none, "e4"⟩])[0]? =
      some ⟨1, "white", "e4", "e2e4", startFen, startFen ++ "x", "e2e4",
        25, -25, 50, .Inaccuracy, none, none⟩ ∧
    (-25 : Int) =
      -toCp (((fun (_ : EngineQuery) =>
        (⟨"e2e4", [⟨1, 16, Score.cp 25, []⟩]⟩ : EngineOut))
          ⟨startFen ++ "x", 16, 1, none⟩).candidates.head?.map Cand.score) ∧
    (50 : Int) = 25 - (-25) := by
  have hK : KeyGood (fun _ : EngineQuery =>
      (⟨"e2e4", [⟨1, 16, Score.cp 25, []⟩]⟩ : EngineOut)) := fun _ _ _ => rfl
  have hC : CacheGood (fun _ : EngineQuery =>
      (⟨"e2e4", [⟨1, 16, Score.cp 25, []⟩]⟩ : EngineOut))
      (⟨10000, []⟩ : LRU EngineOut) := by
    intro p hp
    simp [LRU.entries] at hp
  have h0 : (analyzeGameRows (fun _ => ⟨"e2e4", [⟨1, 16, Score.cp 25, []⟩]⟩)
      (fun f _ => f ++ "x") (fun _ => 'w') 16 3 none false (fun _ => {})
      ⟨10000, []⟩ [⟨"e2", "e4", none, "e4"⟩])[0]? =
      some ⟨1, "white", "e4", "e2e4", startFen, startFen ++ "x", "e2e4",
        25, -25, 50, .Inaccuracy, none, none⟩ := by decide
  have hmain := c2_human_eval_and_delta
    (fun _ => ⟨"e2e4", [⟨1, 16, Score.cp 25, []⟩]⟩) (fun f _ => f ++ "x")
    (fun _ => 'w') 16 3 none false (fun _ => {}) ⟨10000, []⟩
    [⟨"e2", "e4", none, "e4"⟩] hK hC 0
    ⟨1, "white", "e4", "e2e4", startFen, startFen ++ "x", "e2e4",
      25, -25, 50, .Inaccuracy, none, none⟩ h0
  exact ⟨h0, hmain.1, hmain.2.1⟩

/-- C10: every report the orchestrator produces is replay-consistent: the
first row starts from the canonical starting position; row `j` carries ply
`j+1`; each row's after-position is its own move applied to its
before-position; consecutive rows chain before/after positions; and sides
alternate starting from the side to move in the starting position
(assuming the move validator flips the side to move on every applied
move). -/
theorem c10_replay_consistent (O : EngineQuery → EngineOut)
    (A : String → MoveV → String) (T : String → Char) (d m : Nat)
    (mt : Option Nat) (wc : Bool) (coach : CoachArgs → CoachOut)
    (c : LRU EngineOut) (moves : List MoveV)
    (hflip : ∀ f mv, T (A f mv) = (if T f = 'w' then 'b' else 'w')) :
    (analyzeGameRows O A T d m mt wc coach c moves).length = moves.length ∧
    (∀ r : Row, (analyzeGameRows O A T d m mt wc coach c moves)[0]? = some r →
      r.fenBefore = startFen ∧ r.ply = 1 ∧
      r.side = (if T startFen = 'w' then "white" else "black")) ∧
    (∀ (j : Nat) (r : Row),
      (analyzeGameRows O A T d m mt wc coach c moves)[j]? = some r →
      r.ply = j + 1) ∧
    (∀ (j : Nat) (r : Row) (mv : MoveV),
      (analyzeGameRows O A T d m mt wc coach c moves)[j]? = some r →
      moves[j]? = some mv →
      r.fenAfter = A r.fenBefore mv ∧ r.san = mv.san ∧
      r.uci = mv.fromSq ++ mv.toSq ++ mv.promotion.getD "") ∧
    (∀ (j : Nat) (r r' : Row),
      (analyzeGameRows O A T d m mt wc coach c moves)[j]? = some r →
      (analyzeGameRows O A T d m mt wc coach c moves)[j + 1]? = some r' →
      r'.fenBefore = r.fenAfter ∧
      r'.side = (if r.side = "white" then "black" else "white")) := by
  refine ⟨analyzeGameLoop_length O A T d m mt wc coach moves startFen 0 c,
    ?_, ?_, ?_, ?_⟩
  · intro r h
    unfold analyzeGameRows at h
    obtain ⟨hj, hply, hfb, _, hside, _, _⟩ :=
      analyzeGameLoop_get_struct O A T d m mt wc coach moves startFen 0 c 0 r h
    exact ⟨by simpa [fenIter] using hfb, by simpa using hply,
      by simpa [fenIter] using hside⟩
  · intro j r h
    unfold analyzeGameRows at h
    obtain ⟨hj, hply, _⟩ :=
      analyzeGameLoop_get_struct O A T d m mt wc coach moves startFen 0 c j r h
    simpa using hply
  · intro j r mv h hmv
    unfold analyzeGameRows at h
    obtain ⟨hj, _, hfb, hfa, _, hsan, huci⟩ :=
      analyzeGameLoop_get_struct O A T d m mt wc coach moves startFen 0 c j r h
    have hget : moves.get ⟨j, hj⟩ = mv := by
      have := List.getElem?_eq_some_iff.1 hmv
      rcases this with ⟨h', heq⟩
      simpa using heq
    refine ⟨?_, by rw [hsan, hget], by rw [huci, hget]⟩
    rw [hfa, hfb, fenIter_take_succ A startFen moves j mv hmv]
  · intro j r r' h h'
    unfold analyzeGameRows at h h'
    obtain ⟨hj, _, hfb, hfa, hside, _, _⟩ :=
      analyzeGameLoop_get_struct O A T d m mt wc coach moves startFen 0 c j r h
    obtain ⟨hj', _, hfb', _, hside', _, _⟩ :=
      analyzeGameLoop_get_struct O A T d m mt wc coach moves startFen 0 c
        (j + 1) r' h'
    refine ⟨by rw [hfb', hfa], ?_⟩
    have hmv : moves[j]? = some (moves.get ⟨j, hj⟩) := by
      simp [List.getElem?_eq_getElem hj]
    have hstep : fenIter A startFen (moves.take (j + 1)) =
        A (fenIter A startFen (moves.take j)) (moves.get ⟨j, hj⟩) :=
      fenIter_take_succ A startFen moves j _ hmv
    rw [hside', hside, hstep, hflip]
    by_cases hw : T (fenIter A startFen (moves.take j)) = 'w'
    · simp [hw]
    · simp [hw]

/-- Closed instance of `c10_replay_consistent` on a two-ply game: plies
`1, 2`, chained positions, alternating sides starting with white. -/
theorem c10_replay_consistent_witness :
    (analyzeGameRows (fun _ => ⟨"bm", []⟩) (fun f _ => f ++ "x")
        (fun f => if f.length % 2 = 0 then 'w' else 'b') 16 3 none false
        (fun _ => {}) ⟨10000, []⟩
        [⟨"e2", "e4", none, "e4"⟩, ⟨"e7", "e5", none, "e5"⟩]).length = 2 ∧
    (⟨2, "black", "e5", "e7e5", startFen ++ "x", startFen ++ "x" ++ "x", "bm",
        0, 0, 0, .Okay, none, none⟩ : Row).fenBefore =
      (⟨1, "white", "e4", "e2e4", startFen, startFen ++ "x", "bm",
        0, 0, 0, .Okay, none, none⟩ : Row).fenAfter ∧
    (⟨2, "black", "e5", "e7e5", startFen ++ "x", startFen ++ "x" ++ "x", "bm",
        0, 0, 0, .Okay, none, none⟩ : Row).side =
      (if (⟨1, "white", "e4", "e2e4", startFen, startFen ++ "x", "bm",
        0, 0, 0, .Okay, none, none⟩ : Row).side = "white" then "black"
       else "white") := by
  have hflip : ∀ (f : String) (mv : MoveV),
      (if (f ++ "x").length % 2 = 0 then 'w' else 'b') =
        (if (if f.length % 2 = 0 then 'w' else 'b') = 'w' then 'b' else 'w') := by
    intro f mv
    have hx : ("x" : String).length = 1 := rfl
    have hlen : (f ++ "x").length = f.length + 1 := by
      rw [String.length_append, hx]
    rw [hlen]
    by_cases hp : f.length % 2 = 0
    · have h1 : (f.length + 1) % 2 = 1 := by omega
      simp [hp, h1]
    · have h1 : (f.length + 1) % 2 = 0 := by omega
      simp [hp, h1]
  have hmain := c10_replay_consistent (fun _ => ⟨"bm", []⟩) (fun f _ => f ++ "x")
    (fun f => if f.length % 2 = 0 then 'w' else 'b') 16 3 none false
    (fun _ => {}) ⟨10000, []⟩
    [⟨"e2", "e4", none, "e4"⟩, ⟨"e7", "e5", none, "e5"⟩] hflip
  have h0 : (analyzeGameRows (fun _ => ⟨"bm", []⟩) (fun f _ => f ++ "x")
      (fun f => if f.length % 2 = 0 then 'w' else 'b') 16 3 none false
      (fun _ => {}) ⟨10000, []⟩
      [⟨"e2", "e4", none, "e4"⟩, ⟨"e7", "e5", none, "e5"⟩])[0]? =
      some ⟨1, "white", "e4", "e2e4", startFen, startFen ++ "x", "bm",
        0, 0, 0, .Okay, none, none⟩ := by decide
  have h1 : (analyzeGameRows (fun _ => ⟨"bm", []⟩) (fun f _ => f ++ "x")
      (fun f => if f.length % 2 = 0 then 'w' else 'b') 16 3 none false
      (fun _ => {}) ⟨10000, []⟩
      [⟨"e2", "e4", none, "e4"⟩, ⟨"e7", "e5", none, "e5"⟩])[1]? =
      some ⟨2, "black", "e5", "e7e5", startFen ++ "x", startFen ++ "x" ++ "x",
        "bm", 0, 0, 0, .Okay, none, none⟩ := by decide
  refine ⟨by simpa using hmain.1, ?_, ?_⟩
  · exact (hmain.2.2.2.2 0 _ _ h0 h1).1
  · exact (hmain.2.2.2.2 0 _ _ h0 h1).2

/-! ## PGN normalization (`server.js`, `normalizePgn`)

Each `String.prototype.replace` pass is embedded as a structurally
recursive scanner over the character list, faithful to the JavaScript
regex semantics (leftmost match, advance by one character on failure,
word boundaries `\b` via the preceding/following character). -/

/-- `s.replace(/^﻿/, "")`. -/
def stripBom : List Char → List Char
  | '﻿' :: cs => cs
  | l => l

/-- Mode of the header-stripping scanner `\[.*?\]\s*` (with `s` flag):
outside a tag, inside an unclosed `[`, or skipping the `\s*` tail. -/
inductive TagMode where
  | out
  | ins (buf : List Char)
  | sw

/-- `s.replace(/\[.*?\]\s*/gs, "")`: drop everything from a `[` to the
first following `]` plus trailing whitespace; a `[` with no later `]`
matches nothing and is kept. -/
def stripTagsGo : TagMode → List Char → List Char
  | .out, c :: cs =>
      if c = '[' then stripTagsGo (.ins []) cs else c :: stripTagsGo .out cs
  | .ins b, c :: cs =>
      if c = ']' then stripTagsGo .sw cs else stripTagsGo (.ins (c :: b)) cs
  | .sw, c :: cs =>
      if jsWs c then stripTagsGo .sw cs
      else if c = '[' then stripTagsGo (.ins []) cs
      else c :: stripTagsGo .out cs
  | .out, [] => []
  | .ins b, [] => '[' :: b.reverse
  | .sw, [] => []

/-- Mode of the comment/variation strippers. -/
inductive EncMode where
  | out
  | ins (buf : List Char)

/-- `s.replace(/\{[^}]*\}/g, " ")` and `s.replace(/\([^)]*\)/g, " ")`:
drop an `op`-to-first-`cl` group, replacing it by one space; an unclosed
`op` matches nothing and is kept. -/
def stripEnclosedGo (op cl : Char) : EncMode → List Char → List Char
  | .out, c :: cs =>
      if c = op then stripEnclosedGo op cl (.ins []) cs
      else c :: stripEnclosedGo op cl .out cs
  | .ins b, c :: cs =>
      if c = cl then ' ' :: stripEnclosedGo op cl .out cs
      else stripEnclosedGo op cl (.ins (c :: b)) cs
  | .out, [] => []
  | .ins b, [] => op :: b.reverse

/-- `s.replace(/\$\d+/g, " ")`: a `$` followed by at least one digit is
replaced, digits included, by one space (the `Bool` is true while eating
the matched digits). -/
def stripNagsGo : Bool → List Char → List Char
  | _, [] => []
  | _, ['$'] => ['$']
  | _, '$' :: c :: cs =>
      if c.isDigit then ' ' :: stripNagsGo true cs
      else '$' :: stripNagsGo false (c :: cs)
  | true, c :: cs =>
      if c.isDigit then stripNagsGo true cs else c :: stripNagsGo false cs
  | false, c :: cs => c :: stripNagsGo false cs

/-- JavaScript `\w` (ASCII letters, digits, underscore). -/
def isWordChar (c : Char) : Bool := c.isAlpha ∨ c.isDigit ∨ c = '_'

/-- `\b` context: is the neighbouring character (if any) a word character? -/
def isWordOpt : Option Char → Bool
  | some c => isWordChar c
  | none => false

/-- `s.replace(/\b0-0-0\b/gi, "O-O-O")` (`prev` is the character before
the scan position, for the leading `\b`). -/
def castle3Go (prev : Option Char) : List Char → List Char
  | '0' :: '-' :: '0' :: '-' :: '0' :: rest =>
      if !isWordOpt prev && !isWordOpt rest.head? then
        'O' :: '-' :: 'O' :: '-' :: 'O' :: castle3Go (some '0') rest
      else '0' :: castle3Go (some '0') ('-' :: '0' :: '-' :: '0' :: rest)
  | c :: rest => c :: castle3Go (some c) rest
  | [] => []

/-- `s.replace(/\b0-0\b/gi, "O-O")`. -/
def castle2Go (prev : Option Char) : List Char → List Char
  | '0' :: '-' :: '0' :: rest =>
      if !isWordOpt prev && !isWordOpt rest.head? then
        'O' :: '-' :: 'O' :: castle2Go (some '0') rest
      else '0' :: castle2Go (some '0') ('-' :: '0' :: rest)
  | c :: rest => c :: castle2Go (some c) rest
  | [] => []

/-- `s.replace(/\b(1-0|0-1|1\/2-1\/2|\*)\b/g, " ")`: the alternatives have
pairwise incompatible shapes, so at each position at most one can match;
`\b` around `*` demands adjacent word characters. -/
def resultsGo (prev : Option Char) : List Char → List Char
  | '1' :: '-' :: '0' :: rest =>
      if !isWordOpt prev && !isWordOpt rest.head? then ' ' :: resultsGo (some '0') rest
      else '1' :: resultsGo (some '1') ('-' :: '0' :: rest)
  | '0' :: '-' :: '1' :: rest =>
      if !isWordOpt prev && !isWordOpt rest.head? then ' ' :: resultsGo (some '1') rest
      else '0' :: resultsGo (some '0') ('-' :: '1' :: rest)
  | '1' :: '/' :: '2' :: '-' :: '1' :: '/' :: '2' :: rest =>
      if !isWordOpt prev && !isWordOpt rest.head? then ' ' :: resultsGo (some '2') rest
      else '1' :: resultsGo (some '1') ('/' :: '2' :: '-' :: '1' :: '/' :: '2' :: rest)
  | '*' :: rest =>
      if isWordOpt prev && isWordOpt rest.head? then ' ' :: resultsGo (some '*') rest
      else '*' :: resultsGo (some '*') rest
  | c :: rest => c :: resultsGo (some c) rest
  | [] => []

/-- `s.replace(/(\d+)\.(\.\.)/g, "$1.")`: a digit run followed by three
dots keeps the digits and one dot (`some b` buffers a digit run,
reversed). -/
def moveNumDotsGo : Option (List Char) → List Char → List Char
  | none, [] => []
  | some b, [] => b.reverse
  | none, c :: cs =>
      if c.isDigit then moveNumDotsGo (some [c]) cs
      else c :: moveNumDotsGo none cs
  | some b, '.' :: '.' :: '.' :: cs => b.reverse ++ '.' :: moveNumDotsGo none cs
  | some b, '.' :: cs => b.reverse ++ '.' :: moveNumDotsGo none cs
  | some b, c :: cs =>
      if c.isDigit then moveNumDotsGo (some (c :: b)) cs
      else b.reverse ++ c :: moveNumDotsGo none cs

/-- `s.replace(/[ \t]+/g, " ")` (the flag is true just after emitting the
collapsed space). -/
def collapseSpTabGo : Bool → List Char → List Char
  | _, [] => []
  | true, c :: cs =>
      if c = ' ' ∨ c = '\t' then collapseSpTabGo true cs
      else c :: collapseSpTabGo false cs
  | false, c :: cs =>
      if c = ' ' ∨ c = '\t' then ' ' :: collapseSpTabGo true cs
      else c :: collapseSpTabGo false cs

/-- `s.replace(/\s+/g, " ")`. -/
def collapseWsGo : Bool → List Char → List Char
  | _, [] => []
  | true, c :: cs =>
      if jsWs c then collapseWsGo true cs
      else c :: collapseWsGo false cs
  | false, c :: cs =>
      if jsWs c then ' ' :: collapseWsGo true cs
      else c :: collapseWsGo false cs

/-- `normalizePgn` from `server.js`: BOM/zero-width/NBSP/dash/ellipsis/CR
fixes, then header, comment, variation and NAG stripping, castling-zero
normalization, result removal, `12...` → `12.`, whitespace collapse and a
final trim. -/
def normalizePgn (raw : String) : String :=
  if raw = "" then ""
  else
    let s1 := stripBom raw.data
    let s2 := s1.filter fun c => !(c = '​')
    let s3 := s2.map fun c => if c = ' ' then ' ' else c
    let s4 := s3.map fun c => if c = '–' ∨ c = '—' then '-' else c
    let s5 := s4.flatMap fun c => if c = '…' then ['.', '.', '.'] else [c]
    let s6 := s5.map fun c => if c = '\r' then '\n' else c
    let s7 := stripTagsGo .out s6
    let s8 := stripEnclosedGo '{' '}' .out s7
    let s9 := stripEnclosedGo '(' ')' .out s8
    let s10 := stripNagsGo false s9
    let s11 := castle3Go none s10
    let s12 := castle2Go none s11
    let s13 := resultsGo none s12
    let s14 := moveNumDotsGo none s13
    let s15 := collapseSpTabGo false s14
    let s16 := collapseWsGo false s15
    jsTrim ⟨s16⟩

/-! ## Loose game recovery (`server.js`, `parseGameLoose`)

The `chess.js` collaborators are parameters: `loadPgn` is
`g.loadPgn(clean, { sloppy: true })` (returning the loaded game on
success), `moveTol` is `tmp.move(t, { sloppy: true })` on a board of type
`B` (`none` models a throw), `freshBoard` is `new Chess()`. -/

/-- `/^\d+(\.{1,3})?$/`: a pure move-number token. -/
def pureMoveNumberTok (t : String) : Bool :=
  let ds := t.data.takeWhile Char.isDigit
  let rest := t.data.dropWhile Char.isDigit
  !ds.isEmpty && rest.all (fun c => c = '.') && decide (rest.length ≤ 3)

/-- `/^(1-0|0-1|1\/2-1\/2|\*)$/`: a game-result token. -/
def resultTok (t : String) : Bool :=
  t = "1-0" ∨ t = "0-1" ∨ t = "1/2-1/2" ∨ t = "*"

/-- `body.split(/\s+/)`: `some acc` accumulates the current chunk
(reversed); `none` is the state just after a separator run started. -/
def wsSplitGo : Option (List Char) → List Char → List String
  | some acc, [] => [⟨acc.reverse⟩]
  | none, [] => [""]
  | some acc, c :: cs =>
      if jsWs c then (⟨acc.reverse⟩ : String) :: wsSplitGo none cs
      else wsSplitGo (some (c :: acc)) cs
  | none, c :: cs =>
      if jsWs c then wsSplitGo none cs else wsSplitGo (some [c]) cs

/-- JavaScript `str.split(/\s+/)`. -/
def jsSplitWs (s : String) : List String := wsSplitGo (some []) s.data

/-- The salvage loop of `parseGameLoose`: trim each token, skip empties
and move numbers, break at a result token, try to apply everything else,
skipping tokens that fail to apply, counting applied moves. -/
def salvageTokens {B : Type} (moveTol : B → String → Option B) :
    B → Nat → List String → B × Nat
  | b, n, [] => (b, n)
  | b, n, t0 :: ts =>
      let t := jsTrim t0
      if t = "" then salvageTokens moveTol b n ts
      else if pureMoveNumberTok t then salvageTokens moveTol b n ts
      else if resultTok t then (b, n)
      else
        match moveTol b t with
        | some b' => salvageTokens moveTol b' (n + 1) ts
        | none => salvageTokens moveTol b n ts

/-- `parseGameLoose` from `server.js`: normalize, attempt the strict
sloppy `loadPgn`, and otherwise salvage token by token (after re-stripping
comments, variations and NAGs from the normalized text and trimming);
`null` when zero moves were salvaged. -/
def parseGameLoose {B : Type} (loadPgn : String → Option B)
    (moveTol : B → String → Option B) (freshBoard : B) (pgn : String) :
    Option B :=
  let clean := normalizePgn pgn
  match loadPgn clean with
  | some g => some g
  | none =>
      let body := jsTrim ⟨stripNagsGo false (stripEnclosedGo '(' ')' .out
        (stripEnclosedGo '{' '}' .out clean.data))⟩
      let toks := jsSplitWs body
      let out := salvageTokens moveTol freshBoard 0 toks
      if out.2 = 0 then none else some out.1

/-- One tolerant application attempt: apply the token if it parses as a
legal move, keep the board and count unchanged otherwise. -/
def salvageStep {B : Type} (moveTol : B → String → Option B)
    (p : B × Nat) (t : String) : B × Nat :=
  match moveTol p.1 t with
  | some b' => (b', p.2 + 1)
  | none => p

/-- The salvage token stream as the specification describes it: split the
(re-stripped, trimmed) normalized text on whitespace, discard empty and
pure move-number tokens, and stop at the first game-result token. -/
def salvageSpecTokens (pgn : String) : List String :=
  let clean := normalizePgn pgn
  let body := jsTrim ⟨stripNagsGo false (stripEnclosedGo '(' ')' .out
    (stripEnclosedGo '{' '}' .out clean.data))⟩
  (((jsSplitWs body).map jsTrim).filter
      (fun t => !(t = "") && !pureMoveNumberTok t)).takeWhile
    (fun t => !resultTok t)

/-- Applying every remaining token on a fresh board in tolerant mode,
skipping failures, as the specification describes it. -/
def salvageSpecApply {B : Type} (moveTol : B → String → Option B)
    (fresh : B) (ts : List String) : B × Nat :=
  ts.foldl (salvageStep moveTol) (fresh, 0)

theorem salvageTokens_eq {B : Type} (moveTol : B → String → Option B) :
    ∀ (ts : List String) (b : B) (n : Nat),
      salvageTokens moveTol b n ts =
        (((ts.map jsTrim).filter
            (fun t => !(t = "") && !pureMoveNumberTok t)).takeWhile
            (fun t => !resultTok t)).foldl (salvageStep moveTol) (b, n) := by
  intro ts
  induction ts with
  | nil => intro b n; rfl
  | cons t0 ts ih =>
      intro b n
      by_cases h1 : jsTrim t0 = ""
      · simp only [salvageTokens, h1, if_pos rfl, List.map_cons, List.filter_cons]
        simp [h1, ih]
      · by_cases h2 : pureMoveNumberTok (jsTrim t0) = true
        · simp only [salvageTokens, List.map_cons, List.filter_cons]
          rw [if_neg h1, if_pos h2]
          simp [h1, h2, ih]
        · have h2' : pureMoveNumberTok (jsTrim t0) = false :=
            Bool.not_eq_true _ ▸ by simpa using h2
          by_cases h3 : resultTok (jsTrim t0) = true
          · simp only [salvageTokens, List.map_cons, List.filter_cons]
            rw [if_neg h1, if_neg (by simp [h2']), if_pos h3]
            simp [h1, h2', h3]
          · have h3' : resultTok (jsTrim t0) = false :=
              Bool.not_eq_true _ ▸ by simpa using h3
            simp only [salvageTokens, List.map_cons, List.filter_cons]
            rw [if_neg h1, if_neg (by simp [h2']), if_neg (by simp [h3'])]
            cases hmv : moveTol b (jsTrim t0) with
            | some b' =>
                simp [h1, h2', h3', hmv, ih, salvageStep, List.takeWhile_cons]
            | none =>
                simp [h1, h2', h3', hmv, ih, salvageStep, List.takeWhile_cons]

/-- C7: when the strict load of the normalized movetext fails, the
recovery parser is exactly token-by-token salvage — split on whitespace,
discard move-number tokens, stop at a result token, apply each remaining
token in tolerant mode skipping failures — and it returns no game if and
only if zero moves were salvaged. -/
theorem c7_loose_fallback_salvage {B : Type} (loadPgn : String → Option B)
    (moveTol : B → String → Option B) (freshBoard : B) (pgn : String)
    (hstrict : loadPgn (normalizePgn pgn) = none) :
    parseGameLoose loadPgn moveTol freshBoard pgn =
      (if (salvageSpecApply moveTol freshBoard (salvageSpecTokens pgn)).2 = 0
       then none
       else some (salvageSpecApply moveTol freshBoard (salvageSpecTokens pgn)).1) ∧
    (parseGameLoose loadPgn moveTol freshBoard pgn = none ↔
      (salvageSpecApply moveTol freshBoard (salvageSpecTokens pgn)).2 = 0) := by
  have hmain : parseGameLoose loadPgn moveTol freshBoard pgn =
      (if (salvageSpecApply moveTol freshBoard (salvageSpecTokens pgn)).2 = 0
       then none
       else some (salvageSpecApply moveTol freshBoard (salvageSpecTokens pgn)).1) := by
    simp only [parseGameLoose]
    rw [hstrict]
    simp only [salvageSpecApply, salvageSpecTokens, salvageTokens_eq]
  refine ⟨hmain, ?_⟩
  rw [hmain]
  by_cases h : (salvageSpecApply moveTol freshBoard (salvageSpecTokens pgn)).2 = 0
  · simp [h]
  · simp [h]

/-- Closed instance of `c7_loose_fallback_salvage` on a concrete malformed
movetext: move numbers discarded, a failing token skipped, salvage stops
at `1-0`, and the three applied moves are returned in order. -/
theorem c7_loose_fallback_salvage_witness :
    parseGameLoose (fun _ => none)
        (fun (b : List String) t => if t = "Qx9" then none else some (t :: b))
        [] "1. e4 {c} e5 2. Qx9 Nf3 1-0 Nc6" =
      (if (salvageSpecApply
          (fun (b : List String) t => if t = "Qx9" then none else some (t :: b))
          [] (salvageSpecTokens "1. e4 {c} e5 2. Qx9 Nf3 1-0 Nc6")).2 = 0
       then none
       else some (salvageSpecApply
          (fun (b : List String) t => if t = "Qx9" then none else some (t :: b))
          [] (salvageSpecTokens "1. e4 {c} e5 2. Qx9 Nf3 1-0 Nc6")).1) ∧
    (parseGameLoose (fun _ => none)
        (fun (b : List String) t => if t = "Qx9" then none else some (t :: b))
        [] "1. e4 {c} e5 2. Qx9 Nf3 1-0 Nc6" = none ↔
      (salvageSpecApply
          (fun (b : List String) t => if t = "Qx9" then none else some (t :: b))
          [] (salvageSpecTokens "1. e4 {c} e5 2. Qx9 Nf3 1-0 Nc6")).2 = 0) :=
  c7_loose_fallback_salvage (fun _ => none)
    (fun (b : List String) t => if t = "Qx9" then none else some (t :: b))
    [] "1. e4 {c} e5 2. Qx9 Nf3 1-0 Nc6" rfl

/-! ## Robustness of normalization (claim C8)

A grammar of "dirty" movetext: a sequence of items (SAN tokens, castling
tokens possibly zero-based or smart-dashed, move numbers possibly with an
ellipsis, bracketed headers, curly-brace comments, parenthesized
variations, NAG glyphs, game-result tokens possibly smart-dashed), each
followed by one separator character (space, NBSP or newline).  The clean
equivalent keeps only the tokens and move numbers, canonically rendered
and space-separated.  `normalizePgn` is proved to send any well-formed
dirty rendering to the canonical join of its surviving tokens, hence the
dirty text and its clean equivalent parse identically. -/

/-- A character of a plain SAN token (letters, digits, `=`, `+`, `#`). -/
def sanChar (c : Char) : Bool :=
  c.isAlpha || c.isDigit || c = '=' || c = '+' || c = '#'

/-- A hyphen or a smart dash. -/
def dashOk (c : Char) : Bool := c = '-' ∨ c = '–' ∨ c = '—'

/-- An optional check/mate suffix on a castling token. -/
def sufOk : Option Char → Bool
  | none => true
  | some c => c = '+' ∨ c = '#'

/-- A separator character: space, NBSP or newline. -/
def sepOk (c : Char) : Bool := c = ' ' ∨ c = ' ' ∨ c = '\n'

/-- Items of the dirty-movetext grammar. -/
inductive PgnItem where
  | tokI (t : String)
  | castleI (big : Bool) (zero : Bool) (d : Char) (suf : Option Char)
  | numI (ds : List Char) (ell : Bool)
  | headerI (content : List Char)
  | commentI (content : List Char)
  | varI (content : List Char)
  | nagI (ds : List Char)
  | resI (k : Fin 3) (d : Char)
deriving DecidableEq, Repr

/-- Rendering of a castling token with dash `d`, `0`s when `zero`. -/
def castleChars (big zero : Bool) (d : Char) (suf : Option Char) : List Char :=
  let o := if zero then '0' else 'O'
  (if big then [o, d, o, d, o] else [o, d, o]) ++
    (match suf with | some c => [c] | none => [])

/-- Rendering of a game-result token with dash `d`. -/
def resChars (k : Fin 3) (d : Char) : List Char :=
  if k = 0 then ['1', d, '0']
  else if k = 1 then ['0', d, '1']
  else ['1', '/', '2', d, '1', '/', '2']

/-- Raw (dirty) rendering of one item. -/
def itemRender : PgnItem → List Char
  | .tokI t => t.data
  | .castleI big zero d suf => castleChars big zero d suf
  | .numI ds ell => ds ++ (if ell then ['.', '.', '.'] else ['.'])
  | .headerI content => '[' :: content ++ [']']
  | .commentI content => '{' :: content ++ ['}']
  | .varI content => '(' :: content ++ [')']
  | .nagI ds => '$' :: ds
  | .resI k d => resChars k d

/-- Well-formedness of one item. -/
def itemOk : PgnItem → Bool
  | .tokI t => !t.data.isEmpty && t.data.all sanChar
  | .castleI _ _ d suf => dashOk d && sufOk suf
  | .numI ds _ => !ds.isEmpty && ds.all Char.isDigit
  | .headerI content => !content.contains ']'
  | .commentI content =>
      content.all fun c => !(c = '{') && !(c = '}') && !(c = '[') && !(c = ']')
  | .varI content =>
      content.all fun c =>
        !(c = '(') && !(c = ')') && !(c = '{') && !(c = '}') &&
          !(c = '[') && !(c = ']')
  | .nagI ds => !ds.isEmpty && ds.all Char.isDigit
  | .resI _ d => dashOk d

/-- Well-formedness of an item/separator sequence. -/
def itemsOk (items : List (PgnItem × Char)) : Bool :=
  items.all fun p => itemOk p.1 && sepOk p.2

/-- The dirty rendering: each item followed by its separator. -/
def renderPgn (items : List (PgnItem × Char)) : List Char :=
  items.flatMap fun p => itemRender p.1 ++ [p.2]

/-- The character-fix passes 2–6 of `normalizePgn` (zero-width removal,
NBSP, smart dashes, ellipsis, CR), as one list function. -/
def charFixL (l : List Char) : List Char :=
  ((((l.filter fun c => !(c = '​')).map
      fun c => if c = ' ' then ' ' else c).map
      fun c => if c = '–' ∨ c = '—' then '-' else c).flatMap
      fun c => if c = '…' then ['.', '.', '.'] else [c]).map
      fun c => if c = '\r' then '\n' else c

/-- Per-character action of `charFixL`. -/
def charFixChar (c : Char) : List Char :=
  if c = '​' then []
  else
    let c1 := if c = ' ' then ' ' else c
    let c2 := if c1 = '–' ∨ c1 = '—' then '-' else c1
    if c2 = '…' then ['.', '.', '.']
    else [if c2 = '\r' then '\n' else c2]

/-- Separator after the character fixes (NBSP collapses to a space). -/
def sepFix (c : Char) : Char := if c = ' ' then ' ' else c

/-- Join the current bodies of the surviving items, each followed by its
(fixed) separator. -/
def joinItems (f : PgnItem → Option (List Char))
    (items : List (PgnItem × Char)) : List Char :=
  items.flatMap fun p =>
    match f p.1 with
    | some body => body ++ [sepFix p.2]
    | none => []

/-- Item bodies after the character-fix passes. -/
def fix1 : PgnItem → Option (List Char)
  | .tokI t => some t.data
  | .castleI big zero _ suf => some (castleChars big zero '-' suf)
  | .numI ds ell => some (ds ++ (if ell then ['.', '.', '.'] else ['.']))
  | .headerI content => some ('[' :: charFixL content ++ [']'])
  | .commentI content => some ('{' :: charFixL content ++ ['}'])
  | .varI content => some ('(' :: charFixL content ++ [')'])
  | .nagI ds => some ('$' :: ds)
  | .resI k _ => some (resChars k '-')

/-- Item bodies after header stripping. -/
def fix2 : PgnItem → Option (List Char)
  | .headerI _ => none
  | i => fix1 i

/-- Item bodies after comment stripping. -/
def fix3 : PgnItem → Option (List Char)
  | .commentI _ => some [' ']
  | i => fix2 i

/-- Item bodies after variation stripping. -/
def fix4 : PgnItem → Option (List Char)
  | .varI _ => some [' ']
  | i => fix3 i

/-- Item bodies after NAG stripping. -/
def fix5 : PgnItem → Option (List Char)
  | .nagI _ => some [' ']
  | i => fix4 i

/-- Item bodies after `0-0-0` normalization. -/
def fix6 : PgnItem → Option (List Char)
  | .castleI true _ _ suf => some (castleChars true false '-' suf)
  | i => fix5 i

/-- Item bodies after `0-0` normalization. -/
def fix7 : PgnItem → Option (List Char)
  | .castleI big _ _ suf => some (castleChars big false '-' suf)
  | i => fix6 i

/-- Item bodies after result removal. -/
def fix8 : PgnItem → Option (List Char)
  | .resI _ _ => some [' ']
  | i => fix7 i

/-- Item bodies after move-number-ellipsis normalization. -/
def fix9 : PgnItem → Option (List Char)
  | .numI ds _ => some (ds ++ ['.'])
  | i => fix8 i

/-- The canonical residue of an item in the clean movetext. -/
def residue : PgnItem → Option (List Char)
  | .tokI t => some t.data
  | .castleI big _ _ suf => some (castleChars big false '-' suf)
  | .numI ds _ => some (ds ++ ['.'])
  | _ => none

/-- Space-separated join of the residues. -/
def wordsJoin : List (List Char) → List Char
  | [] => []
  | [w] => w
  | w :: ws => w ++ ' ' :: wordsJoin ws

/-! ### Stage 1: the character-fix passes -/

/-- A character untouched by the character-fix passes. -/
def plainChar (c : Char) : Bool :=
  !(c = '​') && !(c = ' ') && !(c = '–') && !(c = '—') && !(c = '…') &&
    !(c = '\r')

theorem charFixL_append (a b : List Char) :
    charFixL (a ++ b) = charFixL a ++ charFixL b := by
  simp [charFixL, List.filter_append, List.map_append, List.flatMap_append]

theorem charFixL_cons (c : Char) (l : List Char) :
    charFixL (c :: l) = charFixL [c] ++ charFixL l := by
  rw [show c :: l = [c] ++ l from rfl, charFixL_append]

theorem charFixL_single_plain {c : Char} (h : plainChar c = true) :
    charFixL [c] = [c] := by
  simp only [plainChar, Bool.and_eq_true, Bool.not_eq_eq_eq_not, Bool.not_true,
    decide_eq_false_iff_not] at h
  obtain ⟨⟨⟨⟨⟨h1, h2⟩, h3⟩, h4⟩, h5⟩, h6⟩ := h
  simp [charFixL, h1, h2, h3, h4, h5, h6]

theorem charFixL_plain {l : List Char} (h : ∀ c ∈ l, plainChar c = true) :
    charFixL l = l := by
  induction l with
  | nil => rfl
  | cons c l ih =>
      rw [charFixL_cons, charFixL_single_plain (h c (List.mem_cons_self _ _)),
        ih fun d hd => h d (List.mem_cons_of_mem _ hd)]
      rfl

theorem sanChar_plain {c : Char} (h : sanChar c = true) : plainChar c = true := by
  have h1 : ¬(c = '​') := fun he => by subst he; exact absurd h (by decide)
  have h2 : ¬(c = ' ') := fun he => by subst he; exact absurd h (by decide)
  have h3 : ¬(c = '–') := fun he => by subst he; exact absurd h (by decide)
  have h4 : ¬(c = '—') := fun he => by subst he; exact absurd h (by decide)
  have h5 : ¬(c = '…') := fun he => by subst he; exact absurd h (by decide)
  have h6 : ¬(c = '\r') := fun he => by subst he; exact absurd h (by decide)
  simp [plainChar, h1, h2, h3, h4, h5, h6]

theorem digit_plain {c : Char} (h : c.isDigit = true) : plainChar c = true := by
  have h1 : ¬(c = '​') := fun he => by subst he; exact absurd h (by decide)
  have h2 : ¬(c = ' ') := fun he => by subst he; exact absurd h (by decide)
  have h3 : ¬(c = '–') := fun he => by subst he; exact absurd h (by decide)
  have h4 : ¬(c = '—') := fun he => by subst he; exact absurd h (by decide)
  have h5 : ¬(c = '…') := fun he => by subst he; exact absurd h (by decide)
  have h6 : ¬(c = '\r') := fun he => by subst he; exact absurd h (by decide)
  simp [plainChar, h1, h2, h3, h4, h5, h6]

theorem charFixL_single_dash {c : Char} (h : dashOk c = true) :
    charFixL [c] = ['-'] := by
  rcases (by simpa [dashOk] using h : c = '-' ∨ c = '–' ∨ c = '—') with
    rfl | rfl | rfl <;> rfl

theorem charFixL_single_sep {c : Char} (h : sepOk c = true) :
    charFixL [c] = [sepFix c] := by
  rcases (by simpa [sepOk] using h : c = ' ' ∨ c = ' ' ∨ c = '\n') with
    rfl | rfl | rfl <;> rfl

theorem charFixL_single_sub (c x : Char) (h : x ∈ charFixL [c]) :
    x = c ∨ x ∈ ['-', ' ', '.', '\n'] := by
  by_cases hzw : c = '​'
  · subst hzw; simp [charFixL] at h
  · by_cases hnb : c = ' '
    · subst hnb
      have hx : x = ' ' := by simpa [charFixL] using h
      simp [hx]
    · by_cases hda : c = '–' ∨ c = '—'
      · rcases hda with rfl | rfl
        · have hx : x = '-' := by simpa [charFixL] using h
          simp [hx]
        · have hx : x = '-' := by simpa [charFixL] using h
          simp [hx]
      · by_cases hel : c = '…'
        · subst hel
          have hx : x = '.' := by
            simp only [charFixL] at h
            simp [show ¬('…' = '​') from by decide] at h
            rcases h with rfl | rfl | rfl
            all_goals rfl
          simp [hx]
        · by_cases hcr : c = '\r'
          · subst hcr
            have hx : x = '\n' := by simpa [charFixL] using h
            simp [hx]
          · left
            simp only [charFixL, List.filter_cons, List.filter_nil] at h
            rw [if_pos (by simpa using hzw)] at h
            simp only [List.map_cons, List.map_nil, List.flatMap_cons,
              List.flatMap_nil, if_neg hnb] at h
            rw [if_neg hda] at h
            simp only [if_neg hel, List.append_nil, List.map_cons,
              List.map_nil, if_neg hcr, List.mem_singleton] at h
            exact h

theorem charFixL_mem {l : List Char} {x : Char} (h : x ∈ charFixL l) :
    x ∈ l ∨ x ∈ ['-', ' ', '.', '\n'] := by
  induction l with
  | nil => cases h
  | cons c cs ih =>
      rw [charFixL_cons] at h
      rcases List.mem_append.1 h with h | h
      · rcases charFixL_single_sub c x h with rfl | hx
        · exact Or.inl (List.mem_cons_self _ _)
        · exact Or.inr hx
      · rcases ih h with hx | hx
        · exact Or.inl (List.mem_cons_of_mem _ hx)
        · exact Or.inr hx

theorem charFixL_three (a b c : Char) :
    charFixL [a, b, c] = charFixL [a] ++ charFixL [b] ++ charFixL [c] := by
  rw [show [a, b, c] = [a] ++ ([b] ++ [c]) from rfl, charFixL_append,
    charFixL_append, List.append_assoc]

theorem charFixL_five (a b c d e : Char) :
    charFixL [a, b, c, d, e] = charFixL [a] ++ charFixL [b] ++ charFixL [c] ++
      charFixL [d] ++ charFixL [e] := by
  rw [show [a, b, c, d, e] = [a] ++ ([b] ++ ([c] ++ ([d] ++ [e]))) from rfl]
  rw [charFixL_append, charFixL_append, charFixL_append, charFixL_append]
  simp [List.append_assoc]

theorem charFixL_itemRender {i : PgnItem} (h : itemOk i = true) :
    fix1 i = some (charFixL (itemRender i)) := by
  cases i with
  | tokI t =>
      simp only [itemOk, Bool.and_eq_true, List.all_eq_true] at h
      simp only [fix1, itemRender]
      rw [charFixL_plain fun c hc => sanChar_plain (h.2 c hc)]
  | castleI big zero d suf =>
      simp only [itemOk, Bool.and_eq_true] at h
      obtain ⟨hd, hs⟩ := h
      have hO : charFixL ['O'] = ['O'] := charFixL_single_plain (by decide)
      have h0 : charFixL ['0'] = ['0'] := charFixL_single_plain (by decide)
      cases suf with
      | none =>
          simp only [fix1, itemRender, castleChars]
          cases big <;> cases zero <;>
            simp [charFixL_three, charFixL_five, charFixL_single_dash hd, hO, h0]
      | some c =>
          rcases (by simpa [sufOk] using hs : c = '+' ∨ c = '#') with rfl | rfl <;>
            · simp only [fix1, itemRender, castleChars]
              rw [charFixL_append]
              cases big <;> cases zero <;>
                simp [charFixL_three, charFixL_five, charFixL_single_dash hd,
                  hO, h0, charFixL_single_plain (show plainChar '+' = true from
                    by decide),
                  charFixL_single_plain (show plainChar '#' = true from
                    by decide)]
  | numI ds ell =>
      simp only [itemOk, Bool.and_eq_true, List.all_eq_true] at h
      simp only [fix1, itemRender]
      rw [charFixL_plain]
      intro c hc
      rcases List.mem_append.1 hc with hc | hc
      · exact digit_plain (h.2 c hc)
      · cases ell <;> simp at hc <;> subst hc <;> decide
  | headerI content =>
      simp only [fix1, itemRender]
      rw [charFixL_append, charFixL_cons, charFixL_single_plain (by decide),
        charFixL_single_plain (by decide)]
      rfl
  | commentI content =>
      simp only [fix1, itemRender]
      rw [charFixL_append, charFixL_cons, charFixL_single_plain (by decide),
        charFixL_single_plain (by decide)]
      rfl
  | varI content =>
      simp only [fix1, itemRender]
      rw [charFixL_append, charFixL_cons, charFixL_single_plain (by decide),
        charFixL_single_plain (by decide)]
      rfl
  | nagI ds =>
      simp only [itemOk, Bool.and_eq_true, List.all_eq_true] at h
      simp only [fix1, itemRender]
      rw [charFixL_cons, charFixL_single_plain (by decide),
        charFixL_plain fun c hc => digit_plain (h.2 c hc)]
      rfl
  | resI k d =>
      simp only [itemOk] at h
      have h1c : charFixL ['1'] = ['1'] := charFixL_single_plain (by decide)
      have h0c : charFixL ['0'] = ['0'] := charFixL_single_plain (by decide)
      simp only [fix1, itemRender, resChars]
      by_cases hk0 : k = 0
      · simp [hk0, charFixL_three, charFixL_single_dash h, h1c, h0c]
      · by_cases hk1 : k = 1
        · simp [hk0, hk1, charFixL_three, charFixL_single_dash h, h1c, h0c]
        · simp only [hk0, hk1, if_false]
          rw [show ['1', '/', '2', d, '1', '/', '2'] =
            ['1', '/', '2'] ++ ([d] ++ ['1', '/', '2']) from rfl,
            charFixL_append, charFixL_append,
            charFixL_plain (l := ['1', '/', '2']) (by decide),
            charFixL_single_dash h]
          rfl

theorem stage1_charFix (items : List (PgnItem × Char))
    (h : itemsOk items = true) :
    charFixL (renderPgn items) = joinItems fix1 items := by
  induction items with
  | nil => rfl
  | cons p items ih =>
      rw [itemsOk, List.all_cons, Bool.and_eq_true, Bool.and_eq_true] at h
      obtain ⟨⟨hitem, hsep⟩, hrest⟩ := h
      rw [show renderPgn (p :: items) =
        (itemRender p.1 ++ [p.2]) ++ renderPgn items from rfl]
      rw [charFixL_append, charFixL_append, charFixL_single_sep hsep, ih hrest]
      rw [show joinItems fix1 (p :: items) =
        (match fix1 p.1 with
          | some body => body ++ [sepFix p.2]
          | none => []) ++ joinItems fix1 items from rfl]
      rw [charFixL_itemRender hitem]

/-! ### Stage 2: header stripping -/

theorem ws_not_word {c : Char} (h : jsWs c = true) : isWordChar c = false := by
  rcases (by simpa [jsWs] using h :
      c = ' ' ∨ c = '\t' ∨ c = '\n' ∨ c = '\r' ∨ c = '\x0b' ∨ c = '\x0c' ∨
        c = '\u00A0' ∨ c = '\uFEFF') with
    rfl | rfl | rfl | rfl | rfl | rfl | rfl | rfl <;> rfl

theorem sanChar_not_ws {c : Char} (h : sanChar c = true) : jsWs c = false := by
  by_contra hw
  have hw' : jsWs c = true := by simpa using hw
  rcases (by simpa [jsWs] using hw' :
      c = ' ' ∨ c = '\t' ∨ c = '\n' ∨ c = '\r' ∨ c = '\x0b' ∨ c = '\x0c' ∨
        c = '\u00A0' ∨ c = '\uFEFF') with
    rfl | rfl | rfl | rfl | rfl | rfl | rfl | rfl <;> exact absurd h (by decide)

theorem digit_not_ws {c : Char} (h : c.isDigit = true) : jsWs c = false := by
  by_contra hw
  have hw' : jsWs c = true := by simpa using hw
  rcases (by simpa [jsWs] using hw' :
      c = ' ' ∨ c = '\t' ∨ c = '\n' ∨ c = '\r' ∨ c = '\x0b' ∨ c = '\x0c' ∨
        c = '\u00A0' ∨ c = '\uFEFF') with
    rfl | rfl | rfl | rfl | rfl | rfl | rfl | rfl <;> exact absurd h (by decide)

theorem sepFix_ws {c : Char} (h : sepOk c = true) : jsWs (sepFix c) = true := by
  rcases (by simpa [sepOk] using h : c = ' ' ∨ c = ' ' ∨ c = '\n') with
    rfl | rfl | rfl <;> rfl

theorem stripTags_out_cons {c : Char} (hc : ¬c = '[') (l : List Char) :
    stripTagsGo .out (c :: l) = c :: stripTagsGo .out l := by
  simp [stripTagsGo, hc]

theorem stripTags_out_chunk {xs : List Char} (hx : '[' ∉ xs) (l : List Char) :
    stripTagsGo .out (xs ++ l) = xs ++ stripTagsGo .out l := by
  induction xs with
  | nil => rfl
  | cons c cs ih =>
      have hc : ¬c = '[' := fun h => hx (h ▸ List.mem_cons_self _ _)
      rw [List.cons_append, stripTags_out_cons hc,
        ih fun h => hx (List.mem_cons_of_mem _ h)]
      rfl

theorem stripTags_ins {content : List Char} (hc : ']' ∉ content)
    (b : List Char) (rest : List Char) :
    stripTagsGo (.ins b) (content ++ ']' :: rest) = stripTagsGo .sw rest := by
  induction content generalizing b with
  | nil => simp [stripTagsGo]
  | cons c cs ih =>
      have hne : ¬c = ']' := fun h => hc (h ▸ List.mem_cons_self _ _)
      rw [List.cons_append]
      rw [show stripTagsGo (.ins b) (c :: (cs ++ ']' :: rest)) =
        stripTagsGo (.ins (c :: b)) (cs ++ ']' :: rest) from by
          simp [stripTagsGo, hne]]
      exact ih (fun h => hc (List.mem_cons_of_mem _ h)) _

theorem stripTags_header {content : List Char} (hc : ']' ∉ content)
    (rest : List Char) :
    stripTagsGo .out (('[' :: content) ++ ']' :: rest) =
      stripTagsGo .sw rest := by
  rw [List.cons_append]
  rw [show stripTagsGo .out ('[' :: (content ++ ']' :: rest)) =
    stripTagsGo (.ins []) (content ++ ']' :: rest) from by simp [stripTagsGo]]
  exact stripTags_ins hc [] rest

theorem stripTags_sw_ws {c : Char} (hc : jsWs c = true) (l : List Char) :
    stripTagsGo .sw (c :: l) = stripTagsGo .sw l := by
  simp [stripTagsGo, hc]

theorem stripTags_sw_out (l : List Char)
    (hl : l = [] ∨ ∃ c cs, l = c :: cs ∧ jsWs c = false) :
    stripTagsGo .sw l = stripTagsGo .out l := by
  rcases hl with rfl | ⟨c, cs, rfl, hc⟩
  · rfl
  · by_cases hbr : c = '['
    · subst hbr
      simp [stripTagsGo, hc]
    · simp [stripTagsGo, hc, hbr]

theorem ne_of_pred {p : Char → Bool} {c x : Char} (h : p c = true)
    (hx : p x = false) : ¬c = x := by
  intro he
  subst he
  rw [h] at hx
  cases hx

theorem fix1_shape {i : PgnItem} (h : itemOk i = true) :
    ∃ c bs, fix1 i = some (c :: bs) ∧ jsWs c = false := by
  cases i with
  | tokI t =>
      rw [itemOk, Bool.and_eq_true] at h
      cases hd : t.data with
      | nil => rw [hd] at h; simp at h
      | cons c bs =>
          refine ⟨c, bs, by simp [fix1, hd], ?_⟩
          have := (List.all_eq_true.1 h.2) c (by rw [hd]; exact List.mem_cons_self _ _)
          exact sanChar_not_ws this
  | castleI big zero d suf =>
      cases big <;> cases zero
      · exact ⟨'O', _, rfl, by decide⟩
      · exact ⟨'0', _, rfl, by decide⟩
      · exact ⟨'O', _, rfl, by decide⟩
      · exact ⟨'0', _, rfl, by decide⟩
  | numI ds ell =>
      rw [itemOk, Bool.and_eq_true] at h
      cases hd : ds with
      | nil => rw [hd] at h; simp at h
      | cons c bs =>
          refine ⟨c, bs ++ (if ell then ['.', '.', '.'] else ['.']),
            by simp [fix1, hd], ?_⟩
          have := (List.all_eq_true.1 h.2) c (by rw [hd]; exact List.mem_cons_self _ _)
          exact digit_not_ws this
  | headerI content => exact ⟨'[', _, rfl, by decide⟩
  | commentI content => exact ⟨'{', _, rfl, by decide⟩
  | varI content => exact ⟨'(', _, rfl, by decide⟩
  | nagI ds => exact ⟨'$', _, rfl, by decide⟩
  | resI k d =>
      by_cases hk0 : k = 0
      · exact ⟨'1', ['-', '0'], by simp [fix1, resChars, hk0], by decide⟩
      · by_cases hk1 : k = 1
        · exact ⟨'0', ['-', '1'], by simp [fix1, resChars, hk0, hk1], by decide⟩
        · exact ⟨'1', ['/', '2', '-', '1', '/', '2'],
            by simp [fix1, resChars, hk0, hk1], by decide⟩

theorem joinItems_fix1_shape (items : List (PgnItem × Char))
    (h : itemsOk items = true) :
    joinItems fix1 items = [] ∨
      ∃ c bs, joinItems fix1 items = c :: bs ∧ jsWs c = false := by
  cases items with
  | nil => exact Or.inl rfl
  | cons p items =>
      rw [itemsOk, List.all_cons, Bool.and_eq_true, Bool.and_eq_true] at h
      obtain ⟨c, bs, hfix, hws⟩ := fix1_shape h.1.1
      right
      exact ⟨c, bs ++ sepFix p.2 :: joinItems fix1 items,
        by simp [joinItems, hfix], hws⟩

theorem sepFix_cases {c : Char} (h : sepOk c = true) :
    sepFix c = ' ' ∨ sepFix c = '\n' := by
  rcases (by simpa [sepOk] using h : c = ' ' ∨ c = ' ' ∨ c = '\n') with
    rfl | rfl | rfl
  · exact Or.inl rfl
  · exact Or.inl rfl
  · exact Or.inr rfl

theorem castleChars_mem {big zero : Bool} {suf : Option Char} {x : Char}
    (hs : sufOk suf = true) (hx : x ∈ castleChars big zero '-' suf) :
    x = '0' ∨ x = 'O' ∨ x = '-' ∨ x = '+' ∨ x = '#' := by
  have hsuf : ∀ y ∈ (match suf with | some c => [c] | none => ([] : List Char)),
      y = '+' ∨ y = '#' := by
    cases suf with
    | none => intro y hy; cases hy
    | some c =>
        intro y hy
        simp only [List.mem_singleton] at hy
        subst hy
        simpa [sufOk] using hs
  rcases List.mem_append.1 hx with hx | hx
  · cases big <;> cases zero <;> simp at hx <;> tauto
  · rcases hsuf x hx with rfl | rfl <;> simp

theorem resChars_mem {k : Fin 3} {x : Char} (hx : x ∈ resChars k '-') :
    x = '1' ∨ x = '0' ∨ x = '2' ∨ x = '-' ∨ x = '/' := by
  by_cases hk0 : k = 0
  · simp [resChars, hk0] at hx
    tauto
  · by_cases hk1 : k = 1
    · simp [resChars, hk0, hk1] at hx
      tauto
    · simp [resChars, hk0, hk1] at hx
      tauto

theorem fix1_no_bracket {i : PgnItem} (h : itemOk i = true)
    (hh : ∀ content, ¬i = .headerI content) {body : List Char}
    (hb : fix1 i = some body) : '[' ∉ body := by
  intro hx
  cases i with
  | tokI t =>
      rw [itemOk, Bool.and_eq_true] at h
      cases hb
      exact absurd (List.all_eq_true.1 h.2 '[' hx) (by decide)
  | castleI big zero d suf =>
      rw [itemOk, Bool.and_eq_true] at h
      cases hb
      have := castleChars_mem h.2 hx
      simp at this
  | numI ds ell =>
      rw [itemOk, Bool.and_eq_true] at h
      cases hb
      rcases List.mem_append.1 hx with hx | hx
      · exact absurd (List.all_eq_true.1 h.2 '[' hx) (by decide)
      · cases ell <;> simp at hx
  | headerI content => exact absurd rfl (hh content)
  | commentI content =>
      rw [itemOk] at h
      cases hb
      rcases List.mem_cons.1 hx with hx | hx
      · cases hx
      · rcases List.mem_append.1 hx with hx | hx
        · rcases charFixL_mem hx with hx | hx
          · have := List.all_eq_true.1 h '[' hx
            simp at this
          · simp at hx
        · simp at hx
  | varI content =>
      rw [itemOk] at h
      cases hb
      rcases List.mem_cons.1 hx with hx | hx
      · cases hx
      · rcases List.mem_append.1 hx with hx | hx
        · rcases charFixL_mem hx with hx | hx
          · have := List.all_eq_true.1 h '[' hx
            simp at this
          · simp at hx
        · simp at hx
  | nagI ds =>
      rw [itemOk, Bool.and_eq_true] at h
      cases hb
      rcases List.mem_cons.1 hx with hx | hx
      · cases hx
      · exact absurd (List.all_eq_true.1 h.2 '[' hx) (by decide)
  | resI k d =>
      cases hb
      have := resChars_mem hx
      simp at this

theorem stage2_tags (items : List (PgnItem × Char)) (h : itemsOk items = true) :
    stripTagsGo .out (joinItems fix1 items) = joinItems fix2 items := by
  induction items with
  | nil => rfl
  | cons p items ih =>
      rw [itemsOk, List.all_cons, Bool.and_eq_true, Bool.and_eq_true] at h
      obtain ⟨⟨hitem, hsep⟩, hrest⟩ := h
      by_cases hhd : ∃ content, p.1 = .headerI content
      · obtain ⟨content, hp⟩ := hhd
        have hnob : ']' ∉ charFixL content := by
          intro hm
          rcases charFixL_mem hm with hmem | hsp
          · rw [hp, itemOk] at hitem
            simp at hitem
            exact hitem hmem
          · simp at hsp
        have hjoin : joinItems fix1 (p :: items) =
            ('[' :: charFixL content) ++
              ']' :: sepFix p.2 :: joinItems fix1 items := by
          simp [joinItems, hp, fix1]
        rw [hjoin, stripTags_header hnob, stripTags_sw_ws (sepFix_ws hsep),
          stripTags_sw_out _ (joinItems_fix1_shape items hrest), ih hrest]
        simp [joinItems, hp, fix2]
      · obtain ⟨c, bs, hfix, _⟩ := fix1_shape hitem
        have hnob : '[' ∉ c :: bs :=
          fix1_no_bracket hitem (fun content hc => hhd ⟨content, hc⟩) hfix
        have hfix2 : fix2 p.1 = fix1 p.1 := by
          cases hp : p.1 <;> simp [fix2]
          exact absurd hp (fun hc => hhd ⟨_, hc⟩)
        have hjoin : joinItems fix1 (p :: items) =
            ((c :: bs) ++ [sepFix p.2]) ++ joinItems fix1 items := by
          simp [joinItems, hfix]
        rw [hjoin, stripTags_out_chunk ?hx, ih hrest]
        case hx =>
          intro hm
          rcases List.mem_append.1 hm with hm | hm
          · exact hnob hm
          · simp only [List.mem_singleton] at hm
            rcases sepFix_cases hsep with hs | hs <;> rw [hs] at hm <;> cases hm
        simp [joinItems, hfix2, hfix, List.append_assoc]

/-! ### Stages 3 and 4: comment and variation stripping -/

theorem enc_out_cons (op cl : Char) {c : Char} (hc : ¬c = op) (l : List Char) :
    stripEnclosedGo op cl .out (c :: l) = c :: stripEnclosedGo op cl .out l := by
  simp [stripEnclosedGo, hc]

theorem enc_out_chunk (op cl : Char) {xs : List Char} (hx : op ∉ xs)
    (l : List Char) :
    stripEnclosedGo op cl .out (xs ++ l) = xs ++ stripEnclosedGo op cl .out l := by
  induction xs with
  | nil => rfl
  | cons c cs ih =>
      have hc : ¬c = op := fun h => hx (h ▸ List.mem_cons_self _ _)
      rw [List.cons_append, enc_out_cons op cl hc,
        ih fun h => hx (List.mem_cons_of_mem _ h)]
      rfl

theorem enc_ins (op cl : Char) {content : List Char}
    (hc : cl ∉ content) (b : List Char) (rest : List Char) :
    stripEnclosedGo op cl (.ins b) (content ++ cl :: rest) =
      ' ' :: stripEnclosedGo op cl .out rest := by
  induction content generalizing b with
  | nil => simp [stripEnclosedGo]
  | cons c cs ih =>
      have hcc : ¬c = cl := fun h => hc (h ▸ List.mem_cons_self _ _)
      rw [List.cons_append]
      rw [show stripEnclosedGo op cl (.ins b) (c :: (cs ++ cl :: rest)) =
        stripEnclosedGo op cl (.ins (c :: b)) (cs ++ cl :: rest) from by
          simp [stripEnclosedGo, hcc]]
      exact ih (fun h => hc (List.mem_cons_of_mem _ h)) _

theorem enc_consume (op cl : Char) {content : List Char}
    (hc : cl ∉ content) (rest : List Char) :
    stripEnclosedGo op cl .out ((op :: content) ++ cl :: rest) =
      ' ' :: stripEnclosedGo op cl .out rest := by
  rw [List.cons_append]
  rw [show stripEnclosedGo op cl .out (op :: (content ++ cl :: rest)) =
    stripEnclosedGo op cl (.ins []) (content ++ cl :: rest) from by
      simp [stripEnclosedGo]]
  exact enc_ins op cl hc [] rest

theorem fix2_no_brace {i : PgnItem} (h : itemOk i = true)
    (hcm : ∀ content, ¬i = .commentI content) {body : List Char}
    (hb : fix2 i = some body) : '{' ∉ body := by
  intro hx
  cases i with
  | tokI t =>
      rw [itemOk, Bool.and_eq_true] at h
      rw [show fix2 (.tokI t) = some t.data from rfl] at hb
      cases hb
      exact absurd (List.all_eq_true.1 h.2 '{' hx) (by decide)
  | castleI big zero d suf =>
      rw [itemOk, Bool.and_eq_true] at h
      rw [show fix2 (.castleI big zero d suf) =
        some (castleChars big zero '-' suf) from rfl] at hb
      cases hb
      have := castleChars_mem h.2 hx
      simp at this
  | numI ds ell =>
      rw [itemOk, Bool.and_eq_true] at h
      rw [show fix2 (.numI ds ell) =
        some (ds ++ (if ell then ['.', '.', '.'] else ['.'])) from rfl] at hb
      cases hb
      rcases List.mem_append.1 hx with hx | hx
      · exact absurd (List.all_eq_true.1 h.2 '{' hx) (by decide)
      · cases ell <;> simp at hx
  | headerI content => cases hb
  | commentI content => exact absurd rfl (hcm content)
  | varI content =>
      rw [itemOk] at h
      rw [show fix2 (.varI content) =
        some ('(' :: charFixL content ++ [')']) from rfl] at hb
      cases hb
      rcases List.mem_cons.1 hx with hx | hx
      · cases hx
      · rcases List.mem_append.1 hx with hx | hx
        · rcases charFixL_mem hx with hx | hx
          · have := List.all_eq_true.1 h '{' hx
            simp at this
          · simp at hx
        · simp at hx
  | nagI ds =>
      rw [itemOk, Bool.and_eq_true] at h
      rw [show fix2 (.nagI ds) = some ('$' :: ds) from rfl] at hb
      cases hb
      rcases List.mem_cons.1 hx with hx | hx
      · cases hx
      · exact absurd (List.all_eq_true.1 h.2 '{' hx) (by decide)
  | resI k d =>
      rw [show fix2 (.resI k d) = some (resChars k '-') from rfl] at hb
      cases hb
      have := resChars_mem hx
      simp at this

theorem stage3_braces (items : List (PgnItem × Char)) (h : itemsOk items = true) :
    stripEnclosedGo '{' '}' .out (joinItems fix2 items) = joinItems fix3 items := by
  induction items with
  | nil => rfl
  | cons p items ih =>
      rw [itemsOk, List.all_cons, Bool.and_eq_true, Bool.and_eq_true] at h
      obtain ⟨⟨hitem, hsep⟩, hrest⟩ := h
      by_cases hcm : ∃ content, p.1 = .commentI content
      · obtain ⟨content, hp⟩ := hcm
        have hnob : '}' ∉ charFixL content := by
          intro hm
          rcases charFixL_mem hm with hmem | hsp
          · rw [hp, itemOk] at hitem
            have := List.all_eq_true.1 hitem '}' hmem
            simp at this
          · simp at hsp
        have hjoin : joinItems fix2 (p :: items) =
            ('{' :: charFixL content) ++
              '}' :: sepFix p.2 :: joinItems fix2 items := by
          simp [joinItems, hp, fix2, fix1]
        rw [hjoin, enc_consume '{' '}' hnob]
        rw [show stripEnclosedGo '{' '}' .out (sepFix p.2 :: joinItems fix2 items) =
          sepFix p.2 :: stripEnclosedGo '{' '}' .out (joinItems fix2 items) from
            enc_out_cons '{' '}' (by
              rcases sepFix_cases hsep with hs | hs <;> rw [hs] <;> decide) _]
        rw [ih hrest]
        simp [joinItems, hp, fix3]
      · cases hfb : fix2 p.1 with
        | none =>
            have hp : ∃ content, p.1 = .headerI content := by
              cases hq : p.1 <;> rw [hq] at hfb <;>
                first
                | (exact ⟨_, rfl⟩)
                | (simp [fix2, fix1] at hfb)
            obtain ⟨content, hp⟩ := hp
            have hjoin : joinItems fix2 (p :: items) = joinItems fix2 items := by
              simp [joinItems, hp, fix2]
            have hjoin3 : joinItems fix3 (p :: items) = joinItems fix3 items := by
              simp [joinItems, hp, fix3, fix2]
            rw [hjoin, hjoin3, ih hrest]
        | some body =>
            have hnob : '{' ∉ body :=
              fix2_no_brace hitem (fun content hc => hcm ⟨content, hc⟩) hfb
            have hfix3 : fix3 p.1 = some body := by
              cases hq : p.1 with
              | commentI content => exact absurd ⟨content, hq⟩ hcm
              | tokI t => rw [hq] at hfb; exact hfb
              | castleI big zero d suf => rw [hq] at hfb; exact hfb
              | numI ds ell => rw [hq] at hfb; exact hfb
              | headerI content => rw [hq] at hfb; exact hfb
              | varI content => rw [hq] at hfb; exact hfb
              | nagI ds => rw [hq] at hfb; exact hfb
              | resI k d => rw [hq] at hfb; exact hfb
            have hjoin : joinItems fix2 (p :: items) =
                (body ++ [sepFix p.2]) ++ joinItems fix2 items := by
              simp [joinItems, hfb, List.append_assoc]
            rw [hjoin, enc_out_chunk '{' '}' ?hx, ih hrest]
            case hx =>
              intro hm
              rcases List.mem_append.1 hm with hm | hm
              · exact hnob hm
              · simp only [List.mem_singleton] at hm
                rcases sepFix_cases hsep with hs | hs <;> rw [hs] at hm <;> cases hm
            simp [joinItems, hfix3, List.append_assoc]

theorem fix3_no_paren {i : PgnItem} (h : itemOk i = true)
    (hv : ∀ content, ¬i = .varI content) {body : List Char}
    (hb : fix3 i = some body) : '(' ∉ body := by
  intro hx
  cases i with
  | tokI t =>
      rw [itemOk, Bool.and_eq_true] at h
      cases hb
      exact absurd (List.all_eq_true.1 h.2 '(' hx) (by decide)
  | castleI big zero d suf =>
      rw [itemOk, Bool.and_eq_true] at h
      cases hb
      have := castleChars_mem h.2 hx
      simp at this
  | numI ds ell =>
      rw [itemOk, Bool.and_eq_true] at h
      cases hb
      rcases List.mem_append.1 hx with hx | hx
      · exact absurd (List.all_eq_true.1 h.2 '(' hx) (by decide)
      · cases ell <;> simp at hx
  | headerI content => cases hb
  | commentI content =>
      cases hb
      simp at hx
  | varI content => exact absurd rfl (hv content)
  | nagI ds =>
      rw [itemOk, Bool.and_eq_true] at h
      cases hb
      rcases List.mem_cons.1 hx with hx | hx
      · cases hx
      · exact absurd (List.all_eq_true.1 h.2 '(' hx) (by decide)
  | resI k d =>
      cases hb
      have := resChars_mem hx
      simp at this

theorem stage4_parens (items : List (PgnItem × Char)) (h : itemsOk items = true) :
    stripEnclosedGo '(' ')' .out (joinItems fix3 items) = joinItems fix4 items := by
  induction items with
  | nil => rfl
  | cons p items ih =>
      rw [itemsOk, List.all_cons, Bool.and_eq_true, Bool.and_eq_true] at h
      obtain ⟨⟨hitem, hsep⟩, hrest⟩ := h
      by_cases hvr : ∃ content, p.1 = .varI content
      · obtain ⟨content, hp⟩ := hvr
        have hnob : ')' ∉ charFixL content := by
          intro hm
          rcases charFixL_mem hm with hmem | hsp
          · rw [hp, itemOk] at hitem
            have := List.all_eq_true.1 hitem ')' hmem
            simp at this
          · simp at hsp
        have hjoin : joinItems fix3 (p :: items) =
            ('(' :: charFixL content) ++
              ')' :: sepFix p.2 :: joinItems fix3 items := by
          simp [joinItems, hp, fix3, fix2, fix1]
        rw [hjoin, enc_consume '(' ')' hnob]
        rw [show stripEnclosedGo '(' ')' .out (sepFix p.2 :: joinItems fix3 items) =
          sepFix p.2 :: stripEnclosedGo '(' ')' .out (joinItems fix3 items) from
            enc_out_cons '(' ')' (by
              rcases sepFix_cases hsep with hs | hs <;> rw [hs] <;> decide) _]
        rw [ih hrest]
        simp [joinItems, hp, fix4]
      · cases hfb : fix3 p.1 with
        | none =>
            have hp : ∃ content, p.1 = .headerI content := by
              cases hq : p.1 <;> rw [hq] at hfb <;>
                first
                | (exact ⟨_, rfl⟩)
                | (simp [fix3, fix2, fix1] at hfb)
            obtain ⟨content, hp⟩ := hp
            have hjoin : joinItems fix3 (p :: items) = joinItems fix3 items := by
              simp [joinItems, hp, fix3, fix2]
            have hjoin4 : joinItems fix4 (p :: items) = joinItems fix4 items := by
              simp [joinItems, hp, fix4, fix3, fix2]
            rw [hjoin, hjoin4, ih hrest]
        | some body =>
            have hnob : '(' ∉ body :=
              fix3_no_paren hitem (fun content hc => hvr ⟨content, hc⟩) hfb
            have hfix4 : fix4 p.1 = some body := by
              cases hq : p.1 with
              | varI content => exact absurd ⟨content, hq⟩ hvr
              | tokI t => rw [hq] at hfb; exact hfb
              | castleI big zero d suf => rw [hq] at hfb; exact hfb
              | numI ds ell => rw [hq] at hfb; exact hfb
              | headerI content => rw [hq] at hfb; exact hfb
              | commentI content => rw [hq] at hfb; exact hfb
              | nagI ds => rw [hq] at hfb; exact hfb
              | resI k d => rw [hq] at hfb; exact hfb
            have hjoin : joinItems fix3 (p :: items) =
                (body ++ [sepFix p.2]) ++ joinItems fix3 items := by
              simp [joinItems, hfb, List.append_assoc]
            rw [hjoin, enc_out_chunk '(' ')' ?hx, ih hrest]
            case hx =>
              intro hm
              rcases List.mem_append.1 hm with hm | hm
              · exact hnob hm
              · simp only [List.mem_singleton] at hm
                rcases sepFix_cases hsep with hs | hs <;> rw [hs] at hm <;> cases hm
            simp [joinItems, hfix4, List.append_assoc]

/-! ### Stage 5: NAG stripping -/

theorem nags_out_cons {c : Char} (hc : ¬c = '$') (l : List Char) :
    stripNagsGo false (c :: l) = c :: stripNagsGo false l := by
  cases l with
  | nil => simp [stripNagsGo, hc]
  | cons c2 cs => simp [stripNagsGo, hc]

theorem nags_out_chunk {xs : List Char} (hx : '$' ∉ xs) (l : List Char) :
    stripNagsGo false (xs ++ l) = xs ++ stripNagsGo false l := by
  induction xs with
  | nil => rfl
  | cons c cs ih =>
      have hc : ¬c = '$' := fun h => hx (h ▸ List.mem_cons_self _ _)
      rw [List.cons_append, nags_out_cons hc,
        ih fun h => hx (List.mem_cons_of_mem _ h)]
      rfl

theorem nags_eat_digits {ds : List Char} (hd : ∀ c ∈ ds, c.isDigit = true)
    (l : List Char) : stripNagsGo true (ds ++ l) = stripNagsGo true l := by
  induction ds with
  | nil => rfl
  | cons c cs ih =>
      have hdig : c.isDigit = true := hd c (List.mem_cons_self _ _)
      have hc : ¬c = '$' := fun h => by subst h; exact absurd hdig (by decide)
      rw [List.cons_append]
      rw [show stripNagsGo true (c :: (cs ++ l)) = stripNagsGo true (cs ++ l) from by
        cases hcs : cs ++ l with
        | nil => simp [stripNagsGo, hc, hdig]
        | cons c2 cs2 => simp [stripNagsGo, hc, hdig]]
      exact ih fun x hx => hd x (List.mem_cons_of_mem _ hx)

theorem nags_eat_exit (l : List Char)
    (hl : l = [] ∨ ∃ c cs, l = c :: cs ∧ c.isDigit = false ∧ ¬c = '$') :
    stripNagsGo true l = stripNagsGo false l := by
  rcases hl with rfl | ⟨c, cs, rfl, hdig, hds⟩
  · rfl
  · cases cs with
    | nil => simp [stripNagsGo, hds, hdig]
    | cons c2 cs2 => simp [stripNagsGo, hds, hdig]

theorem nags_consume {ds : List Char} (hne : ds ≠ [])
    (hd : ∀ c ∈ ds, c.isDigit = true) (l : List Char)
    (hl : l = [] ∨ ∃ c cs, l = c :: cs ∧ c.isDigit = false ∧ ¬c = '$') :
    stripNagsGo false (('$' :: ds) ++ l) = ' ' :: stripNagsGo false l := by
  cases ds with
  | nil => exact absurd rfl hne
  | cons d ds' =>
      have hdig : d.isDigit = true := hd d (List.mem_cons_self _ _)
      rw [show ('$' :: d :: ds') ++ l = '$' :: d :: (ds' ++ l) from rfl]
      rw [show stripNagsGo false ('$' :: d :: (ds' ++ l)) =
        ' ' :: stripNagsGo true (ds' ++ l) from by simp [stripNagsGo, hdig]]
      rw [nags_eat_digits (fun c hc => hd c (List.mem_cons_of_mem _ hc)),
        nags_eat_exit l hl]

theorem fix4_no_dollar {i : PgnItem} (h : itemOk i = true)
    (hn : ∀ ds, ¬i = .nagI ds) {body : List Char}
    (hb : fix4 i = some body) : '$' ∉ body := by
  intro hx
  cases i with
  | tokI t =>
      rw [itemOk, Bool.and_eq_true] at h
      cases hb
      exact absurd (List.all_eq_true.1 h.2 '$' hx) (by decide)
  | castleI big zero d suf =>
      rw [itemOk, Bool.and_eq_true] at h
      cases hb
      have := castleChars_mem h.2 hx
      simp at this
  | numI ds ell =>
      rw [itemOk, Bool.and_eq_true] at h
      cases hb
      rcases List.mem_append.1 hx with hx | hx
      · exact absurd (List.all_eq_true.1 h.2 '$' hx) (by decide)
      · cases ell <;> simp at hx
  | headerI content => cases hb
  | commentI content =>
      cases hb
      simp at hx
  | varI content =>
      cases hb
      simp at hx
  | nagI ds => exact absurd rfl (hn ds)
  | resI k d =>
      cases hb
      have := resChars_mem hx
      simp at this

theorem stage5_nags (items : List (PgnItem × Char)) (h : itemsOk items = true) :
    stripNagsGo false (joinItems fix4 items) = joinItems fix5 items := by
  induction items with
  | nil => rfl
  | cons p items ih =>
      rw [itemsOk, List.all_cons, Bool.and_eq_true, Bool.and_eq_true] at h
      obtain ⟨⟨hitem, hsep⟩, hrest⟩ := h
      by_cases hng : ∃ ds, p.1 = .nagI ds
      · obtain ⟨ds, hp⟩ := hng
        rw [hp, itemOk, Bool.and_eq_true] at hitem
        have hjoin : joinItems fix4 (p :: items) =
            ('$' :: ds) ++ sepFix p.2 :: joinItems fix4 items := by
          simp [joinItems, hp, fix4, fix3, fix2, fix1]
        have hsd : ¬sepFix p.2 = '$' := by
          rcases sepFix_cases hsep with hs | hs <;> rw [hs] <;> decide
        rw [hjoin, nags_consume (by simpa using hitem.1)
          (List.all_eq_true.1 hitem.2) _ ?hsh,
          nags_out_cons hsd, ih hrest]
        case hsh =>
          right
          refine ⟨sepFix p.2, joinItems fix4 items, rfl, ?_, hsd⟩
          rcases sepFix_cases hsep with hs | hs <;> rw [hs] <;> decide
        simp [joinItems, hp, fix5]
      · cases hfb : fix4 p.1 with
        | none =>
            have hp : ∃ content, p.1 = .headerI content := by
              cases hq : p.1 <;> rw [hq] at hfb <;>
                first
                | (exact ⟨_, rfl⟩)
                | (simp [fix4, fix3, fix2, fix1] at hfb)
            obtain ⟨content, hp⟩ := hp
            have hjoin : joinItems fix4 (p :: items) = joinItems fix4 items := by
              simp [joinItems, hp, fix4, fix3, fix2]
            have hjoin5 : joinItems fix5 (p :: items) = joinItems fix5 items := by
              simp [joinItems, hp, fix5, fix4, fix3, fix2]
            rw [hjoin, hjoin5, ih hrest]
        | some body =>
            have hnob : '$' ∉ body :=
              fix4_no_dollar hitem (fun ds hc => hng ⟨ds, hc⟩) hfb
            have hfix5 : fix5 p.1 = some body := by
              cases hq : p.1 with
              | nagI ds => exact absurd ⟨ds, hq⟩ hng
              | tokI t => rw [hq] at hfb; exact hfb
              | castleI big zero d suf => rw [hq] at hfb; exact hfb
              | numI ds ell => rw [hq] at hfb; exact hfb
              | headerI content => rw [hq] at hfb; exact hfb
              | commentI content => rw [hq] at hfb; exact hfb
              | varI content => rw [hq] at hfb; exact hfb
              | resI k d => rw [hq] at hfb; exact hfb
            have hjoin : joinItems fix4 (p :: items) =
                (body ++ [sepFix p.2]) ++ joinItems fix4 items := by
              simp [joinItems, hfb, List.append_assoc]
            rw [hjoin, nags_out_chunk ?hx, ih hrest]
            case hx =>
              intro hm
              rcases List.mem_append.1 hm with hm | hm
              · exact hnob hm
              · simp only [List.mem_singleton] at hm
                rcases sepFix_cases hsep with hs | hs <;> rw [hs] at hm <;> cases hm
            simp [joinItems, hfix5, List.append_assoc]

/-! ### Stage 6: `0-0-0` normalization -/

theorem sanChar_ne_dash {c : Char} (h : sanChar c = true) : ¬c = '-' := by
  intro hc; subst hc; exact absurd h (by decide)

theorem sufOk_cases {suf : Option Char} (h : sufOk suf = true) :
    suf = none ∨ suf = some '+' ∨ suf = some '#' := by
  cases suf with
  | none => exact Or.inl rfl
  | some c =>
      simp only [sufOk, decide_eq_true_eq] at h
      rcases h with h | h <;> subst h
      · exact Or.inr (Or.inl rfl)
      · exact Or.inr (Or.inr rfl)

theorem c3_default {prev : Option Char} {c : Char} {rest : List Char}
    (h : ∀ r, ¬c :: rest = '0' :: '-' :: '0' :: '-' :: '0' :: r) :
    castle3Go prev (c :: rest) = c :: castle3Go (some c) rest := by
  rw [castle3Go.eq_def]
  split
  · rename_i r heq
    exact absurd heq (h r)
  · rename_i c2 rest2 heq
    cases heq
    rfl
  · rename_i heq
    exact absurd heq (List.cons_ne_nil _ _)

theorem c3_match {prev : Option Char} (hprev : isWordOpt prev = false)
    {l : List Char} (hl : isWordOpt l.head? = false) :
    castle3Go prev ('0' :: '-' :: '0' :: '-' :: '0' :: l) =
      'O' :: '-' :: 'O' :: '-' :: 'O' :: castle3Go (some '0') l := by
  simp [castle3Go, hprev, hl]

theorem c3_chunk_noZero {xs : List Char} (hx : '0' ∉ xs) {e : Char}
    (he : ¬e = '0') (prev : Option Char) (l : List Char) :
    castle3Go prev (xs ++ e :: l) = xs ++ e :: castle3Go (some e) l := by
  induction xs generalizing prev with
  | nil =>
      exact c3_default fun r hc => he (List.cons_eq_cons.1 hc).1
  | cons c cs ih =>
      rw [List.cons_append, c3_default fun r hc =>
        hx ((List.cons_eq_cons.1 hc).1 ▸ List.mem_cons_self _ _),
        ih fun hm => hx (List.mem_cons_of_mem _ hm)]
      rfl

theorem c3_chunk_noDash {xs : List Char} (hx : '-' ∉ xs) {e : Char}
    (he : ¬e = '-') (he0 : ¬e = '0') (prev : Option Char) (l : List Char) :
    castle3Go prev (xs ++ e :: l) = xs ++ e :: castle3Go (some e) l := by
  induction xs generalizing prev with
  | nil =>
      exact c3_default fun r hc => he0 (List.cons_eq_cons.1 hc).1
  | cons c cs ih =>
      rw [List.cons_append, c3_default ?hd,
        ih fun hm => hx (List.mem_cons_of_mem _ hm)]
      · rfl
      case hd =>
        intro r hc
        obtain ⟨-, hc2⟩ := List.cons_eq_cons.1 hc
        cases cs with
        | nil =>
            exact he (List.cons_eq_cons.1 hc2).1
        | cons d cs2 =>
            obtain rfl : d = '-' := (List.cons_eq_cons.1 hc2).1
            exact hx (List.mem_cons_of_mem _ (List.mem_cons_self _ _))

theorem c3_small_zero (prev : Option Char) {e : Char} (he : ¬e = '-')
    (he0 : ¬e = '0') (l : List Char) :
    castle3Go prev ('0' :: '-' :: '0' :: e :: l) =
      '0' :: '-' :: '0' :: e :: castle3Go (some e) l := by
  rw [c3_default fun r hc => by
      simp only [List.cons_eq_cons] at hc; exact he hc.2.2.2.1,
    c3_default fun r hc => by
      simp only [List.cons_eq_cons] at hc; exact absurd hc.1 (by decide),
    c3_default fun r hc => by
      simp only [List.cons_eq_cons] at hc; exact he hc.2.1,
    c3_default fun r hc => he0 (List.cons_eq_cons.1 hc).1]

theorem c3_res1 (prev : Option Char) {e : Char} (he : ¬e = '-')
    (he0 : ¬e = '0') (l : List Char) :
    castle3Go prev ('1' :: '-' :: '0' :: e :: l) =
      '1' :: '-' :: '0' :: e :: castle3Go (some e) l := by
  rw [c3_default fun r hc => by
      simp only [List.cons_eq_cons] at hc; exact absurd hc.1 (by decide),
    c3_default fun r hc => by
      simp only [List.cons_eq_cons] at hc; exact absurd hc.1 (by decide),
    c3_default fun r hc => by
      simp only [List.cons_eq_cons] at hc; exact he hc.2.1,
    c3_default fun r hc => he0 (List.cons_eq_cons.1 hc).1]

theorem c3_res2 (prev : Option Char) {e : Char} (he0 : ¬e = '0')
    (l : List Char) :
    castle3Go prev ('0' :: '-' :: '1' :: e :: l) =
      '0' :: '-' :: '1' :: e :: castle3Go (some e) l := by
  rw [c3_default fun r hc => by
      simp only [List.cons_eq_cons] at hc; exact absurd hc.2.2.1 (by decide),
    c3_default fun r hc => by
      simp only [List.cons_eq_cons] at hc; exact absurd hc.1 (by decide),
    c3_default fun r hc => by
      simp only [List.cons_eq_cons] at hc; exact absurd hc.1 (by decide),
    c3_default fun r hc => he0 (List.cons_eq_cons.1 hc).1]

theorem stage6_castle (items : List (PgnItem × Char)) (h : itemsOk items = true) :
    ∀ prev, isWordOpt prev = false →
      castle3Go prev (joinItems fix5 items) = joinItems fix6 items := by
  induction items with
  | nil => intro prev _; rfl
  | cons p items ih =>
      rw [itemsOk, List.all_cons, Bool.and_eq_true, Bool.and_eq_true] at h
      obtain ⟨⟨hitem, hsep⟩, hrest⟩ := h
      intro prev hprev
      have hsw : isWordOpt (some (sepFix p.2)) = false := by
        rcases sepFix_cases hsep with hs | hs <;> rw [hs] <;> decide
      have hs0 : ¬sepFix p.2 = '0' := by
        rcases sepFix_cases hsep with hs | hs <;> rw [hs] <;> decide
      have hsd : ¬sepFix p.2 = '-' := by
        rcases sepFix_cases hsep with hs | hs <;> rw [hs] <;> decide
      obtain ⟨i, sc⟩ := p
      simp only at hitem hsep hsw hs0 hsd
      cases i with
      | tokI t =>
          rw [itemOk, Bool.and_eq_true] at hitem
          have hjoin : joinItems fix5 ((PgnItem.tokI t, sc) :: items) =
              t.data ++ sepFix sc :: joinItems fix5 items := by
            simp [joinItems, fix5, fix4, fix3, fix2, fix1]
          rw [hjoin, c3_chunk_noDash
            (fun hm => sanChar_ne_dash (List.all_eq_true.1 hitem.2 _ hm) rfl)
            hsd hs0 prev _, ih hrest _ hsw]
          simp [joinItems, fix6, fix5, fix4, fix3, fix2, fix1]
      | castleI big zero d suf =>
          rw [itemOk, Bool.and_eq_true] at hitem
          cases big with
          | true =>
              cases zero with
              | true =>
                  rcases sufOk_cases hitem.2 with hsf | hsf | hsf <;> subst hsf
                  · have hjoin : joinItems fix5
                        ((PgnItem.castleI true true d none, sc) :: items) =
                        '0' :: '-' :: '0' :: '-' :: '0' ::
                          (sepFix sc :: joinItems fix5 items) := by
                      simp [joinItems, fix5, fix4, fix3, fix2, fix1, castleChars]
                    rw [hjoin, c3_match hprev (by simpa using hsw),
                      c3_default fun r hc => hs0 (List.cons_eq_cons.1 hc).1,
                      ih hrest _ hsw]
                    simp [joinItems, fix6, castleChars]
                  · have hjoin : joinItems fix5
                        ((PgnItem.castleI true true d (some '+'), sc) :: items) =
                        '0' :: '-' :: '0' :: '-' :: '0' ::
                          ('+' :: sepFix sc :: joinItems fix5 items) := by
                      simp [joinItems, fix5, fix4, fix3, fix2, fix1, castleChars]
                    rw [hjoin, c3_match hprev (by rfl),
                      c3_default fun r hc =>
                        absurd (List.cons_eq_cons.1 hc).1 (by decide),
                      c3_default fun r hc => hs0 (List.cons_eq_cons.1 hc).1,
                      ih hrest _ hsw]
                    simp [joinItems, fix6, castleChars]
                  · have hjoin : joinItems fix5
                        ((PgnItem.castleI true true d (some '#'), sc) :: items) =
                        '0' :: '-' :: '0' :: '-' :: '0' ::
                          ('#' :: sepFix sc :: joinItems fix5 items) := by
                      simp [joinItems, fix5, fix4, fix3, fix2, fix1, castleChars]
                    rw [hjoin, c3_match hprev (by rfl),
                      c3_default fun r hc =>
                        absurd (List.cons_eq_cons.1 hc).1 (by decide),
                      c3_default fun r hc => hs0 (List.cons_eq_cons.1 hc).1,
                      ih hrest _ hsw]
                    simp [joinItems, fix6, castleChars]
              | false =>
                  have hjoin : joinItems fix5
                      ((PgnItem.castleI true false d suf, sc) :: items) =
                      castleChars true false '-' suf ++
                        sepFix sc :: joinItems fix5 items := by
                    simp [joinItems, fix5, fix4, fix3, fix2, fix1]
                  have hx : '0' ∉ castleChars true false '-' suf := by
                    rcases sufOk_cases hitem.2 with hsf | hsf | hsf <;>
                      subst hsf <;> decide
                  rw [hjoin, c3_chunk_noZero hx hs0 prev _, ih hrest _ hsw]
                  simp [joinItems, fix6]
          | false =>
              cases zero with
              | true =>
                  rcases sufOk_cases hitem.2 with hsf | hsf | hsf <;> subst hsf
                  · have hjoin : joinItems fix5
                        ((PgnItem.castleI false true d none, sc) :: items) =
                        '0' :: '-' :: '0' ::
                          (sepFix sc :: joinItems fix5 items) := by
                      simp [joinItems, fix5, fix4, fix3, fix2, fix1, castleChars]
                    rw [hjoin, c3_small_zero prev hsd hs0 _, ih hrest _ hsw]
                    simp [joinItems, fix6, fix5, fix4, fix3, fix2, fix1,
                      castleChars]
                  · have hjoin : joinItems fix5
                        ((PgnItem.castleI false true d (some '+'), sc) :: items) =
                        '0' :: '-' :: '0' ::
                          ('+' :: sepFix sc :: joinItems fix5 items) := by
                      simp [joinItems, fix5, fix4, fix3, fix2, fix1, castleChars]
                    rw [hjoin, c3_small_zero prev (by decide) (by decide) _,
                      c3_default fun r hc => hs0 (List.cons_eq_cons.1 hc).1,
                      ih hrest _ hsw]
                    simp [joinItems, fix6, fix5, fix4, fix3, fix2, fix1,
                      castleChars]
                  · have hjoin : joinItems fix5
                        ((PgnItem.castleI false true d (some '#'), sc) :: items) =
                        '0' :: '-' :: '0' ::
                          ('#' :: sepFix sc :: joinItems fix5 items) := by
                      simp [joinItems, fix5, fix4, fix3, fix2, fix1, castleChars]
                    rw [hjoin, c3_small_zero prev (by decide) (by decide) _,
                      c3_default fun r hc => hs0 (List.cons_eq_cons.1 hc).1,
                      ih hrest _ hsw]
                    simp [joinItems, fix6, fix5, fix4, fix3, fix2, fix1,
                      castleChars]
              | false =>
                  have hjoin : joinItems fix5
                      ((PgnItem.castleI false false d suf, sc) :: items) =
                      castleChars false false '-' suf ++
                        sepFix sc :: joinItems fix5 items := by
                    simp [joinItems, fix5, fix4, fix3, fix2, fix1]
                  have hx : '0' ∉ castleChars false false '-' suf := by
                    rcases sufOk_cases hitem.2 with hsf | hsf | hsf <;>
                      subst hsf <;> decide
                  rw [hjoin, c3_chunk_noZero hx hs0 prev _, ih hrest _ hsw]
                  simp [joinItems, fix6, fix5, fix4, fix3, fix2, fix1]
      | numI ds ell =>
          rw [itemOk, Bool.and_eq_true] at hitem
          have hnd : '-' ∉ ds ++ (if ell then ['.', '.', '.'] else ['.']) := by
            intro hm
            rcases List.mem_append.1 hm with hm | hm
            · exact absurd (List.all_eq_true.1 hitem.2 _ hm) (by decide)
            · cases ell <;> simp at hm
          have hjoin : joinItems fix5 ((PgnItem.numI ds ell, sc) :: items) =
              (ds ++ (if ell then ['.', '.', '.'] else ['.'])) ++
                sepFix sc :: joinItems fix5 items := by
            simp [joinItems, fix5, fix4, fix3, fix2, fix1]
          rw [hjoin, c3_chunk_noDash hnd hsd hs0 prev _, ih hrest _ hsw]
          simp [joinItems, fix6, fix5, fix4, fix3, fix2, fix1]
      | headerI content =>
          have hjoin : joinItems fix5 ((PgnItem.headerI content, sc) :: items) =
              joinItems fix5 items := by
            simp [joinItems, fix5, fix4, fix3, fix2]
          rw [hjoin, ih hrest prev hprev]
          simp [joinItems, fix6, fix5, fix4, fix3, fix2]
      | commentI content =>
          have hjoin : joinItems fix5 ((PgnItem.commentI content, sc) :: items) =
              [' '] ++ sepFix sc :: joinItems fix5 items := by
            simp [joinItems, fix5, fix4, fix3]
          rw [hjoin, c3_chunk_noZero (by decide) hs0 prev _, ih hrest _ hsw]
          simp [joinItems, fix6, fix5, fix4, fix3]
      | varI content =>
          have hjoin : joinItems fix5 ((PgnItem.varI content, sc) :: items) =
              [' '] ++ sepFix sc :: joinItems fix5 items := by
            simp [joinItems, fix5, fix4]
          rw [hjoin, c3_chunk_noZero (by decide) hs0 prev _, ih hrest _ hsw]
          simp [joinItems, fix6, fix5, fix4]
      | nagI ds =>
          have hjoin : joinItems fix5 ((PgnItem.nagI ds, sc) :: items) =
              [' '] ++ sepFix sc :: joinItems fix5 items := by
            simp [joinItems, fix5]
          rw [hjoin, c3_chunk_noZero (by decide) hs0 prev _, ih hrest _ hsw]
          simp [joinItems, fix6, fix5]
      | resI k d =>
          by_cases hk0 : k = 0
          · have hjoin : joinItems fix5 ((PgnItem.resI k d, sc) :: items) =
                '1' :: '-' :: '0' :: (sepFix sc :: joinItems fix5 items) := by
              simp [joinItems, fix5, fix4, fix3, fix2, fix1, resChars, hk0]
            rw [hjoin, c3_res1 prev hsd hs0 _, ih hrest _ hsw]
            simp [joinItems, fix6, fix5, fix4, fix3, fix2, fix1, resChars, hk0]
          · by_cases hk1 : k = 1
            · have hjoin : joinItems fix5 ((PgnItem.resI k d, sc) :: items) =
                  '0' :: '-' :: '1' :: (sepFix sc :: joinItems fix5 items) := by
                simp [joinItems, fix5, fix4, fix3, fix2, fix1, resChars,
                  hk0, hk1]
              rw [hjoin, c3_res2 prev hs0 _, ih hrest _ hsw]
              simp [joinItems, fix6, fix5, fix4, fix3, fix2, fix1, resChars,
                hk0, hk1]
            · have hjoin : joinItems fix5 ((PgnItem.resI k d, sc) :: items) =
                  ['1', '/', '2', '-', '1', '/', '2'] ++
                    sepFix sc :: joinItems fix5 items := by
                simp [joinItems, fix5, fix4, fix3, fix2, fix1, resChars,
                  hk0, hk1]
              rw [hjoin, c3_chunk_noZero (by decide) hs0 prev _, ih hrest _ hsw]
              simp [joinItems, fix6, fix5, fix4, fix3, fix2, fix1, resChars,
                hk0, hk1]

/-! ### Stage 7: `0-0` normalization -/

theorem c2_default {prev : Option Char} {c : Char} {rest : List Char}
    (h : ∀ r, ¬c :: rest = '0' :: '-' :: '0' :: r) :
    castle2Go prev (c :: rest) = c :: castle2Go (some c) rest := by
  rw [castle2Go.eq_def]
  split
  · rename_i r heq
    exact absurd heq (h r)
  · rename_i c2 rest2 heq
    cases heq
    rfl
  · rename_i heq
    exact absurd heq (List.cons_ne_nil _ _)

theorem c2_match {prev : Option Char} (hprev : isWordOpt prev = false)
    {l : List Char} (hl : isWordOpt l.head? = false) :
    castle2Go prev ('0' :: '-' :: '0' :: l) =
      'O' :: '-' :: 'O' :: castle2Go (some '0') l := by
  simp [castle2Go, hprev, hl]

theorem c2_chunk_noZero {xs : List Char} (hx : '0' ∉ xs) {e : Char}
    (he : ¬e = '0') (prev : Option Char) (l : List Char) :
    castle2Go prev (xs ++ e :: l) = xs ++ e :: castle2Go (some e) l := by
  induction xs generalizing prev with
  | nil =>
      exact c2_default fun r hc => he (List.cons_eq_cons.1 hc).1
  | cons c cs ih =>
      rw [List.cons_append, c2_default fun r hc =>
        hx ((List.cons_eq_cons.1 hc).1 ▸ List.mem_cons_self _ _),
        ih fun hm => hx (List.mem_cons_of_mem _ hm)]
      rfl

theorem c2_chunk_noDash {xs : List Char} (hx : '-' ∉ xs) {e : Char}
    (he : ¬e = '-') (he0 : ¬e = '0') (prev : Option Char) (l : List Char) :
    castle2Go prev (xs ++ e :: l) = xs ++ e :: castle2Go (some e) l := by
  induction xs generalizing prev with
  | nil =>
      exact c2_default fun r hc => he0 (List.cons_eq_cons.1 hc).1
  | cons c cs ih =>
      rw [List.cons_append, c2_default ?hd,
        ih fun hm => hx (List.mem_cons_of_mem _ hm)]
      · rfl
      case hd =>
        intro r hc
        obtain ⟨-, hc2⟩ := List.cons_eq_cons.1 hc
        cases cs with
        | nil =>
            exact he (List.cons_eq_cons.1 hc2).1
        | cons d cs2 =>
            obtain rfl : d = '-' := (List.cons_eq_cons.1 hc2).1
            exact hx (List.mem_cons_of_mem _ (List.mem_cons_self _ _))

theorem c2_res1 (prev : Option Char) {e : Char} (he : ¬e = '-')
    (he0 : ¬e = '0') (l : List Char) :
    castle2Go prev ('1' :: '-' :: '0' :: e :: l) =
      '1' :: '-' :: '0' :: e :: castle2Go (some e) l := by
  rw [c2_default fun r hc => by
      simp only [List.cons_eq_cons] at hc; exact absurd hc.1 (by decide),
    c2_default fun r hc => by
      simp only [List.cons_eq_cons] at hc; exact absurd hc.1 (by decide),
    c2_default fun r hc => by
      simp only [List.cons_eq_cons] at hc; exact he hc.2.1,
    c2_default fun r hc => he0 (List.cons_eq_cons.1 hc).1]

theorem c2_res2 (prev : Option Char) {e : Char} (he0 : ¬e = '0')
    (l : List Char) :
    castle2Go prev ('0' :: '-' :: '1' :: e :: l) =
      '0' :: '-' :: '1' :: e :: castle2Go (some e) l := by
  rw [c2_default fun r hc => by
      simp only [List.cons_eq_cons] at hc; exact absurd hc.2.2.1 (by decide),
    c2_default fun r hc => by
      simp only [List.cons_eq_cons] at hc; exact absurd hc.1 (by decide),
    c2_default fun r hc => by
      simp only [List.cons_eq_cons] at hc; exact absurd hc.1 (by decide),
    c2_default fun r hc => he0 (List.cons_eq_cons.1 hc).1]

theorem stage7_castle (items : List (PgnItem × Char)) (h : itemsOk items = true) :
    ∀ prev, isWordOpt prev = false →
      castle2Go prev (joinItems fix6 items) = joinItems fix7 items := by
  induction items with
  | nil => intro prev _; rfl
  | cons p items ih =>
      rw [itemsOk, List.all_cons, Bool.and_eq_true, Bool.and_eq_true] at h
      obtain ⟨⟨hitem, hsep⟩, hrest⟩ := h
      intro prev hprev
      have hsw : isWordOpt (some (sepFix p.2)) = false := by
        rcases sepFix_cases hsep with hs | hs <;> rw [hs] <;> decide
      have hs0 : ¬sepFix p.2 = '0' := by
        rcases sepFix_cases hsep with hs | hs <;> rw [hs] <;> decide
      have hsd : ¬sepFix p.2 = '-' := by
        rcases sepFix_cases hsep with hs | hs <;> rw [hs] <;> decide
      obtain ⟨i, sc⟩ := p
      simp only at hitem hsep hsw hs0 hsd
      cases i with
      | tokI t =>
          rw [itemOk, Bool.and_eq_true] at hitem
          have hjoin : joinItems fix6 ((PgnItem.tokI t, sc) :: items) =
              t.data ++ sepFix sc :: joinItems fix6 items := by
            simp [joinItems, fix6, fix5, fix4, fix3, fix2, fix1]
          rw [hjoin, c2_chunk_noDash
            (fun hm => sanChar_ne_dash (List.all_eq_true.1 hitem.2 _ hm) rfl)
            hsd hs0 prev _, ih hrest _ hsw]
          simp [joinItems, fix7, fix6, fix5, fix4, fix3, fix2, fix1]
      | castleI big zero d suf =>
          rw [itemOk, Bool.and_eq_true] at hitem
          cases big with
          | true =>
              have hjoin : joinItems fix6
                  ((PgnItem.castleI true zero d suf, sc) :: items) =
                  castleChars true false '-' suf ++
                    sepFix sc :: joinItems fix6 items := by
                simp [joinItems, fix6]
              have hx : '0' ∉ castleChars true false '-' suf := by
                rcases sufOk_cases hitem.2 with hsf | hsf | hsf <;>
                  subst hsf <;> decide
              rw [hjoin, c2_chunk_noZero hx hs0 prev _, ih hrest _ hsw]
              simp [joinItems, fix7, fix6]
          | false =>
              cases zero with
              | true =>
                  rcases sufOk_cases hitem.2 with hsf | hsf | hsf <;> subst hsf
                  · have hjoin : joinItems fix6
                        ((PgnItem.castleI false true d none, sc) :: items) =
                        '0' :: '-' :: '0' ::
                          (sepFix sc :: joinItems fix6 items) := by
                      simp [joinItems, fix6, fix5, fix4, fix3, fix2, fix1,
                        castleChars]
                    rw [hjoin, c2_match hprev (by simpa using hsw),
                      c2_default fun r hc => hs0 (List.cons_eq_cons.1 hc).1,
                      ih hrest _ hsw]
                    simp [joinItems, fix7, castleChars]
                  · have hjoin : joinItems fix6
                        ((PgnItem.castleI false true d (some '+'), sc) :: items) =
                        '0' :: '-' :: '0' ::
                          ('+' :: sepFix sc :: joinItems fix6 items) := by
                      simp [joinItems, fix6, fix5, fix4, fix3, fix2, fix1,
                        castleChars]
                    rw [hjoin, c2_match hprev (by rfl),
                      c2_default fun r hc =>
                        absurd (List.cons_eq_cons.1 hc).1 (by decide),
                      c2_default fun r hc => hs0 (List.cons_eq_cons.1 hc).1,
                      ih hrest _ hsw]
                    simp [joinItems, fix7, castleChars]
                  · have hjoin : joinItems fix6
                        ((PgnItem.castleI false true d (some '#'), sc) :: items) =
                        '0' :: '-' :: '0' ::
                          ('#' :: sepFix sc :: joinItems fix6 items) := by
                      simp [joinItems, fix6, fix5, fix4, fix3, fix2, fix1,
                        castleChars]
                    rw [hjoin, c2_match hprev (by rfl),
                      c2_default fun r hc =>
                        absurd (List.cons_eq_cons.1 hc).1 (by decide),
                      c2_default fun r hc => hs0 (List.cons_eq_cons.1 hc).1,
                      ih hrest _ hsw]
                    simp [joinItems, fix7, castleChars]
              | false =>
                  have hjoin : joinItems fix6
                      ((PgnItem.castleI false false d suf, sc) :: items) =
                      castleChars false false '-' suf ++
                        sepFix sc :: joinItems fix6 items := by
                    simp [joinItems, fix6, fix5, fix4, fix3, fix2, fix1]
                  have hx : '0' ∉ castleChars false false '-' suf := by
                    rcases sufOk_cases hitem.2 with hsf | hsf | hsf <;>
                      subst hsf <;> decide
                  rw [hjoin, c2_chunk_noZero hx hs0 prev _, ih hrest _ hsw]
                  simp [joinItems, fix7, fix6, fix5, fix4, fix3, fix2, fix1]
      | numI ds ell =>
          rw [itemOk, Bool.and_eq_true] at hitem
          have hnd : '-' ∉ ds ++ (if ell then ['.', '.', '.'] else ['.']) := by
            intro hm
            rcases List.mem_append.1 hm with hm | hm
            · exact absurd (List.all_eq_true.1 hitem.2 _ hm) (by decide)
            · cases ell <;> simp at hm
          have hjoin : joinItems fix6 ((PgnItem.numI ds ell, sc) :: items) =
              (ds ++ (if ell then ['.', '.', '.'] else ['.'])) ++
                sepFix sc :: joinItems fix6 items := by
            simp [joinItems, fix6, fix5, fix4, fix3, fix2, fix1]
          rw [hjoin, c2_chunk_noDash hnd hsd hs0 prev _, ih hrest _ hsw]
          simp [joinItems, fix7, fix6, fix5, fix4, fix3, fix2, fix1]
      | headerI content =>
          have hjoin : joinItems fix6 ((PgnItem.headerI content, sc) :: items) =
              joinItems fix6 items := by
            simp [joinItems, fix6, fix5, fix4, fix3, fix2]
          rw [hjoin, ih hrest prev hprev]
          simp [joinItems, fix7, fix6, fix5, fix4, fix3, fix2]
      | commentI content =>
          have hjoin : joinItems fix6 ((PgnItem.commentI content, sc) :: items) =
              [' '] ++ sepFix sc :: joinItems fix6 items := by
            simp [joinItems, fix6, fix5, fix4, fix3]
          rw [hjoin, c2_chunk_noZero (by decide) hs0 prev _, ih hrest _ hsw]
          simp [joinItems, fix7, fix6, fix5, fix4, fix3]
      | varI content =>
          have hjoin : joinItems fix6 ((PgnItem.varI content, sc) :: items) =
              [' '] ++ sepFix sc :: joinItems fix6 items := by
            simp [joinItems, fix6, fix5, fix4]
          rw [hjoin, c2_chunk_noZero (by decide) hs0 prev _, ih hrest _ hsw]
          simp [joinItems, fix7, fix6, fix5, fix4]
      | nagI ds =>
          have hjoin : joinItems fix6 ((PgnItem.nagI ds, sc) :: items) =
              [' '] ++ sepFix sc :: joinItems fix6 items := by
            simp [joinItems, fix6, fix5]
          rw [hjoin, c2_chunk_noZero (by decide) hs0 prev _, ih hrest _ hsw]
          simp [joinItems, fix7, fix6, fix5]
      | resI k d =>
          by_cases hk0 : k = 0
          · have hjoin : joinItems fix6 ((PgnItem.resI k d, sc) :: items) =
                '1' :: '-' :: '0' :: (sepFix sc :: joinItems fix6 items) := by
              simp [joinItems, fix6, fix5, fix4, fix3, fix2, fix1, resChars, hk0]
            rw [hjoin, c2_res1 prev hsd hs0 _, ih hrest _ hsw]
            simp [joinItems, fix7, fix6, fix5, fix4, fix3, fix2, fix1,
              resChars, hk0]
          · by_cases hk1 : k = 1
            · have hjoin : joinItems fix6 ((PgnItem.resI k d, sc) :: items) =
                  '0' :: '-' :: '1' :: (sepFix sc :: joinItems fix6 items) := by
                simp [joinItems, fix6, fix5, fix4, fix3, fix2, fix1, resChars,
                  hk0, hk1]
              rw [hjoin, c2_res2 prev hs0 _, ih hrest _ hsw]
              simp [joinItems, fix7, fix6, fix5, fix4, fix3, fix2, fix1,
                resChars, hk0, hk1]
            · have hjoin : joinItems fix6 ((PgnItem.resI k d, sc) :: items) =
                  ['1', '/', '2', '-', '1', '/', '2'] ++
                    sepFix sc :: joinItems fix6 items := by
                simp [joinItems, fix6, fix5, fix4, fix3, fix2, fix1, resChars,
                  hk0, hk1]
              rw [hjoin, c2_chunk_noZero (by decide) hs0 prev _, ih hrest _ hsw]
              simp [joinItems, fix7, fix6, fix5, fix4, fix3, fix2, fix1,
                resChars, hk0, hk1]

/-! ### Stage 8: result-token removal -/

theorem res_default {prev : Option Char} {c : Char} {rest : List Char}
    (h1 : ∀ r, ¬c :: rest = '1' :: '-' :: '0' :: r)
    (h2 : ∀ r, ¬c :: rest = '0' :: '-' :: '1' :: r)
    (h3 : ∀ r, ¬c :: rest = '1' :: '/' :: '2' :: '-' :: '1' :: '/' :: '2' :: r)
    (h4 : ¬c = '*') :
    resultsGo prev (c :: rest) = c :: resultsGo (some c) rest := by
  rw [resultsGo.eq_def]
  split
  · rename_i r heq
    exact absurd heq (h1 r)
  · rename_i r heq
    exact absurd heq (h2 r)
  · rename_i r heq
    exact absurd heq (h3 r)
  · rename_i r heq
    exact absurd (List.cons_eq_cons.1 heq).1 h4
  · rename_i c2 rest2 heq
    cases heq
    rfl
  · rename_i heq
    exact absurd heq (List.cons_ne_nil _ _)

theorem res_match1 {prev : Option Char} (hprev : isWordOpt prev = false)
    {l : List Char} (hl : isWordOpt l.head? = false) :
    resultsGo prev ('1' :: '-' :: '0' :: l) = ' ' :: resultsGo (some '0') l := by
  simp [resultsGo, hprev, hl]

theorem res_match2 {prev : Option Char} (hprev : isWordOpt prev = false)
    {l : List Char} (hl : isWordOpt l.head? = false) :
    resultsGo prev ('0' :: '-' :: '1' :: l) = ' ' :: resultsGo (some '1') l := by
  simp [resultsGo, hprev, hl]

theorem res_match3 {prev : Option Char} (hprev : isWordOpt prev = false)
    {l : List Char} (hl : isWordOpt l.head? = false) :
    resultsGo prev ('1' :: '/' :: '2' :: '-' :: '1' :: '/' :: '2' :: l) =
      ' ' :: resultsGo (some '2') l := by
  simp [resultsGo, hprev, hl]

theorem res_chunk_noStart {xs : List Char} (hx1 : '1' ∉ xs) (hx0 : '0' ∉ xs)
    (hxa : '*' ∉ xs) {e : Char} (he1 : ¬e = '1') (he0 : ¬e = '0')
    (hea : ¬e = '*') (prev : Option Char) (l : List Char) :
    resultsGo prev (xs ++ e :: l) = xs ++ e :: resultsGo (some e) l := by
  induction xs generalizing prev with
  | nil =>
      exact res_default (fun r hc => he1 (List.cons_eq_cons.1 hc).1)
        (fun r hc => he0 (List.cons_eq_cons.1 hc).1)
        (fun r hc => he1 (List.cons_eq_cons.1 hc).1) hea
  | cons c cs ih =>
      rw [List.cons_append, res_default
        (fun r hc => hx1 ((List.cons_eq_cons.1 hc).1 ▸ List.mem_cons_self _ _))
        (fun r hc => hx0 ((List.cons_eq_cons.1 hc).1 ▸ List.mem_cons_self _ _))
        (fun r hc => hx1 ((List.cons_eq_cons.1 hc).1 ▸ List.mem_cons_self _ _))
        (fun hc => hxa (hc ▸ List.mem_cons_self _ _)),
        ih (fun hm => hx1 (List.mem_cons_of_mem _ hm))
          (fun hm => hx0 (List.mem_cons_of_mem _ hm))
          (fun hm => hxa (List.mem_cons_of_mem _ hm))]
      rfl

theorem res_chunk_noDash {xs : List Char} (hxd : '-' ∉ xs) (hxl : '/' ∉ xs)
    (hxa : '*' ∉ xs) {e : Char} (hed : ¬e = '-') (hel : ¬e = '/')
    (he1 : ¬e = '1') (he0 : ¬e = '0') (hea : ¬e = '*')
    (prev : Option Char) (l : List Char) :
    resultsGo prev (xs ++ e :: l) = xs ++ e :: resultsGo (some e) l := by
  induction xs generalizing prev with
  | nil =>
      exact res_default (fun r hc => he1 (List.cons_eq_cons.1 hc).1)
        (fun r hc => he0 (List.cons_eq_cons.1 hc).1)
        (fun r hc => he1 (List.cons_eq_cons.1 hc).1) hea
  | cons c cs ih =>
      rw [List.cons_append, res_default ?hd1 ?hd2 ?hd3
        (fun hc => hxa (hc ▸ List.mem_cons_self _ _)),
        ih (fun hm => hxd (List.mem_cons_of_mem _ hm))
          (fun hm => hxl (List.mem_cons_of_mem _ hm))
          (fun hm => hxa (List.mem_cons_of_mem _ hm))]
      · rfl
      case hd1 =>
        intro r hc
        obtain ⟨-, hc2⟩ := List.cons_eq_cons.1 hc
        cases cs with
        | nil => exact hed (List.cons_eq_cons.1 hc2).1
        | cons d cs2 =>
            obtain rfl : d = '-' := (List.cons_eq_cons.1 hc2).1
            exact hxd (List.mem_cons_of_mem _ (List.mem_cons_self _ _))
      case hd2 =>
        intro r hc
        obtain ⟨-, hc2⟩ := List.cons_eq_cons.1 hc
        cases cs with
        | nil => exact hed (List.cons_eq_cons.1 hc2).1
        | cons d cs2 =>
            obtain rfl : d = '-' := (List.cons_eq_cons.1 hc2).1
            exact hxd (List.mem_cons_of_mem _ (List.mem_cons_self _ _))
      case hd3 =>
        intro r hc
        obtain ⟨-, hc2⟩ := List.cons_eq_cons.1 hc
        cases cs with
        | nil => exact hel (List.cons_eq_cons.1 hc2).1
        | cons d cs2 =>
            obtain rfl : d = '/' := (List.cons_eq_cons.1 hc2).1
            exact hxl (List.mem_cons_of_mem _ (List.mem_cons_self _ _))

theorem sanChar_ne_slash {c : Char} (h : sanChar c = true) : ¬c = '/' := by
  intro hc; subst hc; exact absurd h (by decide)

theorem sanChar_ne_star {c : Char} (h : sanChar c = true) : ¬c = '*' := by
  intro hc; subst hc; exact absurd h (by decide)

theorem stage8_results (items : List (PgnItem × Char)) (h : itemsOk items = true) :
    ∀ prev, isWordOpt prev = false →
      resultsGo prev (joinItems fix7 items) = joinItems fix8 items := by
  induction items with
  | nil => intro prev _; rfl
  | cons p items ih =>
      rw [itemsOk, List.all_cons, Bool.and_eq_true, Bool.and_eq_true] at h
      obtain ⟨⟨hitem, hsep⟩, hrest⟩ := h
      intro prev hprev
      have hsw : isWordOpt (some (sepFix p.2)) = false := by
        rcases sepFix_cases hsep with hs | hs <;> rw [hs] <;> decide
      have hs0 : ¬sepFix p.2 = '0' := by
        rcases sepFix_cases hsep with hs | hs <;> rw [hs] <;> decide
      have hs1 : ¬sepFix p.2 = '1' := by
        rcases sepFix_cases hsep with hs | hs <;> rw [hs] <;> decide
      have hsd : ¬sepFix p.2 = '-' := by
        rcases sepFix_cases hsep with hs | hs <;> rw [hs] <;> decide
      have hsl : ¬sepFix p.2 = '/' := by
        rcases sepFix_cases hsep with hs | hs <;> rw [hs] <;> decide
      have hst : ¬sepFix p.2 = '*' := by
        rcases sepFix_cases hsep with hs | hs <;> rw [hs] <;> decide
      obtain ⟨i, sc⟩ := p
      simp only at hitem hsep hsw hs0 hs1 hsd hsl hst
      cases i with
      | tokI t =>
          rw [itemOk, Bool.and_eq_true] at hitem
          have hjoin : joinItems fix7 ((PgnItem.tokI t, sc) :: items) =
              t.data ++ sepFix sc :: joinItems fix7 items := by
            simp [joinItems, fix7, fix6, fix5, fix4, fix3, fix2, fix1]
          rw [hjoin, res_chunk_noDash
            (fun hm => sanChar_ne_dash (List.all_eq_true.1 hitem.2 _ hm) rfl)
            (fun hm => sanChar_ne_slash (List.all_eq_true.1 hitem.2 _ hm) rfl)
            (fun hm => sanChar_ne_star (List.all_eq_true.1 hitem.2 _ hm) rfl)
            hsd hsl hs1 hs0 hst prev _, ih hrest _ hsw]
          simp [joinItems, fix8, fix7, fix6, fix5, fix4, fix3, fix2, fix1]
      | castleI big zero d suf =>
          rw [itemOk, Bool.and_eq_true] at hitem
          have hjoin : joinItems fix7 ((PgnItem.castleI big zero d suf, sc)
              :: items) = castleChars big false '-' suf ++
                sepFix sc :: joinItems fix7 items := by
            simp [joinItems, fix7]
          have hx1 : '1' ∉ castleChars big false '-' suf := by
            rcases sufOk_cases hitem.2 with hsf | hsf | hsf <;> subst hsf <;>
              cases big <;> decide
          have hx0 : '0' ∉ castleChars big false '-' suf := by
            rcases sufOk_cases hitem.2 with hsf | hsf | hsf <;> subst hsf <;>
              cases big <;> decide
          have hxa : '*' ∉ castleChars big false '-' suf := by
            rcases sufOk_cases hitem.2 with hsf | hsf | hsf <;> subst hsf <;>
              cases big <;> decide
          rw [hjoin, res_chunk_noStart hx1 hx0 hxa hs1 hs0 hst prev _,
            ih hrest _ hsw]
          simp [joinItems, fix8, fix7]
      | numI ds ell =>
          rw [itemOk, Bool.and_eq_true] at hitem
          have hb : ∀ c, c ∈ ds ++ (if ell then ['.', '.', '.'] else ['.']) →
              ¬c = '-' ∧ ¬c = '/' ∧ ¬c = '*' := by
            intro c hm
            rcases List.mem_append.1 hm with hm | hm
            · have := List.all_eq_true.1 hitem.2 _ hm
              refine ⟨?_, ?_, ?_⟩ <;> intro hc <;> subst hc <;>
                exact absurd this (by decide)
            · cases ell <;> simp at hm <;> subst hm <;> exact ⟨by decide,
                by decide, by decide⟩
          have hjoin : joinItems fix7 ((PgnItem.numI ds ell, sc) :: items) =
              (ds ++ (if ell then ['.', '.', '.'] else ['.'])) ++
                sepFix sc :: joinItems fix7 items := by
            simp [joinItems, fix7, fix6, fix5, fix4, fix3, fix2, fix1]
          rw [hjoin, res_chunk_noDash (fun hm => (hb _ hm).1 rfl)
            (fun hm => (hb _ hm).2.1 rfl) (fun hm => (hb _ hm).2.2 rfl)
            hsd hsl hs1 hs0 hst prev _, ih hrest _ hsw]
          simp [joinItems, fix8, fix7, fix6, fix5, fix4, fix3, fix2, fix1]
      | headerI content =>
          have hjoin : joinItems fix7 ((PgnItem.headerI content, sc) :: items) =
              joinItems fix7 items := by
            simp [joinItems, fix7, fix6, fix5, fix4, fix3, fix2]
          rw [hjoin, ih hrest prev hprev]
          simp [joinItems, fix8, fix7, fix6, fix5, fix4, fix3, fix2]
      | commentI content =>
          have hjoin : joinItems fix7 ((PgnItem.commentI content, sc) :: items) =
              [' '] ++ sepFix sc :: joinItems fix7 items := by
            simp [joinItems, fix7, fix6, fix5, fix4, fix3]
          rw [hjoin, res_chunk_noStart (by decide) (by decide) (by decide)
            hs1 hs0 hst prev _, ih hrest _ hsw]
          simp [joinItems, fix8, fix7, fix6, fix5, fix4, fix3]
      | varI content =>
          have hjoin : joinItems fix7 ((PgnItem.varI content, sc) :: items) =
              [' '] ++ sepFix sc :: joinItems fix7 items := by
            simp [joinItems, fix7, fix6, fix5, fix4]
          rw [hjoin, res_chunk_noStart (by decide) (by decide) (by decide)
            hs1 hs0 hst prev _, ih hrest _ hsw]
          simp [joinItems, fix8, fix7, fix6, fix5, fix4]
      | nagI ds =>
          have hjoin : joinItems fix7 ((PgnItem.nagI ds, sc) :: items) =
              [' '] ++ sepFix sc :: joinItems fix7 items := by
            simp [joinItems, fix7, fix6, fix5]
          rw [hjoin, res_chunk_noStart (by decide) (by decide) (by decide)
            hs1 hs0 hst prev _, ih hrest _ hsw]
          simp [joinItems, fix8, fix7, fix6, fix5]
      | resI k d =>
          by_cases hk0 : k = 0
          · have hjoin : joinItems fix7 ((PgnItem.resI k d, sc) :: items) =
                '1' :: '-' :: '0' :: (sepFix sc :: joinItems fix7 items) := by
              simp [joinItems, fix7, fix6, fix5, fix4, fix3, fix2, fix1,
                resChars, hk0]
            rw [hjoin, res_match1 hprev (by simpa using hsw),
              res_default (fun r hc => hs1 (List.cons_eq_cons.1 hc).1)
                (fun r hc => hs0 (List.cons_eq_cons.1 hc).1)
                (fun r hc => hs1 (List.cons_eq_cons.1 hc).1) hst,
              ih hrest _ hsw]
            simp [joinItems, fix8, hk0]
          · by_cases hk1 : k = 1
            · have hjoin : joinItems fix7 ((PgnItem.resI k d, sc) :: items) =
                  '0' :: '-' :: '1' :: (sepFix sc :: joinItems fix7 items) := by
                simp [joinItems, fix7, fix6, fix5, fix4, fix3, fix2, fix1,
                  resChars, hk0, hk1]
              rw [hjoin, res_match2 hprev (by simpa using hsw),
                res_default (fun r hc => hs1 (List.cons_eq_cons.1 hc).1)
                  (fun r hc => hs0 (List.cons_eq_cons.1 hc).1)
                  (fun r hc => hs1 (List.cons_eq_cons.1 hc).1) hst,
                ih hrest _ hsw]
              simp [joinItems, fix8, hk0, hk1]
            · have hjoin : joinItems fix7 ((PgnItem.resI k d, sc) :: items) =
                  '1' :: '/' :: '2' :: '-' :: '1' :: '/' :: '2' ::
                    (sepFix sc :: joinItems fix7 items) := by
                simp [joinItems, fix7, fix6, fix5, fix4, fix3, fix2, fix1,
                  resChars, hk0, hk1]
              rw [hjoin, res_match3 hprev (by simpa using hsw),
                res_default (fun r hc => hs1 (List.cons_eq_cons.1 hc).1)
                  (fun r hc => hs0 (List.cons_eq_cons.1 hc).1)
                  (fun r hc => hs1 (List.cons_eq_cons.1 hc).1) hst,
                ih hrest _ hsw]
              simp [joinItems, fix8, hk0, hk1]

/-! ### Stage 9: move-number ellipsis normalization -/

theorem sanChar_ne_dot {c : Char} (h : sanChar c = true) : ¬c = '.' := by
  intro hc; subst hc; exact absurd h (by decide)

theorem mnd_none_emit {c : Char} (h : c.isDigit = false) (cs : List Char) :
    moveNumDotsGo none (c :: cs) = c :: moveNumDotsGo none cs := by
  simp [moveNumDotsGo, h]

theorem mnd_none_digit {c : Char} (h : c.isDigit = true) (cs : List Char) :
    moveNumDotsGo none (c :: cs) = moveNumDotsGo (some [c]) cs := by
  simp [moveNumDotsGo, h]

theorem mnd_some_dot3 (b : List Char) (cs : List Char) :
    moveNumDotsGo (some b) ('.' :: '.' :: '.' :: cs) =
      b.reverse ++ '.' :: moveNumDotsGo none cs := by
  simp [moveNumDotsGo]

theorem mnd_some_dot1 {e : Char} (he : ¬e = '.') (b : List Char)
    (l : List Char) :
    moveNumDotsGo (some b) ('.' :: e :: l) =
      b.reverse ++ '.' :: moveNumDotsGo none (e :: l) := by
  rw [moveNumDotsGo.eq_def]
  split
  · rename_i heq₁ heq₂
    cases heq₂
  · rename_i heq₁ heq₂
    cases heq₂
  · rename_i heq₁ heq₂
    cases heq₁
  · rename_i b2 cs heq₁ heq₂
    simp only [List.cons_eq_cons] at heq₂
    exact absurd heq₂.2.1 he
  · rename_i b2 cs heq₁ heq₂
    cases heq₁
    cases heq₂
    rfl
  · rename_i b2 c cs h3 h1 heq₁ heq₂
    exact absurd (List.cons_eq_cons.1 heq₂).1.symm h1

theorem mnd_some_other {c : Char} (hdot : ¬c = '.') (hdig : c.isDigit = false)
    (b cs : List Char) :
    moveNumDotsGo (some b) (c :: cs) =
      b.reverse ++ c :: moveNumDotsGo none cs := by
  rw [moveNumDotsGo.eq_def]
  split
  · rename_i heq₁ heq₂
    cases heq₂
  · rename_i heq₁ heq₂
    cases heq₂
  · rename_i heq₁ heq₂
    cases heq₁
  · rename_i b2 cs2 heq₁ heq₂
    exact absurd (List.cons_eq_cons.1 heq₂).1 hdot
  · rename_i b2 cs2 heq₁ heq₂
    exact absurd (List.cons_eq_cons.1 heq₂).1 hdot
  · rename_i b2 c2 cs2 h3 h1 heq₁ heq₂
    cases heq₁
    cases heq₂
    simp [hdig]

theorem mnd_some_digit {c : Char} (hdig : c.isDigit = true)
    (b cs : List Char) :
    moveNumDotsGo (some b) (c :: cs) = moveNumDotsGo (some (c :: b)) cs := by
  have hdot : ¬c = '.' := fun hc => by subst hc; exact absurd hdig (by decide)
  rw [moveNumDotsGo.eq_def]
  split
  · rename_i heq₁ heq₂
    cases heq₂
  · rename_i heq₁ heq₂
    cases heq₂
  · rename_i heq₁ heq₂
    cases heq₁
  · rename_i b2 cs2 heq₁ heq₂
    exact absurd (List.cons_eq_cons.1 heq₂).1 hdot
  · rename_i b2 cs2 heq₁ heq₂
    exact absurd (List.cons_eq_cons.1 heq₂).1 hdot
  · rename_i b2 c2 cs2 h3 h1 heq₁ heq₂
    cases heq₁
    cases heq₂
    simp [hdig]

theorem mnd_digits {ds : List Char} (hd : ∀ c ∈ ds, c.isDigit = true) :
    ∀ b r, moveNumDotsGo (some b) (ds ++ r) =
      moveNumDotsGo (some (ds.reverse ++ b)) r := by
  induction ds with
  | nil => intro b r; simp
  | cons c cs ih =>
      intro b r
      rw [List.cons_append, mnd_some_digit (hd c (List.mem_cons_self _ _)),
        ih (fun x hx => hd x (List.mem_cons_of_mem _ hx)) (c :: b) r]
      simp

theorem mnd_chunk_aux {e : Char} (hedig : e.isDigit = false)
    (hedot : ¬e = '.') {xs : List Char} (hx : '.' ∉ xs) (l : List Char) :
    (moveNumDotsGo none (xs ++ e :: l) =
      xs ++ e :: moveNumDotsGo none l) ∧
    ∀ b, moveNumDotsGo (some b) (xs ++ e :: l) =
      b.reverse ++ xs ++ e :: moveNumDotsGo none l := by
  induction xs with
  | nil =>
      refine ⟨mnd_none_emit hedig l, fun b => ?_⟩
      rw [List.nil_append, mnd_some_other hedot hedig]
      simp
  | cons c cs ih =>
      have hcd : ¬c = '.' := fun hc => hx (hc ▸ List.mem_cons_self _ _)
      have ih2 := ih fun hm => hx (List.mem_cons_of_mem _ hm)
      by_cases hdig : c.isDigit = true
      · refine ⟨?_, fun b => ?_⟩
        · rw [List.cons_append, mnd_none_digit hdig, ih2.2 [c]]
          simp
        · rw [List.cons_append, mnd_some_digit hdig, ih2.2 (c :: b)]
          simp
      · rw [Bool.not_eq_true] at hdig
        refine ⟨?_, fun b => ?_⟩
        · rw [List.cons_append, mnd_none_emit hdig, ih2.1]
          rfl
        · rw [List.cons_append, mnd_some_other hcd hdig, ih2.1]
          simp

theorem mnd_chunk {xs : List Char} (hx : '.' ∉ xs) {e : Char}
    (hedig : e.isDigit = false) (hedot : ¬e = '.') (l : List Char) :
    moveNumDotsGo none (xs ++ e :: l) = xs ++ e :: moveNumDotsGo none l :=
  (mnd_chunk_aux hedig hedot hx l).1

theorem mnd_num3 {ds : List Char} (hne : ¬ds = [])
    (hd : ∀ c ∈ ds, c.isDigit = true) {e : Char} (hedig : e.isDigit = false)
    (hedot : ¬e = '.') (l : List Char) :
    moveNumDotsGo none (ds ++ '.' :: '.' :: '.' :: e :: l) =
      ds ++ '.' :: e :: moveNumDotsGo none l := by
  cases ds with
  | nil => exact absurd rfl hne
  | cons d ds2 =>
      rw [List.cons_append, mnd_none_digit (hd d (List.mem_cons_self _ _)),
        mnd_digits (fun x hx => hd x (List.mem_cons_of_mem _ hx)) [d] _,
        mnd_some_dot3, mnd_none_emit hedig]
      simp

theorem mnd_num1 {ds : List Char} (hne : ¬ds = [])
    (hd : ∀ c ∈ ds, c.isDigit = true) {e : Char} (hedig : e.isDigit = false)
    (hedot : ¬e = '.') (l : List Char) :
    moveNumDotsGo none (ds ++ '.' :: e :: l) =
      ds ++ '.' :: e :: moveNumDotsGo none l := by
  cases ds with
  | nil => exact absurd rfl hne
  | cons d ds2 =>
      rw [List.cons_append, mnd_none_digit (hd d (List.mem_cons_self _ _)),
        mnd_digits (fun x hx => hd x (List.mem_cons_of_mem _ hx)) [d] _,
        mnd_some_dot1 hedot, mnd_none_emit hedig]
      simp

theorem stage9_dots (items : List (PgnItem × Char)) (h : itemsOk items = true) :
    moveNumDotsGo none (joinItems fix8 items) = joinItems fix9 items := by
  induction items with
  | nil => rfl
  | cons p items ih =>
      rw [itemsOk, List.all_cons, Bool.and_eq_true, Bool.and_eq_true] at h
      obtain ⟨⟨hitem, hsep⟩, hrest⟩ := h
      have hsdig : (sepFix p.2).isDigit = false := by
        rcases sepFix_cases hsep with hs | hs <;> rw [hs] <;> decide
      have hsdot : ¬sepFix p.2 = '.' := by
        rcases sepFix_cases hsep with hs | hs <;> rw [hs] <;> decide
      obtain ⟨i, sc⟩ := p
      simp only at hitem hsep hsdig hsdot
      cases i with
      | tokI t =>
          rw [itemOk, Bool.and_eq_true] at hitem
          have hjoin : joinItems fix8 ((PgnItem.tokI t, sc) :: items) =
              t.data ++ sepFix sc :: joinItems fix8 items := by
            simp [joinItems, fix8, fix7, fix6, fix5, fix4, fix3, fix2, fix1]
          rw [hjoin, mnd_chunk
            (fun hm => sanChar_ne_dot (List.all_eq_true.1 hitem.2 _ hm) rfl)
            hsdig hsdot _, ih hrest]
          simp [joinItems, fix9, fix8, fix7, fix6, fix5, fix4, fix3, fix2, fix1]
      | castleI big zero d suf =>
          rw [itemOk, Bool.and_eq_true] at hitem
          have hjoin : joinItems fix8 ((PgnItem.castleI big zero d suf, sc)
              :: items) = castleChars big false '-' suf ++
                sepFix sc :: joinItems fix8 items := by
            simp [joinItems, fix8, fix7]
          have hx : '.' ∉ castleChars big false '-' suf := by
            rcases sufOk_cases hitem.2 with hsf | hsf | hsf <;> subst hsf <;>
              cases big <;> decide
          rw [hjoin, mnd_chunk hx hsdig hsdot _, ih hrest]
          simp [joinItems, fix9, fix8, fix7]
      | numI ds ell =>
          rw [itemOk, Bool.and_eq_true] at hitem
          cases ell with
          | true =>
              have hjoin : joinItems fix8 ((PgnItem.numI ds true, sc)
                  :: items) = ds ++ '.' :: '.' :: '.' ::
                    (sepFix sc :: joinItems fix8 items) := by
                simp [joinItems, fix8, fix7, fix6, fix5, fix4, fix3, fix2, fix1]
              rw [hjoin, mnd_num3 (by simpa using hitem.1)
                (List.all_eq_true.1 hitem.2) hsdig hsdot _, ih hrest]
              simp [joinItems, fix9]
          | false =>
              have hjoin : joinItems fix8 ((PgnItem.numI ds false, sc)
                  :: items) = ds ++ '.' ::
                    (sepFix sc :: joinItems fix8 items) := by
                simp [joinItems, fix8, fix7, fix6, fix5, fix4, fix3, fix2, fix1]
              rw [hjoin, mnd_num1 (by simpa using hitem.1)
                (List.all_eq_true.1 hitem.2) hsdig hsdot _, ih hrest]
              simp [joinItems, fix9]
      | headerI content =>
          have hjoin : joinItems fix8 ((PgnItem.headerI content, sc) :: items) =
              joinItems fix8 items := by
            simp [joinItems, fix8, fix7, fix6, fix5, fix4, fix3, fix2]
          rw [hjoin, ih hrest]
          simp [joinItems, fix9, fix8, fix7, fix6, fix5, fix4, fix3, fix2]
      | commentI content =>
          have hjoin : joinItems fix8 ((PgnItem.commentI content, sc) :: items) =
              [' '] ++ sepFix sc :: joinItems fix8 items := by
            simp [joinItems, fix8, fix7, fix6, fix5, fix4, fix3]
          rw [hjoin, mnd_chunk (by decide) hsdig hsdot _, ih hrest]
          simp [joinItems, fix9, fix8, fix7, fix6, fix5, fix4, fix3]
      | varI content =>
          have hjoin : joinItems fix8 ((PgnItem.varI content, sc) :: items) =
              [' '] ++ sepFix sc :: joinItems fix8 items := by
            simp [joinItems, fix8, fix7, fix6, fix5, fix4]
          rw [hjoin, mnd_chunk (by decide) hsdig hsdot _, ih hrest]
          simp [joinItems, fix9, fix8, fix7, fix6, fix5, fix4]
      | nagI ds =>
          have hjoin : joinItems fix8 ((PgnItem.nagI ds, sc) :: items) =
              [' '] ++ sepFix sc :: joinItems fix8 items := by
            simp [joinItems, fix8, fix7, fix6, fix5]
          rw [hjoin, mnd_chunk (by decide) hsdig hsdot _, ih hrest]
          simp [joinItems, fix9, fix8, fix7, fix6, fix5]
      | resI k d =>
          have hjoin : joinItems fix8 ((PgnItem.resI k d, sc) :: items) =
              [' '] ++ sepFix sc :: joinItems fix8 items := by
            simp [joinItems, fix8]
          rw [hjoin, mnd_chunk (by decide) hsdig hsdot _, ih hrest]
          simp [joinItems, fix9, fix8]

/-! ### Stages 10–11: whitespace collapse, and the final trim -/

theorem ws_chunk {w : List Char} (hw : ∀ c ∈ w, jsWs c = false) :
    ∀ st l, collapseWsGo st (w ++ l) = w ++ collapseWsGo (st && w.isEmpty) l := by
  induction w with
  | nil => intro st l; simp
  | cons c cs ih =>
      intro st l
      have hc : jsWs c = false := hw c (List.mem_cons_self _ _)
      have h1 : collapseWsGo st ((c :: cs) ++ l) =
          c :: collapseWsGo false (cs ++ l) := by
        cases st <;> simp [collapseWsGo, hc]
      rw [h1, ih (fun x hx => hw x (List.mem_cons_of_mem _ hx)) false l]
      simp

theorem ws_spTab (l : List Char) :
    (collapseWsGo false (collapseSpTabGo false l) = collapseWsGo false l) ∧
    (collapseWsGo true (collapseSpTabGo true l) = collapseWsGo true l) ∧
    (collapseWsGo true (collapseSpTabGo false l) = collapseWsGo true l) := by
  induction l with
  | nil => exact ⟨rfl, rfl, rfl⟩
  | cons c cs ih =>
      obtain ⟨ih1, ih2, ih3⟩ := ih
      by_cases hst : c = ' ' ∨ c = '\t'
      · have hws : jsWs c = true := by
          rcases hst with h | h <;> subst h <;> decide
        refine ⟨?_, ?_, ?_⟩ <;>
          simp [collapseSpTabGo, collapseWsGo, hst, hws, ih2, ih3,
            show jsWs ' ' = true from rfl]
      · by_cases hws : jsWs c = true
        · refine ⟨?_, ?_, ?_⟩ <;>
            simp [collapseSpTabGo, collapseWsGo, hst, hws, ih3,
              show jsWs ' ' = true from rfl]
        · rw [Bool.not_eq_true] at hws
          refine ⟨?_, ?_, ?_⟩ <;>
            simp [collapseSpTabGo, collapseWsGo, hst, hws, ih1]

theorem jsTrim_mk (l : List Char) :
    jsTrim ⟨l⟩ = ⟨((l.dropWhile jsWs).reverse.dropWhile jsWs).reverse⟩ := rfl

theorem dropWhile_nonWs {l : List Char} (h : ∀ c ∈ l, jsWs c = false) :
    l.dropWhile jsWs = l := by
  cases l with
  | nil => rfl
  | cons c cs =>
      rw [List.dropWhile_cons, h c (List.mem_cons_self _ _)]
      simp

theorem trim_ws_false_true (l : List Char) :
    jsTrim ⟨collapseWsGo false l⟩ = jsTrim ⟨collapseWsGo true l⟩ := by
  cases l with
  | nil => rfl
  | cons c cs =>
      by_cases hws : jsWs c = true
      · have h1 : collapseWsGo false (c :: cs) = ' ' :: collapseWsGo true cs := by
          simp [collapseWsGo, hws]
        have h2 : collapseWsGo true (c :: cs) = collapseWsGo true cs := by
          simp [collapseWsGo, hws]
        rw [h1, h2, jsTrim_mk, jsTrim_mk, List.dropWhile_cons]
        simp [show jsWs ' ' = true from rfl]
      · rw [Bool.not_eq_true] at hws
        have h1 : collapseWsGo false (c :: cs) = c :: collapseWsGo false cs := by
          simp [collapseWsGo, hws]
        have h2 : collapseWsGo true (c :: cs) = c :: collapseWsGo false cs := by
          simp [collapseWsGo, hws]
        rw [h1, h2]

theorem stageW (items : List (PgnItem × Char)) (h : itemsOk items = true) :
    collapseWsGo true (joinItems fix9 items) =
      (items.filterMap fun p => residue p.1).flatMap fun w => w ++ [' '] := by
  induction items with
  | nil => rfl
  | cons p items ih =>
      rw [itemsOk, List.all_cons, Bool.and_eq_true, Bool.and_eq_true] at h
      obtain ⟨⟨hitem, hsep⟩, hrest⟩ := h
      have hws : jsWs (sepFix p.2) = true := by
        rcases sepFix_cases hsep with hs | hs <;> rw [hs] <;> decide
      obtain ⟨i, sc⟩ := p
      simp only at hitem hsep hws
      cases i with
      | tokI t =>
          rw [itemOk, Bool.and_eq_true] at hitem
          have hE : t.data.isEmpty = false := by simpa using hitem.1
          have hjoin : joinItems fix9 ((PgnItem.tokI t, sc) :: items) =
              t.data ++ sepFix sc :: joinItems fix9 items := by
            simp [joinItems, fix9, fix8, fix7, fix6, fix5, fix4, fix3, fix2,
              fix1]
          rw [hjoin, ws_chunk
            (fun c hc => sanChar_not_ws (List.all_eq_true.1 hitem.2 c hc))
            true _]
          rw [hE, show (true && false) = false from rfl,
            show collapseWsGo false (sepFix sc :: joinItems fix9 items) =
              ' ' :: collapseWsGo true (joinItems fix9 items) from by
                simp [collapseWsGo, hws],
            ih hrest]
          simp [residue]
      | castleI big zero d suf =>
          rw [itemOk, Bool.and_eq_true] at hitem
          have hE : (castleChars big false '-' suf).isEmpty = false := by
            rcases sufOk_cases hitem.2 with hsf | hsf | hsf <;> subst hsf <;>
              cases big <;> decide
          have hnw : ∀ c ∈ castleChars big false '-' suf, jsWs c = false := by
            rcases sufOk_cases hitem.2 with hsf | hsf | hsf <;> subst hsf <;>
              cases big <;> decide
          have hjoin : joinItems fix9 ((PgnItem.castleI big zero d suf, sc)
              :: items) = castleChars big false '-' suf ++
                sepFix sc :: joinItems fix9 items := by
            simp [joinItems, fix9, fix8, fix7]
          rw [hjoin, ws_chunk hnw true _]
          rw [hE, show (true && false) = false from rfl,
            show collapseWsGo false (sepFix sc :: joinItems fix9 items) =
              ' ' :: collapseWsGo true (joinItems fix9 items) from by
                simp [collapseWsGo, hws],
            ih hrest]
          simp [residue]
      | numI ds ell =>
          rw [itemOk, Bool.and_eq_true] at hitem
          have hE : (ds ++ ['.']).isEmpty = false := by
            simp [List.isEmpty_iff]
          have hnw : ∀ c ∈ ds ++ ['.'], jsWs c = false := by
            intro c hc
            rcases List.mem_append.1 hc with hc | hc
            · exact digit_not_ws (List.all_eq_true.1 hitem.2 c hc)
            · simp at hc
              subst hc
              decide
          have hjoin : joinItems fix9 ((PgnItem.numI ds ell, sc) :: items) =
              (ds ++ ['.']) ++ sepFix sc :: joinItems fix9 items := by
            simp [joinItems, fix9]
          rw [hjoin, ws_chunk hnw true _]
          rw [hE, show (true && false) = false from rfl,
            show collapseWsGo false (sepFix sc :: joinItems fix9 items) =
              ' ' :: collapseWsGo true (joinItems fix9 items) from by
                simp [collapseWsGo, hws],
            ih hrest]
          simp [residue]
      | headerI content =>
          have hjoin : joinItems fix9 ((PgnItem.headerI content, sc) :: items) =
              joinItems fix9 items := by
            simp [joinItems, fix9, fix8, fix7, fix6, fix5, fix4, fix3, fix2]
          rw [hjoin, ih hrest]
          simp [residue]
      | commentI content =>
          have hjoin : joinItems fix9 ((PgnItem.commentI content, sc) :: items) =
              ' ' :: sepFix sc :: joinItems fix9 items := by
            simp [joinItems, fix9, fix8, fix7, fix6, fix5, fix4, fix3]
          rw [hjoin, show collapseWsGo true (' ' :: sepFix sc ::
              joinItems fix9 items) =
              collapseWsGo true (joinItems fix9 items) from by
            simp [collapseWsGo, hws, show jsWs ' ' = true from rfl], ih hrest]
          simp [residue]
      | varI content =>
          have hjoin : joinItems fix9 ((PgnItem.varI content, sc) :: items) =
              ' ' :: sepFix sc :: joinItems fix9 items := by
            simp [joinItems, fix9, fix8, fix7, fix6, fix5, fix4]
          rw [hjoin, show collapseWsGo true (' ' :: sepFix sc ::
              joinItems fix9 items) =
              collapseWsGo true (joinItems fix9 items) from by
            simp [collapseWsGo, hws, show jsWs ' ' = true from rfl], ih hrest]
          simp [residue]
      | nagI ds =>
          have hjoin : joinItems fix9 ((PgnItem.nagI ds, sc) :: items) =
              ' ' :: sepFix sc :: joinItems fix9 items := by
            simp [joinItems, fix9, fix8, fix7, fix6, fix5]
          rw [hjoin, show collapseWsGo true (' ' :: sepFix sc ::
              joinItems fix9 items) =
              collapseWsGo true (joinItems fix9 items) from by
            simp [collapseWsGo, hws, show jsWs ' ' = true from rfl], ih hrest]
          simp [residue]
      | resI k d =>
          have hjoin : joinItems fix9 ((PgnItem.resI k d, sc) :: items) =
              ' ' :: sepFix sc :: joinItems fix9 items := by
            simp [joinItems, fix9, fix8]
          rw [hjoin, show collapseWsGo true (' ' :: sepFix sc ::
              joinItems fix9 items) =
              collapseWsGo true (joinItems fix9 items) from by
            simp [collapseWsGo, hws, show jsWs ' ' = true from rfl], ih hrest]
          simp [residue]

theorem rtrimJoin (words : List (List Char))
    (hws : ∀ w ∈ words, ¬w = [] ∧ ∀ c ∈ w, jsWs c = false) :
    ((words.flatMap fun w => w ++ [' ']).reverse.dropWhile jsWs).reverse =
      wordsJoin words := by
  induction words with
  | nil => rfl
  | cons w ws ih =>
      obtain ⟨hne, hnw⟩ := hws w (List.mem_cons_self _ _)
      cases ws with
      | nil =>
          simp only [List.flatMap_cons, List.flatMap_nil, List.append_nil]
          rw [List.reverse_append,
            show ([' '] : List Char).reverse = [' '] from rfl,
            List.singleton_append, List.dropWhile_cons]
          simp only [show jsWs ' ' = true from rfl, if_true]
          rw [dropWhile_nonWs (fun c hc => hnw c (List.mem_reverse.1 hc)),
            List.reverse_reverse]
          rfl
      | cons w2 ws2 =>
          have ihr := ih (fun x hx => hws x (List.mem_cons_of_mem _ hx))
          have hw2 := hws w2 (List.mem_cons_of_mem _ (List.mem_cons_self _ _))
          have hwjne : ¬wordsJoin (w2 :: ws2) = [] := by
            cases ws2 with
            | nil =>
                intro hc
                exact hw2.1 hc
            | cons w3 ws3 =>
                intro hc
                rw [show wordsJoin (w2 :: w3 :: ws3) =
                  w2 ++ ' ' :: wordsJoin (w3 :: ws3) from rfl] at hc
                rcases List.append_eq_nil.1 hc with ⟨h1, h2⟩
                cases h2
          have hBne : ¬((w2 :: ws2).flatMap fun w =>
              w ++ [' ']).reverse.dropWhile jsWs = [] := by
            intro hc
            rw [hc] at ihr
            exact hwjne (ihr.symm.trans rfl)
          rw [List.flatMap_cons, List.reverse_append, List.dropWhile_append]
          rw [if_neg (by simpa [List.isEmpty_iff] using hBne)]
          rw [List.reverse_append, List.reverse_reverse, ihr]
          rw [show wordsJoin (w :: w2 :: ws2) =
            w ++ ' ' :: wordsJoin (w2 :: ws2) from rfl]
          simp

theorem trimJoin (words : List (List Char))
    (hws : ∀ w ∈ words, ¬w = [] ∧ ∀ c ∈ w, jsWs c = false) :
    jsTrim ⟨words.flatMap fun w => w ++ [' ']⟩ = ⟨wordsJoin words⟩ := by
  rw [jsTrim_mk]
  have hlead : (words.flatMap fun w => w ++ [' ']).dropWhile jsWs =
      words.flatMap fun w => w ++ [' '] := by
    cases words with
    | nil => rfl
    | cons w ws =>
        obtain ⟨hne, hnw⟩ := hws w (List.mem_cons_self _ _)
        rw [List.flatMap_cons]
        cases w with
        | nil => exact absurd rfl hne
        | cons c cs =>
            rw [List.cons_append, List.cons_append, List.dropWhile_cons,
              hnw c (List.mem_cons_self _ _)]
            simp
  rw [hlead, rtrimJoin words hws]

theorem residue_words {items : List (PgnItem × Char)} (h : itemsOk items = true) :
    ∀ w ∈ items.filterMap (fun p => residue p.1),
      ¬w = [] ∧ ∀ c ∈ w, jsWs c = false := by
  intro w hw
  rw [List.mem_filterMap] at hw
  obtain ⟨p, hp, hres⟩ := hw
  have hitem : itemOk p.1 = true := by
    have h2 := List.all_eq_true.1 h p hp
    simp only [Bool.and_eq_true] at h2
    exact h2.1
  cases hq : p.1 with
  | tokI t =>
      rw [hq] at hres hitem
      rw [residue, Option.some.injEq] at hres
      subst hres
      rw [itemOk, Bool.and_eq_true] at hitem
      exact ⟨by simpa using hitem.1,
        fun c hc => sanChar_not_ws (List.all_eq_true.1 hitem.2 c hc)⟩
  | castleI big zero d suf =>
      rw [hq] at hres hitem
      rw [residue, Option.some.injEq] at hres
      subst hres
      rw [itemOk, Bool.and_eq_true] at hitem
      rcases sufOk_cases hitem.2 with hsf | hsf | hsf <;> subst hsf <;>
        cases big <;> exact ⟨by decide, by decide⟩
  | numI ds ell =>
      rw [hq] at hres hitem
      rw [residue, Option.some.injEq] at hres
      subst hres
      rw [itemOk, Bool.and_eq_true] at hitem
      refine ⟨by simp, fun c hc => ?_⟩
      rcases List.mem_append.1 hc with hc | hc
      · exact digit_not_ws (List.all_eq_true.1 hitem.2 c hc)
      · simp at hc
        subst hc
        decide
  | headerI content =>
      rw [hq, residue.eq_def] at hres
      cases hres
  | commentI content =>
      rw [hq, residue.eq_def] at hres
      cases hres
  | varI content =>
      rw [hq, residue.eq_def] at hres
      cases hres
  | nagI ds =>
      rw [hq, residue.eq_def] at hres
      cases hres
  | resI k d =>
      rw [hq, residue.eq_def] at hres
      cases hres

/-! ### The normalizer on well-formed dirty renderings -/

theorem stripBom_eq {l : List Char} (h : ∀ c, l.head? = some c → ¬c = '﻿') :
    stripBom l = l := by
  cases l with
  | nil => rfl
  | cons c cs =>
      rw [stripBom.eq_def]
      split
      · rename_i cs2 heq
        exact absurd (List.cons_eq_cons.1 heq).1 (h c rfl)
      · rfl

theorem itemRender_head {i : PgnItem} (hi : itemOk i = true) {c : Char}
    {cs : List Char} (he : itemRender i = c :: cs) : ¬c = '﻿' := by
  cases i with
  | tokI t =>
      rw [itemOk, Bool.and_eq_true] at hi
      rw [itemRender] at he
      have hs : sanChar c = true :=
        List.all_eq_true.1 hi.2 c (he ▸ List.mem_cons_self _ _)
      intro hcc
      subst hcc
      exact absurd hs (by decide)
  | castleI big zero d suf =>
      have hh : (itemRender (PgnItem.castleI big zero d suf)).head? =
          some (if zero then '0' else 'O') := by
        cases big <;> cases zero <;> rfl
      rw [he, List.head?_cons, Option.some.injEq] at hh
      subst hh
      cases zero <;> decide
  | numI ds ell =>
      rw [itemOk, Bool.and_eq_true] at hi
      rw [itemRender] at he
      cases ds with
      | nil => simp at hi
      | cons a as =>
          rw [List.cons_append] at he
          obtain rfl : a = c := (List.cons_eq_cons.1 he).1
          have hd : a.isDigit = true :=
            List.all_eq_true.1 hi.2 a (List.mem_cons_self _ _)
          intro hcc
          subst hcc
          exact absurd hd (by decide)
  | headerI content =>
      rw [itemRender, List.cons_append] at he
      obtain rfl : '[' = c := (List.cons_eq_cons.1 he).1
      decide
  | commentI content =>
      rw [itemRender, List.cons_append] at he
      obtain rfl : '{' = c := (List.cons_eq_cons.1 he).1
      decide
  | varI content =>
      rw [itemRender, List.cons_append] at he
      obtain rfl : '(' = c := (List.cons_eq_cons.1 he).1
      decide
  | nagI ds =>
      rw [itemRender] at he
      obtain rfl : '$' = c := (List.cons_eq_cons.1 he).1
      decide
  | resI k d =>
      have hh : (itemRender (PgnItem.resI k d)).head? =
          some (if k = 1 then '0' else '1') := by
        by_cases hk0 : k = 0
        · rw [hk0]
          rfl
        · by_cases hk1 : k = 1
          · rw [hk1]
            rfl
          · have hk2 : k = 2 := by omega
            rw [hk2]
            rfl
      rw [he, List.head?_cons, Option.some.injEq] at hh
      subst hh
      by_cases hk1 : k = 1
      · rw [if_pos hk1]
        decide
      · rw [if_neg hk1]
        decide

theorem normalizePgn_chain (l : List Char) (hl : (⟨l⟩ : String) ≠ "") :
    normalizePgn ⟨l⟩ = jsTrim ⟨collapseWsGo false (collapseSpTabGo false
      (moveNumDotsGo none (resultsGo none (castle2Go none (castle3Go none
      (stripNagsGo false (stripEnclosedGo '(' ')' .out
      (stripEnclosedGo '{' '}' .out
      (stripTagsGo .out (charFixL (stripBom l)))))))))))⟩ := by
  have hc : ∀ m : List Char,
      ((((m.filter fun c => !(c = '​')).map
        fun c => if c = ' ' then ' ' else c).map
        fun c => if c = '–' ∨ c = '—' then '-' else c).flatMap
        fun c => if c = '…' then ['.', '.', '.'] else [c]).map
        (fun c => if c = '\r' then '\n' else c) = charFixL m := fun m => rfl
  simp only [normalizePgn]
  rw [if_neg hl, hc]

theorem normalizePgn_render (items : List (PgnItem × Char))
    (h : itemsOk items = true) :
    normalizePgn ⟨renderPgn items⟩ =
      ⟨wordsJoin (items.filterMap fun p => residue p.1)⟩ := by
  cases items with
  | nil => rfl
  | cons p items2 =>
      have hne : renderPgn (p :: items2) ≠ [] := by
        simp [renderPgn]
      have hraw : (⟨renderPgn (p :: items2)⟩ : String) ≠ "" := by
        intro hc
        rw [String.ext_iff] at hc
        exact hne hc
      have hsep2 : sepOk p.2 = true := by
        have h2 := List.all_eq_true.1 h p (List.mem_cons_self _ _)
        simp only [Bool.and_eq_true] at h2
        exact h2.2
      have hitem2 : itemOk p.1 = true := by
        have h2 := List.all_eq_true.1 h p (List.mem_cons_self _ _)
        simp only [Bool.and_eq_true] at h2
        exact h2.1
      have hhead : ∀ c, (renderPgn (p :: items2)).head? = some c →
          ¬c = '﻿' := by
        intro c hc
        rw [show renderPgn (p :: items2) =
          (itemRender p.1 ++ [p.2]) ++ renderPgn items2 from rfl] at hc
        cases hr : itemRender p.1 with
        | nil =>
            rw [hr] at hc
            simp only [List.nil_append, List.singleton_append, List.head?_cons,
              Option.some.injEq] at hc
            subst hc
            simp only [sepOk, decide_eq_true_eq] at hsep2
            rcases hsep2 with h2 | h2 | h2 <;> rw [h2] <;> decide
        | cons a as =>
            rw [hr] at hc
            simp only [List.cons_append, List.head?_cons,
              Option.some.injEq] at hc
            subst hc
            exact itemRender_head hitem2 hr
      rw [normalizePgn_chain _ hraw]
      rw [stripBom_eq hhead, stage1_charFix _ h, stage2_tags _ h,
        stage3_braces _ h, stage4_parens _ h, stage5_nags _ h,
        stage6_castle _ h none rfl, stage7_castle _ h none rfl,
        stage8_results _ h none rfl, stage9_dots _ h,
        (ws_spTab _).1, trim_ws_false_true, stageW _ h,
        trimJoin _ (residue_words h)]

/-! ### The clean equivalent of a dirty movetext -/

/-- The clean counterpart of one item: SAN tokens and move numbers stay
(ellipses dropped), castling is `O`-based with a plain hyphen, and
headers, comments, variations, NAGs and result tokens disappear. -/
def cleanItem : PgnItem → Option PgnItem
  | .tokI t => some (.tokI t)
  | .castleI big _ _ suf => some (.castleI big false '-' suf)
  | .numI ds _ => some (.numI ds false)
  | _ => none

/-- The clean equivalent of a dirty item sequence: cleaned items,
separated by plain spaces. -/
def cleanItems (items : List (PgnItem × Char)) : List (PgnItem × Char) :=
  items.filterMap fun p => (cleanItem p.1).map fun i => (i, ' ')

/-- An item carrying none of the dirty artifacts. -/
def artifactFree : PgnItem → Bool
  | .tokI _ => true
  | .castleI _ zero d _ => !zero && d = '-'
  | .numI _ ell => !ell
  | _ => false

theorem cleanItems_residue (items : List (PgnItem × Char)) :
    (cleanItems items).filterMap (fun p => residue p.1) =
      items.filterMap fun p => residue p.1 := by
  induction items with
  | nil => rfl
  | cons p items ih =>
      obtain ⟨i, sc⟩ := p
      cases i <;>
        simp [cleanItems, cleanItem, residue, List.filterMap_cons, ih] <;>
        simp [cleanItems] at ih <;> exact ih

theorem cleanItems_ok {items : List (PgnItem × Char)}
    (h : itemsOk items = true) : itemsOk (cleanItems items) = true := by
  induction items with
  | nil => rfl
  | cons p items ih =>
      rw [itemsOk, List.all_cons, Bool.and_eq_true, Bool.and_eq_true] at h
      obtain ⟨⟨hitem, hsep⟩, hrest⟩ := h
      have hih := ih hrest
      obtain ⟨i, sc⟩ := p
      simp only at hitem
      cases i with
      | tokI t =>
          rw [show cleanItems ((PgnItem.tokI t, sc) :: items) =
            (PgnItem.tokI t, ' ') :: cleanItems items from by
              simp [cleanItems, cleanItem]]
          rw [itemsOk, List.all_cons, Bool.and_eq_true, Bool.and_eq_true]
          exact ⟨⟨hitem, by rfl⟩, hih⟩
      | castleI big zero d suf =>
          rw [itemOk, Bool.and_eq_true] at hitem
          rw [show cleanItems ((PgnItem.castleI big zero d suf, sc) :: items) =
            (PgnItem.castleI big false '-' suf, ' ') :: cleanItems items from by
              simp [cleanItems, cleanItem]]
          rw [itemsOk, List.all_cons, Bool.and_eq_true, Bool.and_eq_true]
          refine ⟨⟨?_, by rfl⟩, hih⟩
          rw [itemOk, Bool.and_eq_true]
          exact ⟨by decide, hitem.2⟩
      | numI ds ell =>
          rw [show cleanItems ((PgnItem.numI ds ell, sc) :: items) =
            (PgnItem.numI ds false, ' ') :: cleanItems items from by
              simp [cleanItems, cleanItem]]
          rw [itemsOk, List.all_cons, Bool.and_eq_true, Bool.and_eq_true]
          exact ⟨⟨hitem, by rfl⟩, hih⟩
      | headerI content =>
          rw [show cleanItems ((PgnItem.headerI content, sc) :: items) =
            cleanItems items from by simp [cleanItems, cleanItem]]
          exact hih
      | commentI content =>
          rw [show cleanItems ((PgnItem.commentI content, sc) :: items) =
            cleanItems items from by simp [cleanItems, cleanItem]]
          exact hih
      | varI content =>
          rw [show cleanItems ((PgnItem.varI content, sc) :: items) =
            cleanItems items from by simp [cleanItems, cleanItem]]
          exact hih
      | nagI ds =>
          rw [show cleanItems ((PgnItem.nagI ds, sc) :: items) =
            cleanItems items from by simp [cleanItems, cleanItem]]
          exact hih
      | resI k d =>
          rw [show cleanItems ((PgnItem.resI k d, sc) :: items) =
            cleanItems items from by simp [cleanItems, cleanItem]]
          exact hih

theorem cleanItems_clean (items : List (PgnItem × Char)) :
    (cleanItems items).all (fun p => artifactFree p.1 && p.2 = ' ') = true := by
  induction items with
  | nil => rfl
  | cons p items ih =>
      obtain ⟨i, sc⟩ := p
      cases i with
      | tokI t =>
          rw [show cleanItems ((PgnItem.tokI t, sc) :: items) =
            (PgnItem.tokI t, ' ') :: cleanItems items from by
              simp [cleanItems, cleanItem]]
          rw [List.all_cons, Bool.and_eq_true]
          exact ⟨by rfl, ih⟩
      | castleI big zero d suf =>
          rw [show cleanItems ((PgnItem.castleI big zero d suf, sc) :: items) =
            (PgnItem.castleI big false '-' suf, ' ') :: cleanItems items from by
              simp [cleanItems, cleanItem]]
          rw [List.all_cons, Bool.and_eq_true]
          exact ⟨by rfl, ih⟩
      | numI ds ell =>
          rw [show cleanItems ((PgnItem.numI ds ell, sc) :: items) =
            (PgnItem.numI ds false, ' ') :: cleanItems items from by
              simp [cleanItems, cleanItem]]
          rw [List.all_cons, Bool.and_eq_true]
          exact ⟨by rfl, ih⟩
      | headerI content =>
          rw [show cleanItems ((PgnItem.headerI content, sc) :: items) =
            cleanItems items from by simp [cleanItems, cleanItem]]
          exact ih
      | commentI content =>
          rw [show cleanItems ((PgnItem.commentI content, sc) :: items) =
            cleanItems items from by simp [cleanItems, cleanItem]]
          exact ih
      | varI content =>
          rw [show cleanItems ((PgnItem.varI content, sc) :: items) =
            cleanItems items from by simp [cleanItems, cleanItem]]
          exact ih
      | nagI ds =>
          rw [show cleanItems ((PgnItem.nagI ds, sc) :: items) =
            cleanItems items from by simp [cleanItems, cleanItem]]
          exact ih
      | resI k d =>
          rw [show cleanItems ((PgnItem.resI k d, sc) :: items) =
            cleanItems items from by simp [cleanItems, cleanItem]]
          exact ih

theorem parseGameLoose_norm {B : Type} (loadPgn : String → Option B)
    (moveTol : B → String → Option B) (freshBoard : B) {p1 p2 : String}
    (h : normalizePgn p1 = normalizePgn p2) :
    parseGameLoose loadPgn moveTol freshBoard p1 =
      parseGameLoose loadPgn moveTol freshBoard p2 := by
  simp only [parseGameLoose, h]

/-- C8: a dirty movetext carrying bracketed headers, curly-brace comments,
parenthesized variations, NAG glyphs, smart dashes, non-breaking spaces,
zero-based castling and game-result tokens normalizes to exactly the same
string as its clean equivalent (cleaned items, plain-space separated,
artifact-free and still well-formed), so `parseGameLoose` — for any strict
loader, tolerant move validator and fresh board — parses the dirty text
and the clean text to the same game. -/
theorem c8_loose_parse_ignores_artifacts {B : Type}
    (loadPgn : String → Option B) (moveTol : B → String → Option B)
    (freshBoard : B) (items : List (PgnItem × Char))
    (h : itemsOk items = true) :
    itemsOk (cleanItems items) = true ∧
    (cleanItems items).all (fun p => artifactFree p.1 && p.2 = ' ') = true ∧
    normalizePgn ⟨renderPgn items⟩ =
      normalizePgn ⟨renderPgn (cleanItems items)⟩ ∧
    parseGameLoose loadPgn moveTol freshBoard ⟨renderPgn items⟩ =
      parseGameLoose loadPgn moveTol freshBoard
        ⟨renderPgn (cleanItems items)⟩ := by
  have hok := cleanItems_ok h
  have hnorm : normalizePgn ⟨renderPgn items⟩ =
      normalizePgn ⟨renderPgn (cleanItems items)⟩ := by
    rw [normalizePgn_render items h, normalizePgn_render _ hok,
      cleanItems_residue]
  exact ⟨hok, cleanItems_clean items, hnorm,
    parseGameLoose_norm loadPgn moveTol freshBoard hnorm⟩

/-- A dirty movetext exercising every artifact: a header, a comment, a
variation, a NAG, an ellipsis move number, a non-breaking-space
separator, zero-based castling with a smart dash, and a smart-dashed
result token. -/
def c8Items : List (PgnItem × Char) :=
  [(.headerI ['E', 'v', 'e', 'n', 't'], '\n'),
    (.numI ['1'] false, ' '),
    (.tokI "e4", ' '),
    (.commentI ['g', 'o', 'o', 'd'], ' '),
    (.numI ['1'] true, ' '),
    (.tokI "e5", ' '),
    (.varI ['2', '.', 'd', '4'], ' '),
    (.nagI ['1', '4'], ' '),
    (.numI ['2'] false, ' '),
    (.castleI false true '–' none, ' '),
    (.tokI "Nf6", ' '),
    (.resI 0 '–', '\n')]

theorem c8_loose_parse_ignores_artifacts_witness :
    itemsOk c8Items = true ∧
    (itemsOk (cleanItems c8Items) = true ∧
      (cleanItems c8Items).all (fun p => artifactFree p.1 && p.2 = ' ') = true ∧
      normalizePgn ⟨renderPgn c8Items⟩ =
        normalizePgn ⟨renderPgn (cleanItems c8Items)⟩ ∧
      parseGameLoose (fun _ => none) (fun b _ => some (b + 1)) (0 : Nat)
          ⟨renderPgn c8Items⟩ =
        parseGameLoose (fun _ => none) (fun b _ => some (b + 1)) (0 : Nat)
          ⟨renderPgn (cleanItems c8Items)⟩) :=
  ⟨by decide, c8_loose_parse_ignores_artifacts (fun _ => none)
    (fun b _ => some (b + 1)) 0 c8Items (by decide)⟩

end ChessAnalyzer
